import Mathlib

/-!
Verification of the graph / shortest-path library in `solution_05.py`.

The Python source is shallowly embedded:
* Python floats are modelled by `ℚ` (exact arithmetic; `float('inf')` becomes
  `none` in an `Option ℚ`, with `none` acting as `+∞`).
* Python dicts (insertion ordered, unique keys) are modelled by association
  lists (`List (String × α)`) with lookup of the first matching key, and
  in-place value update preserving position.
* `heapq` heaps are modelled by plain lists together with a
  remove-the-least-entry operation; since every heap entry carries a unique
  counter value, the lexicographic entry order is total and the sequence of
  popped entries of a binary heap is exactly "remove the least each time".
* `while` loops become fuel-indexed recursions; `none` as a search result
  means the Python program would not have returned normally (unhandled
  exception or nontermination).  Fuel bounds proved sufficient are part of
  the verification.
* Uncaught Python exceptions (`KeyError` from `del`/`[...]`, `TypeError` from
  subscripting `None`) are modelled by error results at the point they occur.
-/

/-- Insertion-ordered dictionary lookup: first binding of the key. -/
def dlookup {α : Type} : List (String × α) → String → Option α
  | [], _ => none
  | (k, v) :: rest, key => if k = key then some v else dlookup rest key

/-- Python `d[k] = v`: overwrite in place if the key is present (keeping its
position, as Python dicts do), otherwise append a new binding. -/
def dset {α : Type} : List (String × α) → String → α → List (String × α)
  | [], key, v => [(key, v)]
  | (k, w) :: rest, key, v =>
      if k = key then (k, v) :: rest else (k, w) :: dset rest key v

/-- `Vertex.__init__` (solution_05.py line 24): id, adjacency dict
(neighbor id ↦ edge weight), visited flag, coordinates. -/
structure Vertex where
  id : String
  adj : List (String × ℚ)
  visited : Bool
  x : ℚ
  y : ℚ
deriving DecidableEq, Repr

/-- `Graph.__init__` (line 118): a size counter and the vertex dict.
The plotting fields `plot_show`/`plot_delay` only affect visualization and are
not modelled. -/
structure Graph where
  size : ℕ
  vertices : List (String × Vertex)
deriving DecidableEq, Repr

def Graph.emptyG : Graph := ⟨0, []⟩

/-- `Graph.get_vertex_by_id` (line 302). -/
def Graph.getVertexById (g : Graph) (vertexId : String) : Option Vertex :=
  dlookup g.vertices vertexId

/-- Update the vertex stored under a key, in place. This models mutating the
Python `Vertex` object held in `self.vertices`. -/
def updVertex : List (String × Vertex) → String → (Vertex → Vertex) → List (String × Vertex)
  | [], _, _ => []
  | (k, v) :: rest, key, f =>
      if k = key then (k, f v) :: rest else (k, v) :: updVertex rest key f

/-- `Graph.add_to_graph` (line 232): create the begin vertex if absent; if an
end id is given, create it if absent and set/overwrite the edge weight. -/
def Graph.addToGraph (g : Graph) (beginId : String) (endId : Option String) (weight : ℚ) : Graph :=
  let g1 : Graph :=
    if (dlookup g.vertices beginId).isNone then
      ⟨g.size + 1, g.vertices ++ [(beginId, ⟨beginId, [], false, 0, 0⟩)]⟩
    else g
  match endId with
  | none => g1
  | some e =>
    let g2 : Graph :=
      if (dlookup g1.vertices e).isNone then
        ⟨g1.size + 1, g1.vertices ++ [(e, ⟨e, [], false, 0, 0⟩)]⟩
      else g1
    ⟨g2.size, updVertex g2.vertices beginId (fun v => { v with adj := dset v.adj e weight })⟩

/-- `Graph.get_edge_by_ids` (line 317): the `(begin, end, weight)` triple, or
`none` when either vertex is absent or there is no such edge. -/
def Graph.getEdgeByIds (g : Graph) (beginId endId : String) : Option (String × String × ℚ) :=
  match dlookup g.vertices beginId, dlookup g.vertices endId with
  | some vb, some _ =>
      match dlookup vb.adj endId with
      | some w => some (beginId, endId, w)
      | none => none
  | _, _ => none

/-- The weight of the edge `u → v`, when both vertices and the edge exist. -/
def edgeWeight (g : Graph) (u v : String) : Option ℚ :=
  (g.getEdgeByIds u v).map (fun t => t.2.2)

def isVertex (g : Graph) (v : String) : Bool :=
  (dlookup g.vertices v).isSome

def gkeys (g : Graph) : List String := g.vertices.map Prod.fst

/-- The adjacency list of a vertex id.  On a well-formed graph this is exactly
`self.vertices[id].adj`; for an absent id the Python code would raise
`KeyError` (the theorems below always assume well-formedness). -/
def adjOf (g : Graph) (v : String) : List (String × ℚ) :=
  match dlookup g.vertices v with
  | some vx => vx.adj
  | none => []

/-- The documented data-model invariant of the Python `Graph` class (spec §3):
vertex keys are unique, `size` matches the vertex-dict cardinality, each
`Vertex.id` equals its key, adjacency keys are unique, and every adjacency key
names an existing vertex. -/
def WellFormed (g : Graph) : Prop :=
  (gkeys g).Nodup ∧ g.size = g.vertices.length ∧
    ∀ kv ∈ g.vertices, kv.2.id = kv.1 ∧ (kv.2.adj.map Prod.fst).Nodup ∧
      ∀ p ∈ kv.2.adj, isVertex g p.1 = true

/-- All edge weights are non-negative (hypothesis of the Dijkstra-style
claims). -/
def NonnegWeights (g : Graph) : Prop :=
  ∀ kv ∈ g.vertices, ∀ p ∈ kv.2.adj, 0 ≤ p.2

/-- Total weight of a vertex sequence, `none` if some consecutive pair is not
an edge of the graph (or the list is empty). -/
def walkCost (g : Graph) : List String → Option ℚ
  | [] => none
  | [_] => some 0
  | u :: v :: rest =>
      match edgeWeight g u v, walkCost g (v :: rest) with
      | some w, some c => some (w + c)
      | _, _ => none

/-- `l` is a walk from `a` to `b` in `g` (vertex repetitions allowed). -/
def ValidWalk (g : Graph) (a b : String) (l : List String) : Prop :=
  l.head? = some a ∧ l.getLast? = some b ∧ (walkCost g l).isSome

/-- Number of edges of a walk. -/
def hops (l : List String) : ℕ := l.length - 1

theorem dlookup_isSome_iff {α : Type} (l : List (String × α)) (k : String) :
    (dlookup l k).isSome ↔ k ∈ l.map Prod.fst := by
  induction l with
  | nil => simp [dlookup]
  | cons hd tl ih =>
    by_cases h : hd.1 = k
    · simp [dlookup, h]
    · simp only [dlookup, h, if_false, List.map_cons, List.mem_cons]
      rw [ih]
      constructor
      · intro hm
        exact Or.inr hm
      · intro hm
        rcases hm with hm | hm
        · exact absurd hm.symm h
        · exact hm

theorem dlookup_eq_some_mem {α : Type} {l : List (String × α)} {k : String} {v : α}
    (h : dlookup l k = some v) : (k, v) ∈ l := by
  induction l with
  | nil => simp [dlookup] at h
  | cons hd tl ih =>
    by_cases hk : hd.1 = k
    · simp only [dlookup, hk, if_true, Option.some.injEq] at h
      subst h
      have : (k, hd.2) = hd := by
        rw [← hk]
      rw [this]
      exact List.mem_cons_self _ _
    · simp only [dlookup, hk, if_false] at h
      exact List.mem_cons_of_mem _ (ih h)

theorem mem_dlookup {α : Type} {l : List (String × α)} {k : String} {v : α}
    (hnd : (l.map Prod.fst).Nodup) (h : (k, v) ∈ l) : dlookup l k = some v := by
  induction l with
  | nil => simp at h
  | cons hd tl ih =>
    simp only [List.map_cons, List.nodup_cons] at hnd
    rcases List.mem_cons.mp h with h | h
    · subst h
      simp [dlookup]
    · have hk : hd.1 ≠ k := by
        intro he
        exact hnd.1 (he ▸ (List.mem_map.mpr ⟨(k, v), h, rfl⟩))
      simp only [dlookup, hk, if_false]
      exact ih hnd.2 h

theorem edgeWeight_some {g : Graph} {u v : String} {w : ℚ} :
    edgeWeight g u v = some w ↔
      ∃ vu, dlookup g.vertices u = some vu ∧ isVertex g v = true ∧
        dlookup vu.adj v = some w := by
  unfold edgeWeight Graph.getEdgeByIds isVertex
  cases hlu : dlookup g.vertices u with
  | none => simp
  | some vu =>
    cases hlv : dlookup g.vertices v with
    | none => simp
    | some vv =>
      cases hla : dlookup vu.adj v with
      | none => simp [hla]
      | some w2 => simp [hla]

theorem walkCost_nonneg (g : Graph) (hw : NonnegWeights g) :
    ∀ l c, walkCost g l = some c → 0 ≤ c := by
  intro l
  induction l with
  | nil => intro c hc; simp [walkCost] at hc
  | cons u rest ih =>
    intro c hc
    cases rest with
    | nil =>
      simp only [walkCost, Option.some.injEq] at hc
      exact hc ▸ le_refl 0
    | cons v rest2 =>
      simp only [walkCost] at hc
      cases hew : edgeWeight g u v with
      | none => rw [hew] at hc; exact absurd hc (by simp)
      | some w =>
        cases hwc : walkCost g (v :: rest2) with
        | none => rw [hew, hwc] at hc; exact absurd hc (by simp)
        | some c2 =>
          rw [hew, hwc] at hc
          simp only [Option.some.injEq] at hc
          subst hc
          have h2 : 0 ≤ c2 := ih c2 hwc
          have h1 : 0 ≤ w := by
            obtain ⟨vu, hlu, _, hla⟩ := edgeWeight_some.mp hew
            exact hw (u, vu) (dlookup_eq_some_mem hlu) (v, w) (dlookup_eq_some_mem hla)
          linarith

/-- Outcome of `Graph.build_path`: a reconstructed path with its total
distance, or the uncaught exception raised when a predecessor lookup fails
(`back_edges.get` returning `None`, or `get_edge_by_ids(...)` returning `None`
and being subscripted). -/
inductive BPOut where
  | ok : List String → ℚ → BPOut
  | err : BPOut
deriving DecidableEq, Repr

/-- The `while path[-1] != begin_id` loop of `Graph.build_path` (line 346).
`path` is kept most-recent-first, so it is already in begin→end order when the
loop stops (the Python code stores it end-first and reverses at the end).
`none` means the fuel ran out, i.e. the Python loop had not yet terminated. -/
def buildPathLoop (g : Graph) (back : String → Option String) (beginId : String) :
    ℕ → List String → ℚ → Option BPOut
  | 0, _, _ => none
  | fuel+1, path, dist =>
    match path with
    | [] => some BPOut.err
    | top :: _ =>
      if top = beginId then some (BPOut.ok path dist)
      else
        match back top with
        | none => some BPOut.err
        | some u =>
          match edgeWeight g u top with
          | none => some BPOut.err
          | some w => buildPathLoop g back beginId fuel (u :: path) (dist + w)

/-- `Graph.build_path` (line 335), with explicit fuel. -/
def Graph.buildPath (g : Graph) (back : String → Option String)
    (beginId endId : String) (fuel : ℕ) : Option BPOut :=
  buildPathLoop g back beginId fuel [endId] 0

/-- A chain of graph edges leading from a vertex back to `beginId` through
the predecessor map: exactly the situation in which the
`while path[-1] != begin_id` loop of `build_path` can terminate normally. -/
inductive BackChain (g : Graph) (back : String → Option String) (beginId : String) :
    String → Prop where
  | base : BackChain g back beginId beginId
  | step : ∀ v u, v ≠ beginId → back v = some u → (edgeWeight g u v).isSome →
      BackChain g back beginId u → BackChain g back beginId v

/-- As `BackChain`, additionally recording the reconstructed vertex list
(begin-to-end order) and its total weight. -/
inductive BackChainL (g : Graph) (back : String → Option String) (beginId : String) :
    String → List String → ℚ → Prop where
  | base : BackChainL g back beginId beginId [beginId] 0
  | step : ∀ v u l c w, v ≠ beginId → back v = some u → edgeWeight g u v = some w →
      BackChainL g back beginId u l c → BackChainL g back beginId v (l ++ [v]) (c + w)

theorem buildPathLoop_mono (g : Graph) (back : String → Option String) (beginId : String) :
    ∀ (n m : ℕ) (path : List String) (dist : ℚ) (r : BPOut),
      buildPathLoop g back beginId n path dist = some r → n ≤ m →
        buildPathLoop g back beginId m path dist = some r := by
  intro n
  induction n with
  | zero => intro m path dist r h; simp [buildPathLoop] at h
  | succ k ih =>
    intro m path dist r h hle
    match m with
    | 0 => omega
    | m1+1 =>
      cases path with
      | nil => simpa [buildPathLoop] using h
      | cons top rest =>
        simp only [buildPathLoop] at h ⊢
        by_cases htop : top = beginId
        · simpa [htop] using h
        · simp only [htop, if_false] at h ⊢
          cases hb : back top with
          | none => simpa [hb] using h
          | some u =>
            simp only [hb] at h ⊢
            cases he : edgeWeight g u top with
            | none => simpa [he] using h
            | some w =>
              simp only [he] at h ⊢
              exact ih m1 _ _ r h (by omega)

/-- If the loop returns a path, a back chain exists. -/
theorem buildPathLoop_ok_chain (g : Graph) (back : String → Option String)
    (beginId : String) :
    ∀ (n : ℕ) (v : String) (acc : List String) (dist : ℚ) (p : List String) (d : ℚ),
      buildPathLoop g back beginId n (v :: acc) dist = some (BPOut.ok p d) →
        BackChain g back beginId v := by
  intro n
  induction n with
  | zero => intro v acc dist p d h; simp [buildPathLoop] at h
  | succ k ih =>
    intro v acc dist p d h
    simp only [buildPathLoop] at h
    by_cases htop : v = beginId
    · exact htop ▸ BackChain.base
    · simp only [htop, if_false] at h
      cases hb : back v with
      | none => simp [hb] at h
      | some u =>
        simp only [hb] at h
        cases he : edgeWeight g u v with
        | none => simp [he] at h
        | some w =>
          simp only [he] at h
          exact BackChain.step v u htop hb (by rw [he]; simp) (ih u (v :: acc) _ p d h)

/-- If a back chain with its list and cost exists, the loop reconstructs
exactly that list and cost (given enough fuel). -/
theorem buildPathLoop_ok_of_chain (g : Graph) (back : String → Option String)
    (beginId : String) :
    ∀ (v : String) (l : List String) (c : ℚ),
      BackChainL g back beginId v l c →
      ∀ (acc : List String) (dist : ℚ) (n : ℕ), l.length ≤ n →
        buildPathLoop g back beginId n (v :: acc) dist =
          some (BPOut.ok (l ++ acc) (dist + c)) := by
  intro v l c hch
  induction hch with
  | base =>
    intro acc dist n hn
    match n with
    | 0 => simp at hn
    | n1+1 =>
      simp [buildPathLoop]
  | step v u l c w hne hb he hch ih =>
    intro acc dist n hn
    match n with
    | 0 => simp at hn
    | n1+1 =>
      simp only [buildPathLoop, hne, if_false, hb, he]
      have hlen : l.length ≤ n1 := by
        simp only [List.length_append, List.length_singleton] at hn
        omega
      rw [ih (v :: acc) (dist + w) n1 hlen]
      congr 1
      congr 1
      · simp
      · ring

/-- A back chain's list is a walk from `beginId` to its endpoint whose total
weight is the chain cost. -/
theorem backChainL_walk (g : Graph) (back : String → Option String) (beginId : String) :
    ∀ (v : String) (l : List String) (c : ℚ),
      BackChainL g back beginId v l c →
        ValidWalk g beginId v l ∧ walkCost g l = some c := by
  intro v l c hch
  induction hch with
  | base => exact ⟨⟨rfl, rfl, by simp [walkCost]⟩, rfl⟩
  | step v u l c w hne hb he hch ih =>
    obtain ⟨⟨hhead, hlast, hsome⟩, hcost⟩ := ih
    have hl : l ≠ [] := by
      intro hcon
      rw [hcon] at hhead
      simp at hhead
    have key : ∀ (l2 : List String) (c2 : ℚ), l2.getLast? = some u → walkCost g l2 = some c2 →
        walkCost g (l2 ++ [v]) = some (c2 + w) := by
      intro l2
      induction l2 with
      | nil => intro c2 h; simp at h
      | cons x xs ih2 =>
        intro c2 hlast2 hcost2
        cases xs with
        | nil =>
          simp only [List.getLast?_singleton, Option.some.injEq] at hlast2
          subst hlast2
          simp only [walkCost, Option.some.injEq] at hcost2
          simp only [List.singleton_append, walkCost, he]
          rw [← hcost2]
          norm_num
        | cons y ys =>
          have hlast3 : (y :: ys).getLast? = some u := by
            rw [← hlast2]
            simp [List.getLast?_cons_cons]
          simp only [walkCost] at hcost2
          cases hew : edgeWeight g x y with
          | none => rw [hew] at hcost2; exact absurd hcost2 (by simp)
          | some w2 =>
            cases hwc : walkCost g (y :: ys) with
            | none => rw [hew, hwc] at hcost2; exact absurd hcost2 (by simp)
            | some c3 =>
              rw [hew, hwc] at hcost2
              simp only [Option.some.injEq] at hcost2
              have hstep := ih2 c3 hlast3 hwc
              have harr : ((x :: y :: ys) ++ [v] : List String) = x :: ((y :: ys) ++ [v]) := by
                simp
              rw [harr]
              have hwv : walkCost g (x :: ((y :: ys) ++ [v])) =
                  match edgeWeight g x y, walkCost g ((y :: ys) ++ [v]) with
                  | some wxy, some crest => some (wxy + crest)
                  | _, _ => none := rfl
              rw [hwv, hew, hstep]
              simp only [Option.some.injEq]
              rw [← hcost2]
              ring
    refine ⟨⟨?_, ?_, ?_⟩, key l c hlast hcost⟩
    · rw [← hhead]
      cases l with
      | nil => simp at hhead
      | cons x xs => simp
    · simp
    · rw [key l c hlast hcost]
      simp

/-- C9 (amended): when the predecessor map holds no chain of graph edges from
`end_id` back to `begin_id`, `build_path` never returns a path — it either
fails loudly with a lookup failure, or (when the predecessor walk cycles over
real edges) fails to terminate. -/
theorem claim_C9 (g : Graph) (back : String → Option String) (beginId endId : String)
    (hnc : ¬ BackChain g back beginId endId) :
    (∀ (fuel : ℕ) (p : List String) (d : ℚ),
      g.buildPath back beginId endId fuel ≠ some (BPOut.ok p d)) ∧
    ((∃ fuel, g.buildPath back beginId endId fuel = some BPOut.err) ∨
      ∀ fuel, g.buildPath back beginId endId fuel = none) := by
  have hnok : ∀ (fuel : ℕ) (p : List String) (d : ℚ),
      g.buildPath back beginId endId fuel ≠ some (BPOut.ok p d) := by
    intro fuel p d hcon
    exact hnc (buildPathLoop_ok_chain g back beginId fuel endId [] 0 p d hcon)
  refine ⟨hnok, ?_⟩
  by_cases hex : ∃ fuel r, g.buildPath back beginId endId fuel = some r
  · obtain ⟨fuel, r, hr⟩ := hex
    cases r with
    | ok p d => exact absurd hr (hnok fuel p d)
    | err => exact Or.inl ⟨fuel, hr⟩
  · refine Or.inr ?_
    intro fuel
    cases hr : g.buildPath back beginId endId fuel with
    | none => rfl
    | some r => exact absurd ⟨fuel, r, hr⟩ hex

/-- The Python call diverges: no amount of fuel makes the loop return. -/
def BuildPathDiverges (g : Graph) (back : String → Option String)
    (beginId endId : String) : Prop :=
  ∀ fuel, g.buildPath back beginId endId fuel = none

/-- Two-vertex graph with edges X→Y(1) and Y→X(1). -/
def cycG : Graph :=
  (Graph.emptyG.addToGraph "X" (some "Y") 1).addToGraph "Y" (some "X") 1

/-- A predecessor map whose walk from X cycles X→Y→X→… over real edges. -/
def cycBack : String → Option String :=
  fun v => if v = "X" then some "Y" else if v = "Y" then some "X" else none

theorem cyc_diverges_aux :
    ∀ (fuel : ℕ) (v : String) (acc : List String) (dist : ℚ), (v = "X" ∨ v = "Y") →
      buildPathLoop cycG cycBack "A" fuel (v :: acc) dist = none := by
  intro fuel
  induction fuel with
  | zero => intro v acc dist _; rfl
  | succ k ih =>
    have heYX : edgeWeight cycG "Y" "X" = some 1 := by with_unfolding_all decide
    have heXY : edgeWeight cycG "X" "Y" = some 1 := by with_unfolding_all decide
    have hbX : cycBack "X" = some "Y" := by simp [cycBack]
    have hbY : cycBack "Y" = some "X" := by simp [cycBack]
    intro v acc dist hv
    rcases hv with hv | hv <;> subst hv
    · simp only [buildPathLoop]
      rw [if_neg (by decide : ¬ ("X" : String) = "A")]
      simp only [hbX, heYX]
      exact ih "Y" _ _ (Or.inr rfl)
    · simp only [buildPathLoop]
      rw [if_neg (by decide : ¬ ("Y" : String) = "A")]
      simp only [hbY, heXY]
      exact ih "X" _ _ (Or.inl rfl)

theorem cyc_no_chain : ∀ v, BackChain cycG cycBack "A" v → v = "A" := by
  have hbX : cycBack "X" = some "Y" := by simp [cycBack]
  have hbY : cycBack "Y" = some "X" := by simp [cycBack]
  intro v h
  induction h with
  | base => rfl
  | step v u hne hb he hch ih =>
    by_cases hx : v = "X"
    · subst hx
      rw [hbX] at hb
      injection hb with hb2
      rw [← hb2] at ih
      exact absurd ih (by decide)
    · by_cases hy : v = "Y"
      · subst hy
        rw [hbY] at hb
        injection hb with hb2
        rw [← hb2] at ih
        exact absurd ih (by decide)
      · rw [cycBack] at hb
        rw [if_neg hx, if_neg hy] at hb
        exact absurd hb (by simp)

/-- Counterexample to C9 as stated: the predecessor map `{X ↦ Y, Y ↦ X}` over
the graph X→Y(1), Y→X(1) holds no chain from X back to A, yet
`build_path(preds, A, X)` does not fail with a lookup error — it never
terminates. -/
theorem claim_C9_counterexample :
    (¬ BackChain cycG cycBack "A" "X") ∧ BuildPathDiverges cycG cycBack "A" "X" := by
  constructor
  · intro h
    exact absurd (cyc_no_chain "X" h) (by decide)
  · intro fuel
    exact cyc_diverges_aux fuel "X" [] 0 (Or.inl rfl)

/-- A predecessor map with a dangling predecessor (no such edge). -/
def backMiss : String → Option String :=
  fun v => if v = "X" then some "Q" else none

theorem backMiss_no_chain : ¬ BackChain cycG backMiss "A" "X" := by
  have key : ∀ v, BackChain cycG backMiss "A" v → v = "A" := by
    have hbX : backMiss "X" = some "Q" := by simp [backMiss]
    intro v h
    induction h with
    | base => rfl
    | step v u hne hb he hch ih =>
      by_cases hx : v = "X"
      · subst hx
        rw [hbX] at hb
        injection hb with hb2
        rw [← hb2] at he
        rw [show edgeWeight cycG "Q" "X" = none from by with_unfolding_all decide] at he
        exact absurd he (by simp)
      · rw [backMiss] at hb
        rw [if_neg hx] at hb
        exact absurd hb (by simp)
  intro h
  exact absurd (key "X" h) (by decide)

/-- Witness for C9: the amended theorem applied to a concrete chainless
predecessor map. -/
theorem claim_C9_witness :
    (¬ BackChain cycG backMiss "A" "X") ∧
    cycG.buildPath backMiss "A" "X" 5 ≠ some (BPOut.ok ["A", "X"] 1) :=
  ⟨backMiss_no_chain, (claim_C9 cycG backMiss "A" "X" backMiss_no_chain).1 5 ["A", "X"] 1⟩

/-- The mutable locals of `Graph.bfs` (line 351): the FIFO queue of
`(vertex id, accumulated weight)` pairs, the discovered set `v` (kept as a
list in discovery order; only membership is observable), and the back-edge
dict. -/
structure BState where
  q : List (String × ℚ)
  vis : List String
  back : String → Option String

/-- The `for next_id, weight in ...adj.items()` loop of `bfs` (line 372). -/
def bfsRelax (curId : String) (dist : ℚ) :
    List (String × ℚ) → BState → BState
  | [], st => st
  | (nid, w) :: rest, st =>
    if nid ∈ st.vis then bfsRelax curId dist rest st
    else bfsRelax curId dist rest
      { q := st.q ++ [(nid, dist + w)],
        vis := st.vis ++ [nid],
        back := fun x => if x = nid then some curId else st.back x }

/-- One iteration of the `while not q.empty()` loop of `bfs` (line 367):
either the loop exits with a result (`Sum.inl`), or continues with a new
state (`Sum.inr`); `none` models an uncaught exception. -/
def bfsStep (g : Graph) (beginId endId : String) (st : BState) :
    Option (Sum (List String × ℚ) BState) :=
  match st.q with
  | [] => some (Sum.inl ([], 0))
  | (cur, dist) :: rest =>
    if cur = endId then
      match g.buildPath st.back beginId endId (g.vertices.length + 1) with
      | some (BPOut.ok p d) => some (Sum.inl (p, d))
      | _ => none
    else
      match dlookup g.vertices cur with
      | none => none
      | some vx => some (Sum.inr (bfsRelax cur dist vx.adj { st with q := rest }))

def bfsLoop (g : Graph) (beginId endId : String) : ℕ → BState → Option (List String × ℚ)
  | 0, _ => none
  | fuel+1, st =>
    match bfsStep g beginId endId st with
    | none => none
    | some (Sum.inl r) => some r
    | some (Sum.inr st2) => bfsLoop g beginId endId fuel st2

/-- Fuel sufficient for `bfs` on a well-formed graph: each iteration either
consumes a queue entry without discovering anything, or discovers at least one
new vertex; see `bfs` termination lemmas below. -/
def bfsFuel (g : Graph) : ℕ := 2 * g.vertices.length + 2

/-- `Graph.bfs` (line 351). -/
def Graph.bfs (g : Graph) (beginId endId : String) : Option (List String × ℚ) :=
  if (dlookup g.vertices beginId).isNone || (dlookup g.vertices endId).isNone then
    some ([], 0)
  else bfsLoop g beginId endId (bfsFuel g) ⟨[(beginId, 0)], [beginId], fun _ => none⟩

/-- The concrete graph of the spec scenario: edges A→B(1), B→C(1), A→C(5). -/
def exG1 : Graph :=
  ((Graph.emptyG.addToGraph "A" (some "B") 1).addToGraph "B" (some "C") 1).addToGraph
    "A" (some "C") 5

/-! ## Priority queue of `a_star` (`PriorityQueue`, line 474)

A heap record `[priority, count, vertex]` is modelled by `AEnt`; `pay = none`
is a record invalidated by `update` (line 550).  Priorities are `Option ℚ`
with `none` playing `float('inf')`.  The `heapq` heap is modelled by the list
of its records together with remove-the-least: since counters are unique the
record order is total, so a binary heap pops exactly the least record. -/

structure AEnt where
  pri : Option ℚ
  cnt : ℕ
  pay : Option String
deriving DecidableEq, Repr

/-- `<` on priorities, `none` being `+∞`. -/
def oLtP : Option ℚ → Option ℚ → Bool
  | some a, some b => decide (a < b)
  | some _, none => true
  | none, _ => false

/-- Lexicographic (priority, insertion counter) order on heap records;
Python compares the lists elementwise and unique counters mean the vertex
field never takes part. -/
def aentLe (e1 e2 : AEnt) : Bool :=
  oLtP e1.pri e2.pri || (decide (e1.pri = e2.pri) && decide (e1.cnt ≤ e2.cnt))

/-- Least element of a list with respect to a boolean comparison. -/
def listMinBy {α : Type} (le : α → α → Bool) : List α → Option α
  | [] => none
  | e :: rest =>
    match listMinBy le rest with
    | none => some e
    | some m => if le e m then some e else some m

/-- Remove the first occurrence of an element. -/
def eraseFirst {α : Type} [DecidableEq α] : List α → α → List α
  | [], _ => []
  | x :: xs, a => if x = a then xs else (x :: eraseFirst xs a)

theorem listMinBy_mem {α : Type} (le : α → α → Bool) :
    ∀ (l : List α) (m : α), listMinBy le l = some m → m ∈ l := by
  intro l
  induction l with
  | nil => intro m hm; simp [listMinBy] at hm
  | cons e rest ih =>
    intro m hm
    simp only [listMinBy] at hm
    cases hrec : listMinBy le rest with
    | none =>
      simp only [hrec, Option.some.injEq] at hm
      subst hm
      exact List.mem_cons_self _ _
    | some m2 =>
      simp only [hrec] at hm
      by_cases hle : le e m2 = true
      · simp only [hle, if_true, Option.some.injEq] at hm
        subst hm
        exact List.mem_cons_self _ _
      · simp [hle] at hm
        subst hm
        exact List.mem_cons_of_mem _ (ih _ hrec)

theorem listMinBy_none {α : Type} (le : α → α → Bool) (l : List α) :
    listMinBy le l = none ↔ l = [] := by
  cases l with
  | nil => simp [listMinBy]
  | cons e rest =>
    simp only [listMinBy]
    cases hrec : listMinBy le rest with
    | none => simp
    | some m => by_cases hle : le e m = true <;> simp [hle]

theorem eraseFirst_length {α : Type} [DecidableEq α] :
    ∀ (l : List α) (a : α), a ∈ l → (eraseFirst l a).length + 1 = l.length := by
  intro l
  induction l with
  | nil => intro a ha; simp at ha
  | cons x xs ih =>
    intro a ha
    by_cases hx : x = a
    · simp [eraseFirst, hx]
    · have : a ∈ xs := by
        rcases List.mem_cons.mp ha with h | h
        · exact absurd h.symm hx
        · exact h
      simp only [eraseFirst, hx, if_false, List.length_cons]
      rw [← ih a this]

theorem eraseFirst_subset {α : Type} [DecidableEq α] :
    ∀ (l : List α) (a x : α), x ∈ eraseFirst l a → x ∈ l := by
  intro l
  induction l with
  | nil => intro a x hx; simp [eraseFirst] at hx
  | cons y ys ih =>
    intro a x hx
    by_cases hy : y = a
    · simp only [eraseFirst, hy, if_true] at hx
      exact List.mem_cons_of_mem _ hx
    · simp only [eraseFirst, hy, if_false, List.mem_cons] at hx
      rcases hx with hx | hx
      · exact hx ▸ List.mem_cons_self _ _
      · exact List.mem_cons_of_mem _ (ih a x hx)

theorem eraseFirst_sublist {α : Type} [DecidableEq α] :
    ∀ (l : List α) (a : α), (eraseFirst l a).Sublist l := by
  intro l
  induction l with
  | nil => intro a; simp [eraseFirst]
  | cons x xs ih =>
    intro a
    by_cases hx : x = a
    · simp only [eraseFirst, hx, if_true]
      exact List.sublist_cons_self _ _
    · simp only [eraseFirst, hx, if_false]
      exact List.Sublist.cons₂ _ (ih a)

theorem eraseFirst_mem_of_ne {α : Type} [DecidableEq α] :
    ∀ (l : List α) (a x : α), x ∈ l → x ≠ a → x ∈ eraseFirst l a := by
  intro l
  induction l with
  | nil => intro a x hx; simp at hx
  | cons y ys ih =>
    intro a x hx hne
    by_cases hy : y = a
    · simp only [eraseFirst, hy, if_true]
      rcases List.mem_cons.mp hx with h | h
      · exact absurd (h.trans hy) hne
      · exact h
    · simp only [eraseFirst, hy, if_false, List.mem_cons]
      rcases List.mem_cons.mp hx with h | h
      · exact Or.inl h
      · exact Or.inr (ih a x h hne)

theorem listMinBy_le {α : Type} (le : α → α → Bool)
    (htot : ∀ a b, le a b = true ∨ le b a = true)
    (htrans : ∀ a b c, le a b = true → le b c = true → le a c = true) :
    ∀ (l : List α) (m : α), listMinBy le l = some m → ∀ e ∈ l, le m e = true := by
  intro l
  induction l with
  | nil => intro m hm; simp [listMinBy] at hm
  | cons e rest ih =>
    intro m hm x hx
    simp only [listMinBy] at hm
    cases hrec : listMinBy le rest with
    | none =>
      have : rest = [] := (listMinBy_none le rest).mp hrec
      subst this
      simp only [hrec, Option.some.injEq] at hm
      subst hm
      rcases List.mem_cons.mp hx with h | h
      · subst h
        rcases htot x x with h2 | h2 <;> exact h2
      · simp at h
    | some m2 =>
      simp only [hrec] at hm
      by_cases hle : le e m2 = true
      · simp only [hle, if_true, Option.some.injEq] at hm
        subst hm
        rcases List.mem_cons.mp hx with h | h
        · subst h
          rcases htot x x with h2 | h2 <;> exact h2
        · exact htrans _ _ _ hle (ih m2 hrec x h)
      · simp [hle] at hm
        subst hm
        rcases List.mem_cons.mp hx with h | h
        · subst h
          rcases htot x m2 with h2 | h2
          · exact absurd h2 hle
          · exact h2
        · exact ih m2 hrec x h

theorem oLtP_cases (p q : Option ℚ) :
    oLtP p q = true ∨ oLtP q p = true ∨ p = q := by
  cases p with
  | none =>
    cases q with
    | none => right; right; rfl
    | some b => right; left; simp [oLtP]
  | some a =>
    cases q with
    | none => left; simp [oLtP]
    | some b =>
      rcases lt_trichotomy a b with h | h | h
      · left; simp [oLtP, h]
      · right; right; rw [h]
      · right; left; simp [oLtP, h]

theorem oLtP_irrefl (p : Option ℚ) : oLtP p p = false := by
  cases p with
  | none => rfl
  | some a => simp [oLtP]

theorem oLtP_trans {p q r : Option ℚ} (h1 : oLtP p q = true) (h2 : oLtP q r = true) :
    oLtP p r = true := by
  cases p with
  | none => simp [oLtP] at h1
  | some a =>
    cases q with
    | none => simp [oLtP] at h2
    | some b =>
      cases r with
      | none => simp [oLtP]
      | some c =>
        simp only [oLtP, decide_eq_true_eq] at h1 h2 ⊢
        linarith

theorem oLtP_asymm {p q : Option ℚ} (h1 : oLtP p q = true) : oLtP q p = false := by
  cases p with
  | none => simp [oLtP] at h1
  | some a =>
    cases q with
    | none => rfl
    | some b =>
      simp only [oLtP, decide_eq_true_eq] at h1 ⊢
      simp only [decide_eq_false_iff_not]
      linarith

theorem aentLe_total (a b : AEnt) : aentLe a b = true ∨ aentLe b a = true := by
  unfold aentLe
  rcases oLtP_cases a.pri b.pri with h | h | h
  · left; simp [h]
  · right; simp [h]
  · rcases Nat.le_total a.cnt b.cnt with h2 | h2
    · left; simp [h, h2]
    · right; simp [h, h2]

theorem aentLe_trans (a b c : AEnt) (h1 : aentLe a b = true) (h2 : aentLe b c = true) :
    aentLe a c = true := by
  unfold aentLe at h1 h2 ⊢
  simp only [Bool.or_eq_true, Bool.and_eq_true, decide_eq_true_eq] at h1 h2 ⊢
  rcases h1 with h1 | ⟨h1e, h1c⟩
  · rcases h2 with h2 | ⟨h2e, h2c⟩
    · exact Or.inl (oLtP_trans h1 h2)
    · exact Or.inl (h2e ▸ h1)
  · rcases h2 with h2 | ⟨h2e, h2c⟩
    · exact Or.inl (h1e ▸ h2)
    · exact Or.inr ⟨h1e.trans h2e, h1c.trans h2c⟩

/-- The `while vertex is None: heappop` part of `PriorityQueue.pop`
(line 533): keep removing least records, discarding invalidated ones, until a
valid record is found; `none` models `IndexError` when the heap runs dry. -/
def popSkipA (l : List AEnt) : Option ((Option ℚ × ℕ × String) × List AEnt) :=
  match h1 : listMinBy aentLe l with
  | none => none
  | some m =>
    match m.pay with
    | none => popSkipA (eraseFirst l m)
    | some vid => some ((m.pri, m.cnt, vid), eraseFirst l m)
termination_by l.length
decreasing_by
  have hm := listMinBy_mem aentLe l m h1
  have := eraseFirst_length l m hm
  omega

/-- The `while len(self.data) > 0 and self.data[0][2] is None: heappop` drain
of `PriorityQueue.pop` (line 538). -/
def drainDeadA (l : List AEnt) : List AEnt :=
  match h1 : listMinBy aentLe l with
  | none => l
  | some m =>
    if m.pay = none then drainDeadA (eraseFirst l m) else l
termination_by l.length
decreasing_by
  have hm := listMinBy_mem aentLe l m h1
  have := eraseFirst_length l m hm
  omega

theorem popSkipA_eq_none {l : List AEnt} (h1 : listMinBy aentLe l = none) :
    popSkipA l = none := by
  rw [popSkipA.eq_def, h1]

theorem popSkipA_eq_dead {l : List AEnt} {m : AEnt}
    (h1 : listMinBy aentLe l = some m) (h2 : m.pay = none) :
    popSkipA l = popSkipA (eraseFirst l m) := by
  rw [popSkipA.eq_def, h1]
  simp only [h2]

theorem popSkipA_eq_live {l : List AEnt} {m : AEnt} {vid : String}
    (h1 : listMinBy aentLe l = some m) (h2 : m.pay = some vid) :
    popSkipA l = some ((m.pri, m.cnt, vid), eraseFirst l m) := by
  rw [popSkipA.eq_def, h1]
  simp only [h2]

theorem drainDeadA_eq_none {l : List AEnt} (h1 : listMinBy aentLe l = none) :
    drainDeadA l = l := by
  rw [drainDeadA.eq_def, h1]

theorem drainDeadA_eq_dead {l : List AEnt} {m : AEnt}
    (h1 : listMinBy aentLe l = some m) (h2 : m.pay = none) :
    drainDeadA l = drainDeadA (eraseFirst l m) := by
  rw [drainDeadA.eq_def, h1]
  simp only [h2, if_true]

theorem drainDeadA_eq_live {l : List AEnt} {m : AEnt}
    (h1 : listMinBy aentLe l = some m) (h2 : m.pay ≠ none) :
    drainDeadA l = l := by
  rw [drainDeadA.eq_def, h1]
  simp only [h2, if_false]

/-- What a successful `popSkipA` guarantees: the returned record is a live
member, all other live members survive into the remainder, the remainder is a
sublist, and the returned record is least among live members. -/
theorem popSkipA_spec :
    ∀ (l : List AEnt) (p : Option ℚ) (c : ℕ) (v : String) (rest : List AEnt),
      popSkipA l = some ((p, c, v), rest) →
        (⟨p, c, some v⟩ : AEnt) ∈ l ∧
        rest.Sublist l ∧
        (∀ e ∈ l, e.pay ≠ none → e = ⟨p, c, some v⟩ ∨ e ∈ rest) ∧
        (∀ e ∈ l, e.pay ≠ none → aentLe ⟨p, c, some v⟩ e = true) := by
  intro l
  induction l using popSkipA.induct with
  | case1 x hnone =>
    intro p c v rest h
    rw [popSkipA_eq_none hnone] at h
    exact absurd h (by simp)
  | case2 x m hmin hdead ih =>
    intro p c v rest h
    rw [popSkipA_eq_dead hmin hdead] at h
    obtain ⟨hmem, hsub, hlive, hle⟩ := ih p c v rest h
    have hsubx : (eraseFirst x m).Sublist x := eraseFirst_sublist x m
    refine ⟨hsubx.mem hmem, hsub.trans hsubx, ?_, ?_⟩
    · intro e he hep
      have hne : e ≠ m := by
        intro hcon
        rw [hcon] at hep
        exact hep hdead
      exact hlive e (eraseFirst_mem_of_ne x m e he hne) hep
    · intro e he hep
      have hne : e ≠ m := by
        intro hcon
        rw [hcon] at hep
        exact hep hdead
      exact hle e (eraseFirst_mem_of_ne x m e he hne) hep
  | case3 x m hmin vid hpay =>
    intro p c v rest h
    rw [popSkipA_eq_live hmin hpay] at h
    simp only [Option.some.injEq, Prod.mk.injEq] at h
    obtain ⟨⟨hp, hc, hv⟩, hrest⟩ := h
    have hment : (⟨p, c, some v⟩ : AEnt) = m := by
      cases m with
      | mk mp mc mpay =>
        simp only at hp hc hpay ⊢
        rw [← hp, ← hc] at *
        rw [hpay, hv]
    refine ⟨hment ▸ listMinBy_mem aentLe x m hmin, hrest ▸ eraseFirst_sublist x m, ?_, ?_⟩
    · intro e he hep
      by_cases hne : e = m
      · exact Or.inl (hne.trans hment.symm)
      · exact Or.inr (hrest ▸ eraseFirst_mem_of_ne x m e he hne)
    · intro e he hep
      rw [hment]
      exact listMinBy_le aentLe aentLe_total aentLe_trans x m hmin e he

/-- `popSkipA` fails only on an all-invalid heap. -/
theorem popSkipA_none :
    ∀ (l : List AEnt), popSkipA l = none → ∀ e ∈ l, e.pay = none := by
  intro l
  induction l using popSkipA.induct with
  | case1 x hnone =>
    intro _ e he
    have : x = [] := (listMinBy_none aentLe x).mp hnone
    subst this
    simp at he
  | case2 x m hmin hdead ih =>
    intro h e he
    rw [popSkipA_eq_dead hmin hdead] at h
    by_cases hne : e = m
    · rw [hne, hdead]
    · exact ih h e (eraseFirst_mem_of_ne x m e he hne)
  | case3 x m hmin vid hpay =>
    intro h
    rw [popSkipA_eq_live hmin hpay] at h
    exact absurd h (by simp)

/-- The drain keeps exactly the records that are not removed (a sublist), and
never removes a valid record. -/
theorem drainDeadA_spec :
    ∀ (l : List AEnt),
      (drainDeadA l).Sublist l ∧
      (∀ e ∈ l, e.pay ≠ none → e ∈ drainDeadA l) := by
  intro l
  induction l using drainDeadA.induct with
  | case1 x hnone =>
    rw [drainDeadA_eq_none hnone]
    exact ⟨List.Sublist.refl x, fun e he _ => he⟩
  | case2 x m hmin hdead ih =>
    rw [drainDeadA_eq_dead hmin hdead]
    obtain ⟨hsub, hlive⟩ := ih
    refine ⟨hsub.trans (eraseFirst_sublist x m), ?_⟩
    intro e he hep
    have hne : e ≠ m := by
      intro hcon
      rw [hcon] at hep
      exact hep hdead
    exact hlive e (eraseFirst_mem_of_ne x m e he hne) hep
  | case3 x m hmin hpay =>
    rw [drainDeadA_eq_live hmin hpay]
    exact ⟨List.Sublist.refl x, fun e he _ => he⟩

/-- After the drain, a nonempty heap still holds a valid record. -/
theorem drainDeadA_ne :
    ∀ (l : List AEnt), drainDeadA l ≠ [] → ∃ e ∈ drainDeadA l, e.pay ≠ none := by
  intro l
  induction l using drainDeadA.induct with
  | case1 x hnone =>
    rw [drainDeadA_eq_none hnone]
    intro hne
    have := (listMinBy_none aentLe x).mp hnone
    exact absurd this hne
  | case2 x m hmin hdead ih =>
    rw [drainDeadA_eq_dead hmin hdead]
    exact ih
  | case3 x m hmin hpay =>
    rw [drainDeadA_eq_live hmin hpay]
    intro _
    exact ⟨m, listMinBy_mem aentLe x m hmin, hpay⟩

/-- `PriorityQueue` state (line 483): heap records, the locator dict
(vertex id ↦ counter of its current record, the counter standing for the
Python object identity of the record), and the tie-breaking counter. -/
structure PQ where
  data : List AEnt
  locator : String → Option ℕ
  counter : ℕ

def PQ.emptyQ : PQ := ⟨[], fun _ => none, 0⟩

/-- `PriorityQueue.push` (line 514). -/
def PQ.pushQ (q : PQ) (pri : Option ℚ) (vid : String) : PQ :=
  ⟨q.data ++ [⟨pri, q.counter, some vid⟩],
   fun x => if x = vid then some q.counter else q.locator x,
   q.counter + 1⟩

/-- `PriorityQueue.pop` (line 526).  After the valid record is found its id is
deleted from the locator (`KeyError`, modelled by `none`, if absent — which
`a_star`'s usage never triggers) and leading invalidated records are drained.
The `vertex.visited = True` side effect is not modelled: no claim observes
the visited flag. -/
def PQ.popQ (q : PQ) : Option ((Option ℚ × String) × PQ) :=
  match popSkipA q.data with
  | none => none
  | some ((pri, _, vid), rest) =>
    match q.locator vid with
    | none => none
    | some _ =>
      some ((pri, vid),
        ⟨drainDeadA rest, fun x => if x = vid then none else q.locator x, q.counter⟩)

theorem eraseFirst_nodup_not_mem {α : Type} [DecidableEq α] :
    ∀ (l : List α), l.Nodup → ∀ (a : α), a ∉ eraseFirst l a := by
  intro l
  induction l with
  | nil => intro _ a h; simp [eraseFirst] at h
  | cons x xs ih =>
    intro hnd a h
    simp only [List.nodup_cons] at hnd
    by_cases hx : x = a
    · simp only [eraseFirst, hx, if_true] at h
      exact hnd.1 (hx ▸ h)
    · simp only [eraseFirst, hx, if_false, List.mem_cons] at h
      rcases h with h | h
      · exact hx h.symm
      · exact ih hnd.2 a h

theorem map_nodup_inj {α β : Type} {f : α → β} :
    ∀ {l : List α}, (l.map f).Nodup → ∀ a ∈ l, ∀ b ∈ l, f a = f b → a = b := by
  intro l
  induction l with
  | nil => intro _ a ha; simp at ha
  | cons x xs ih =>
    intro hnd a ha b hb hf
    simp only [List.map_cons, List.nodup_cons] at hnd
    rcases List.mem_cons.mp ha with ha | ha <;> rcases List.mem_cons.mp hb with hb | hb
    · rw [ha, hb]
    · exact absurd (List.mem_map.mpr ⟨b, hb, (ha ▸ hf).symm⟩) hnd.1
    · exact absurd (List.mem_map.mpr ⟨a, ha, (hb ▸ hf)⟩) hnd.1
    · exact ih hnd.2 a ha b hb hf

/-- The popped record never survives into the remaining heap (heap records
are pairwise distinct in any reachable queue). -/
theorem popSkipA_not_mem :
    ∀ (l : List AEnt), l.Nodup →
      ∀ (p : Option ℚ) (c : ℕ) (v : String) (rest : List AEnt),
        popSkipA l = some ((p, c, v), rest) → (⟨p, c, some v⟩ : AEnt) ∉ rest := by
  intro l
  induction l using popSkipA.induct with
  | case1 x hnone =>
    intro _ p c v rest h
    rw [popSkipA_eq_none hnone] at h
    exact absurd h (by simp)
  | case2 x m hmin hdead ih =>
    intro hnd p c v rest h
    rw [popSkipA_eq_dead hmin hdead] at h
    exact ih ((eraseFirst_sublist x m).nodup hnd) p c v rest h
  | case3 x m hmin vid hpay =>
    intro hnd p c v rest h
    rw [popSkipA_eq_live hmin hpay] at h
    simp only [Option.some.injEq, Prod.mk.injEq] at h
    obtain ⟨⟨hp, hc, hv⟩, hrest⟩ := h
    have hment : (⟨p, c, some v⟩ : AEnt) = m := by
      cases m with
      | mk mp mc mpay =>
        simp only at hp hc hpay ⊢
        rw [← hp, ← hc] at *
        rw [hpay, hv]
    rw [hment, ← hrest]
    exact eraseFirst_nodup_not_mem x hnd m

/-- Invariants of a reachable `PriorityQueue` state: record counters are
fresh and pairwise distinct, the locator names exactly the valid records (so
there is at most one valid record per vertex id), and a nonempty heap holds a
valid record. -/
structure PQInv (q : PQ) : Prop where
  cntLt : ∀ e ∈ q.data, e.cnt < q.counter
  cntNodup : (q.data.map AEnt.cnt).Nodup
  loc1 : ∀ v c, q.locator v = some c → ∃ e ∈ q.data, e.cnt = c ∧ e.pay = some v
  loc2 : ∀ e ∈ q.data, ∀ v, e.pay = some v → q.locator v = some e.cnt
  neLive : q.data ≠ [] → ∃ e ∈ q.data, e.pay ≠ none

theorem PQInv_data_nodup {q : PQ} (h : PQInv q) : q.data.Nodup :=
  h.cntNodup.of_map AEnt.cnt

theorem PQInv_emptyQ : PQInv PQ.emptyQ := by
  constructor <;> simp [PQ.emptyQ]

/-- `PriorityQueue.update` (line 542): pop the locator entry, invalidate the
record it points to in place, push a fresh record.  The `none` branch is the
`KeyError` Python would raise; `a_star` only updates located vertices. -/
def PQ.updateQ (q : PQ) (pri : Option ℚ) (vid : String) : PQ :=
  match q.locator vid with
  | none => q
  | some c =>
    PQ.pushQ
      ⟨q.data.map (fun e => if e.cnt = c then { e with pay := none } else e),
       fun x => if x = vid then none else q.locator x,
       q.counter⟩
      pri vid

theorem pushQ_inv {q : PQ} (hinv : PQInv q) (pri : Option ℚ) (vid : String)
    (hfree : q.locator vid = none) : PQInv (q.pushQ pri vid) := by
  obtain ⟨hlt, hnd, h1, h2, hne⟩ := hinv
  constructor
  · intro e he
    simp only [PQ.pushQ, List.mem_append, List.mem_singleton] at he
    rcases he with he | he
    · exact Nat.lt_succ_of_lt (hlt e he)
    · rw [he]
      exact Nat.lt_succ_self _
  · simp only [PQ.pushQ, List.map_append, List.map_singleton]
    rw [List.nodup_append]
    refine ⟨hnd, List.nodup_singleton _, ?_⟩
    intro c hc
    simp only [List.mem_singleton]
    intro hcon
    obtain ⟨e, he, hec⟩ := List.mem_map.mp hc
    have := hlt e he
    omega
  · intro v c hv
    simp only [PQ.pushQ] at hv ⊢
    by_cases hveq : v = vid
    · subst hveq
      simp only [if_true] at hv
      refine ⟨⟨pri, q.counter, some v⟩, ?_, ?_, rfl⟩
      · simp
      · simp only [Option.some.injEq] at hv
        simp [hv]
    · rw [if_neg hveq] at hv
      obtain ⟨e, he, hec, hep⟩ := h1 v c hv
      exact ⟨e, List.mem_append_left _ he, hec, hep⟩
  · intro e he v hep
    simp only [PQ.pushQ, List.mem_append, List.mem_singleton] at he
    simp only [PQ.pushQ]
    rcases he with he | he
    · have hloc := h2 e he v hep
      have hvne : v ≠ vid := by
        intro hcon
        rw [hcon] at hloc
        rw [hfree] at hloc
        exact absurd hloc (by simp)
      rw [if_neg hvne]
      exact hloc
    · rw [he] at hep ⊢
      simp only [Option.some.injEq] at hep
      rw [if_pos hep.symm]
  · intro _
    refine ⟨⟨pri, q.counter, some vid⟩, ?_, by simp⟩
    simp [PQ.pushQ]

/-- Validity and presence of records after a push. -/
theorem pushQ_mem {q : PQ} (pri : Option ℚ) (vid : String) :
    ∀ e, e ∈ (q.pushQ pri vid).data ↔ e ∈ q.data ∨ e = ⟨pri, q.counter, some vid⟩ := by
  intro e
  simp [PQ.pushQ]

theorem updateQ_inv {q : PQ} (hinv : PQInv q) (pri : Option ℚ) (vid : String) :
    PQInv (q.updateQ pri vid) := by
  obtain ⟨hlt, hnd, h1, h2, hne⟩ := hinv
  unfold PQ.updateQ
  cases hloc : q.locator vid with
  | none => exact ⟨hlt, hnd, h1, h2, hne⟩
  | some c =>
    have hmapcnt : ∀ e : AEnt,
        (if e.cnt = c then { e with pay := none } else e).cnt = e.cnt := by
      intro e
      by_cases hc : e.cnt = c <;> simp [hc]
    constructor
    · intro e he
      simp only [PQ.pushQ, List.mem_append, List.mem_singleton] at he
      rcases he with he | he
      · obtain ⟨e0, he0, heq⟩ := List.mem_map.mp he
        have : e.cnt = e0.cnt := by rw [← heq]; exact hmapcnt e0
        rw [this]
        exact Nat.lt_succ_of_lt (hlt e0 he0)
      · rw [he]
        exact Nat.lt_succ_self _
    · simp only [PQ.pushQ, List.map_append, List.map_singleton, List.map_map]
      rw [List.nodup_append]
      have hcomp : (AEnt.cnt ∘ fun e => if e.cnt = c then { e with pay := none } else e) =
          AEnt.cnt := by
        funext e
        exact hmapcnt e
      rw [hcomp]
      refine ⟨hnd, List.nodup_singleton _, ?_⟩
      intro c2 hc2
      simp only [List.mem_singleton]
      intro hcon
      obtain ⟨e, he, hec⟩ := List.mem_map.mp hc2
      have := hlt e he
      omega
    · intro v c2 hv
      simp only [PQ.pushQ] at hv ⊢
      by_cases hveq : v = vid
      · subst hveq
        simp only [if_true] at hv
        refine ⟨⟨pri, q.counter, some v⟩, by simp, ?_, rfl⟩
        simp only [Option.some.injEq] at hv
        simp [hv]
      · rw [if_neg hveq] at hv
        rw [if_neg hveq] at hv
        obtain ⟨e, he, hec, hep⟩ := h1 v c2 hv
        have hecne : e.cnt ≠ c := by
          intro hcon
          have hlocv := h2 e he v hep
          obtain ⟨e2, he2, he2c, he2p⟩ := h1 vid c hloc
          have : e = e2 := map_nodup_inj hnd e he e2 he2 (by rw [hcon, he2c])
          rw [this] at hep
          rw [he2p] at hep
          simp only [Option.some.injEq] at hep
          exact hveq hep.symm
        refine ⟨e, ?_, hec, hep⟩
        refine List.mem_append_left _ ?_
        refine List.mem_map.mpr ⟨e, he, ?_⟩
        rw [if_neg hecne]
    · intro e he v hep
      simp only [PQ.pushQ, List.mem_append, List.mem_singleton] at he
      simp only [PQ.pushQ]
      rcases he with he | he
      · obtain ⟨e0, he0, heq⟩ := List.mem_map.mp he
        by_cases hc0 : e0.cnt = c
        · rw [if_pos hc0] at heq
          rw [← heq] at hep
          simp at hep
        · rw [if_neg hc0] at heq
          subst heq
          have hloc0 := h2 e0 he0 v hep
          have hvne : v ≠ vid := by
            intro hcon
            rw [hcon, hloc] at hloc0
            simp only [Option.some.injEq] at hloc0
            exact hc0 hloc0.symm
          rw [if_neg hvne, if_neg hvne]
          exact hloc0
      · rw [he] at hep ⊢
        simp only [Option.some.injEq] at hep
        rw [if_pos hep.symm]
    · intro _
      refine ⟨⟨pri, q.counter, some vid⟩, ?_, by simp⟩
      simp [PQ.pushQ]

/-- Valid records after an update: the located record of `vid` is
invalidated, a fresh record for `vid` appears, every other valid record is
untouched. -/
theorem updateQ_mem {q : PQ} (hinv : PQInv q) (pri : Option ℚ) (vid : String) {c : ℕ}
    (hloc : q.locator vid = some c) :
    ∀ e : AEnt, e.pay ≠ none →
      (e ∈ (q.updateQ pri vid).data ↔
        (e ∈ q.data ∧ e.cnt ≠ c) ∨ e = ⟨pri, q.counter, some vid⟩) := by
  intro e hep
  unfold PQ.updateQ
  rw [hloc]
  simp only [PQ.pushQ, List.mem_append, List.mem_singleton, List.mem_map]
  constructor
  · intro h
    rcases h with ⟨e0, he0, heq⟩ | h
    · by_cases hc0 : e0.cnt = c
      · rw [if_pos hc0] at heq
        rw [← heq] at hep
        simp at hep
      · rw [if_neg hc0] at heq
        subst heq
        exact Or.inl ⟨he0, hc0⟩
    · exact Or.inr h
  · intro h
    rcases h with ⟨he, hc⟩ | h
    · exact Or.inl ⟨e, he, by rw [if_neg hc]⟩
    · exact Or.inr h

/-- A successful pop on an invariant-satisfying nonempty queue: the popped
record is a least valid record, it is removed, all other valid records stay,
and the invariants persist. -/
theorem popQ_spec {q : PQ} (hinv : PQInv q) (hne : q.data ≠ []) :
    ∃ (p : Option ℚ) (c : ℕ) (v : String) (q2 : PQ),
      q.popQ = some ((p, v), q2) ∧
      (⟨p, c, some v⟩ : AEnt) ∈ q.data ∧
      (∀ e ∈ q.data, e.pay ≠ none → aentLe ⟨p, c, some v⟩ e = true) ∧
      q2.locator = (fun x => if x = v then none else q.locator x) ∧
      q2.counter = q.counter ∧
      q2.data.Sublist q.data ∧
      (∀ e : AEnt, e.pay ≠ none →
        (e ∈ q2.data ↔ e ∈ q.data ∧ e ≠ ⟨p, c, some v⟩)) ∧
      PQInv q2 := by
  obtain ⟨e0, he0, he0p⟩ := hinv.neLive hne
  cases hps : popSkipA q.data with
  | none => exact absurd (popSkipA_none q.data hps e0 he0) he0p
  | some pr =>
    obtain ⟨⟨p, c, v⟩, rest⟩ := pr
    obtain ⟨hmem, hsub, hlive, hle⟩ := popSkipA_spec q.data p c v rest hps
    have hnotmem := popSkipA_not_mem q.data (PQInv_data_nodup hinv) p c v rest hps
    have hlocv : q.locator v = some c := hinv.loc2 _ hmem v rfl
    obtain ⟨hdsub, hdlive⟩ := drainDeadA_spec rest
    refine ⟨p, c, v,
      ⟨drainDeadA rest, fun x => if x = v then none else q.locator x, q.counter⟩,
      ?_, hmem, hle, rfl, rfl, ?_, ?_, ?_⟩
    · unfold PQ.popQ
      rw [hps]
      dsimp only
      rw [hlocv]
    · exact hdsub.trans hsub
    · intro e hep
      constructor
      · intro hed
        have her : e ∈ rest := hdsub.mem hed
        refine ⟨hsub.mem her, ?_⟩
        intro hcon
        rw [hcon] at her
        exact hnotmem her
      · intro ⟨hed, hene⟩
        rcases hlive e hed hep with h | h
        · exact absurd h hene
        · exact hdlive e h hep
    · have hq2sub : (drainDeadA rest).Sublist q.data := hdsub.trans hsub
      constructor
      · intro e he
        exact hinv.cntLt e (hq2sub.mem he)
      · exact (hq2sub.map AEnt.cnt).nodup hinv.cntNodup
      · intro v2 c2 hv2
        dsimp only at hv2
        by_cases hveq : v2 = v
        · simp only [hveq, if_true] at hv2
          exact absurd hv2 (by simp)
        · simp only [hveq, if_false] at hv2
          obtain ⟨e, he, hec, hep⟩ := hinv.loc1 v2 c2 hv2
          refine ⟨e, ?_, hec, hep⟩
          have hene : e ≠ ⟨p, c, some v⟩ := by
            intro hcon
            rw [hcon] at hep
            simp only [Option.some.injEq] at hep
            exact hveq hep.symm
          rcases hlive e he (by rw [hep]; simp) with h | h
          · exact absurd h hene
          · exact hdlive e h (by rw [hep]; simp)
      · intro e he v2 hep
        have heq : e ∈ q.data := hq2sub.mem he
        have hloc2 := hinv.loc2 e heq v2 hep
        have hvne : v2 ≠ v := by
          intro hcon
          rw [hcon] at hloc2
          rw [hlocv] at hloc2
          simp only [Option.some.injEq] at hloc2
          have : e = ⟨p, c, some v⟩ :=
            map_nodup_inj hinv.cntNodup e heq _ hmem (by rw [hloc2])
          rw [this] at he
          have her : (⟨p, c, some v⟩ : AEnt) ∈ rest := hdsub.mem he
          exact hnotmem her
        dsimp only
        rw [if_neg hvne]
        exact hloc2
      · intro hne2
        exact drainDeadA_ne rest hne2

/-! ## Operation sequences on `PriorityQueue` (claim C5) -/

inductive PQOp where
  | push : Option ℚ → String → PQOp
  | upd : Option ℚ → String → PQOp
  | popO : PQOp
deriving DecidableEq, Repr

/-- Execute one `PriorityQueue` operation (a crashing pop leaves the state
unchanged; disciplined sequences never reach it). -/
def applyOp (st : PQ) : PQOp → PQ
  | PQOp.push p v => st.pushQ p v
  | PQOp.upd p v => st.updateQ p v
  | PQOp.popO =>
    match st.popQ with
    | some pr => pr.2
    | none => st

def applyOpsFrom (st : PQ) : List PQOp → PQ
  | [] => st
  | op :: rest => applyOpsFrom (applyOp st op) rest

def applyOps (l : List PQOp) : PQ := applyOpsFrom PQ.emptyQ l

/-- Operation discipline.  With `strict = false` (the discipline the claim
states): updates only on currently queued ids and pops only on nonempty
queues.  With `strict = true` additionally: pushes only on ids not currently
queued. -/
def disciplinedB (strict : Bool) (st : PQ) : List PQOp → Bool
  | [] => true
  | op :: rest =>
    (match op with
     | PQOp.push _ v => !strict || (st.locator v).isNone
     | PQOp.upd _ v => (st.locator v).isSome
     | PQOp.popO => !st.data.isEmpty) && disciplinedB strict (applyOp st op) rest

theorem applyOpsFrom_inv :
    ∀ (l : List PQOp) (st : PQ), PQInv st → disciplinedB true st l = true →
      PQInv (applyOpsFrom st l) := by
  intro l
  induction l with
  | nil => intro st h _; exact h
  | cons op rest ih =>
    intro st hinv hd
    simp only [disciplinedB, Bool.and_eq_true] at hd
    obtain ⟨hop, hrest⟩ := hd
    refine ih (applyOp st op) ?_ hrest
    cases op with
    | push p v =>
      simp only [Bool.or_eq_true, Bool.not_eq_true'] at hop
      rcases hop with hop | hop
      · simp at hop
      · exact pushQ_inv hinv p v (Option.isNone_iff_eq_none.mp hop)
    | upd p v => exact updateQ_inv hinv p v
    | popO =>
      simp only [Bool.not_eq_true'] at hop
      replace hop : st.data ≠ [] := by
        intro hcon
        rw [hcon] at hop
        simp at hop
      obtain ⟨p, c, v, q2, hpop, _⟩ := popQ_spec hinv hop
      simp only [applyOp, hpop]
      obtain ⟨_, _, _, _, _, _, _, hinv2⟩ :=
        (popQ_spec hinv hop).choose_spec.choose_spec.choose_spec.choose_spec
      -- re-derive the invariant for exactly the state `hpop` names
      have : ∀ q2a, st.popQ = some ((p, v), q2a) → PQInv q2a := by
        intro q2a hq
        obtain ⟨p2, c2, v2, q2b, hpop2, _, _, _, _, _, _, hinvb⟩ := popQ_spec hinv hop
        rw [hq] at hpop2
        simp only [Option.some.injEq, Prod.mk.injEq] at hpop2
        obtain ⟨⟨_, hv2⟩, hq2⟩ := hpop2
        rw [← hq2] at hinvb
        exact hinvb
      exact this q2 hpop

theorem nodup_allEq_length {α : Type} :
    ∀ (l : List α), l.Nodup → (∀ a ∈ l, ∀ b ∈ l, a = b) → l.length ≤ 1 := by
  intro l hnd hall
  cases l with
  | nil => simp
  | cons x xs =>
    cases xs with
    | nil => simp
    | cons y ys =>
      exfalso
      simp only [List.nodup_cons, List.mem_cons] at hnd
      exact hnd.1 (Or.inl (hall x (by simp) y (by simp)))

/-- C5 (amended): for every sequence of `PriorityQueue` operations in which
updates are applied only to currently-queued items, pops only to nonempty
queues, and pushes only to items not currently queued, the reached state
satisfies: at most one live (non-invalidated) record per vertex id; the
locator maps an id to a counter exactly when that counter names a live queued
record of that id; and a pop returns the live record with the globally
minimum priority among records not yet popped, ties broken by insertion
order (strictly smaller priority, or equal priority and strictly smaller
insertion counter, than every other live record). -/
theorem claim_C5 (l : List PQOp)
    (hd : disciplinedB true PQ.emptyQ l = true) :
    (∀ v : String,
      ((applyOps l).data.filter (fun e => e.pay = some v)).length ≤ 1) ∧
    (∀ (v : String) (c : ℕ),
      (applyOps l).locator v = some c ↔
        ∃ e ∈ (applyOps l).data, e.pay = some v ∧ e.cnt = c) ∧
    ((applyOps l).data ≠ [] →
      ∃ (p : Option ℚ) (c : ℕ) (v : String) (q2 : PQ),
        (applyOps l).popQ = some ((p, v), q2) ∧
        (⟨p, c, some v⟩ : AEnt) ∈ (applyOps l).data ∧
        ∀ e ∈ (applyOps l).data, e.pay ≠ none → e ≠ ⟨p, c, some v⟩ →
          (oLtP p e.pri = true ∨ (p = e.pri ∧ c < e.cnt))) := by
  have hinv : PQInv (applyOps l) := applyOpsFrom_inv l PQ.emptyQ PQInv_emptyQ hd
  refine ⟨?_, ?_, ?_⟩
  · intro v
    refine nodup_allEq_length _ ((List.filter_sublist _).nodup (PQInv_data_nodup hinv)) ?_
    intro a ha b hb
    simp only [List.mem_filter, decide_eq_true_eq] at ha hb
    have h1 := hinv.loc2 a ha.1 v ha.2
    have h2 := hinv.loc2 b hb.1 v hb.2
    rw [h1] at h2
    simp only [Option.some.injEq] at h2
    exact map_nodup_inj hinv.cntNodup a ha.1 b hb.1 h2
  · intro v c
    constructor
    · intro h
      obtain ⟨e, he, hec, hep⟩ := hinv.loc1 v c h
      exact ⟨e, he, hep, hec⟩
    · intro ⟨e, he, hep, hec⟩
      rw [← hec]
      exact hinv.loc2 e he v hep
  · intro hne
    obtain ⟨p, c, v, q2, hpop, hmem, hle, _⟩ := popQ_spec hinv hne
    refine ⟨p, c, v, q2, hpop, hmem, ?_⟩
    intro e he hep hene
    have h := hle e he hep
    unfold aentLe at h
    simp only [Bool.or_eq_true, Bool.and_eq_true, decide_eq_true_eq] at h
    rcases h with h | ⟨h1, h2⟩
    · exact Or.inl h
    · refine Or.inr ⟨h1, ?_⟩
      rcases Nat.lt_or_ge c e.cnt with hlt | hge
      · exact hlt
      · exfalso
        have hceq : c = e.cnt := by omega
        exact hene (map_nodup_inj hinv.cntNodup e he _ hmem hceq.symm)

/-- Counterexample to C5 as stated: the claim constrains only updates, but a
sequence of two pushes of the same id — allowed by that discipline — leaves
two live records for the id (and the locator names only the newer one). -/
theorem claim_C5_counterexample :
    disciplinedB false PQ.emptyQ [PQOp.push (some 0) "A", PQOp.push (some 1) "A"] = true ∧
    ((applyOps [PQOp.push (some 0) "A", PQOp.push (some 1) "A"]).data.filter
      (fun e => e.pay = some "A")).length = 2 := by
  constructor
  · with_unfolding_all decide
  · with_unfolding_all decide

/-- Witness for C5: the amended theorem applied to a concrete strictly
disciplined sequence. -/
theorem claim_C5_witness :
    (∀ v : String,
      ((applyOps [PQOp.push (some 3) "A", PQOp.push (some 2) "B",
        PQOp.upd (some 1) "B", PQOp.popO]).data.filter
          (fun e => e.pay = some v)).length ≤ 1) ∧
    disciplinedB true PQ.emptyQ [PQOp.push (some 3) "A", PQOp.push (some 2) "B",
      PQOp.upd (some 1) "B", PQOp.popO] = true :=
  ⟨(claim_C5 _ (by with_unfolding_all decide)).1, by with_unfolding_all decide⟩

/-- The mutable locals of `Graph.a_star` (line 380): the open queue, the
predecessor dict `old_vertices`, and the `shortest` / `costs` dicts (finite
values only; `none` is the `float('inf')` initialization, and ids outside the
vertex set — which well-formed runs never consult — also read as `none`). -/
structure AState where
  pq : PQ
  old : String → Option String
  shortest : String → Option ℚ
  costs : String → Option ℚ

/-- `∞`-aware addition: `shortest[current] + weight`. -/
def oAddW (o : Option ℚ) (w : ℚ) : Option ℚ := o.map (fun q => q + w)

/-- The `for neighbor_id, weight in current_vertex.adj.items()` relaxation
loop of `a_star` (line 415). -/
def aStarRelax (g : Graph) (endId : String) (metric : String → String → ℚ)
    (curId : String) : List (String × ℚ) → AState → AState
  | [], st => st
  | (nid, w) :: rest, st =>
    let pp := oAddW (st.shortest curId) w
    if oLtP pp (st.shortest nid) then
      let cst := oAddW pp (metric nid endId)
      aStarRelax g endId metric curId rest
        { pq :=
            if (st.pq.locator nid).isNone then st.pq.pushQ cst nid
            else st.pq.updateQ cst nid,
          old := fun x => if x = nid then some curId else st.old x,
          shortest := fun x => if x = nid then pp else st.shortest x,
          costs := fun x => if x = nid then cst else st.costs x }
    else aStarRelax g endId metric curId rest st

/-- One iteration of the `while not open_vertices.empty()` loop of `a_star`
(line 409).  The popped record's vertex object is the graph's vertex, so its
adjacency is read through the graph (`adjOf`). -/
def aStarStep (g : Graph) (beginId endId : String) (metric : String → String → ℚ)
    (st : AState) : Option (Sum (List String × ℚ) AState) :=
  if st.pq.data.isEmpty then some (Sum.inl ([], 0))
  else
    match st.pq.popQ with
    | none => none
    | some ((_, cur), pq2) =>
      if cur = endId then
        match g.buildPath st.old beginId endId (g.vertices.length + 1) with
        | some (BPOut.ok p d) => some (Sum.inl (p, d))
        | _ => none
      else some (Sum.inr (aStarRelax g endId metric cur (adjOf g cur) { st with pq := pq2 }))

def aStarLoop (g : Graph) (beginId endId : String) (metric : String → String → ℚ) :
    ℕ → AState → Option (List String × ℚ)
  | 0, _ => none
  | fuel+1, st =>
    match aStarStep g beginId endId metric st with
    | none => none
    | some (Sum.inl r) => some r
    | some (Sum.inr st2) => aStarLoop g beginId endId metric fuel st2

/-- Common denominator of all edge weights (for the termination potential). -/
def wDen (g : Graph) : ℕ :=
  g.vertices.foldl (fun acc kv => kv.2.adj.foldl (fun a p => Nat.lcm a p.2.den) acc) 1

/-- Largest edge weight (`0` when there are no edges). -/
def wMax (g : Graph) : ℚ :=
  g.vertices.foldl (fun acc kv => kv.2.adj.foldl (fun a p => max a p.2) acc) 0

/-- Bound on the potential of a single `shortest` entry. -/
def capA (g : Graph) : ℕ :=
  (⌊(g.vertices.length : ℚ) * wMax g * (wDen g : ℚ)⌋).toNat + 2

/-- Fuel sufficient for the `a_star` main loop on a well-formed graph with
non-negative weights (shown by the termination lemmas below). -/
def aStarFuel (g : Graph) : ℕ := 2 * (g.vertices.length * capA g) + 3

/-- `Graph.a_star` (line 380).  The heuristic is a function of vertex ids;
the Python `metric` receives the vertex objects, which are determined by
their ids. -/
def Graph.aStar (g : Graph) (beginId endId : String)
    (metric : String → String → ℚ) : Option (List String × ℚ) :=
  if (dlookup g.vertices beginId).isNone || (dlookup g.vertices endId).isNone then
    some ([], 0)
  else
    aStarLoop g beginId endId metric (aStarFuel g)
      ⟨PQ.emptyQ.pushQ (some 0) beginId,
       fun _ => none,
       fun x => if x = beginId then some 0 else none,
       fun x => if x = beginId then some (metric beginId endId) else none⟩

/-- Counterexample graph for the admissibility claim: S→T(10), S→A(1),
A→T(1). -/
def exG2 : Graph :=
  ((Graph.emptyG.addToGraph "S" (some "T") 10).addToGraph "S" (some "A") 1).addToGraph
    "A" (some "T") 1

/-- A heuristic that never overestimates the remaining distance but takes a
negative value at the target. -/
def negMetric : String → String → ℚ := fun v _ => if v = "T" then -9 else 0

/-! ## Priority queue of the toll search (`TollWayPriorityQueue`, line 554)

Records are `[priority, coupons_used, counter, vertex]`; the locator is keyed
by `(vertex id, coupons_used)`.  `tollways_algorithm` never calls `update`,
so no record is ever invalidated, but `pop` can raise `KeyError` at
`del self.locator[(vertex.id, coupon)]` when the key was consumed by an
earlier pop; the algorithm catches this and skips the entry. -/

structure TEnt where
  pri : ℚ
  cu : ℕ
  cnt : ℕ
  pay : Option String
deriving DecidableEq, Repr

/-- Lexicographic (priority, coupons, counter) comparison; counters are
unique so the vertex field never takes part. -/
def tentLe (e1 e2 : TEnt) : Bool :=
  decide (e1.pri < e2.pri) ||
    (decide (e1.pri = e2.pri) &&
      (decide (e1.cu < e2.cu) || (decide (e1.cu = e2.cu) && decide (e1.cnt ≤ e2.cnt))))

/-- The `while vertex is None: heappop` part of `TollWayPriorityQueue.pop`
(line 614). -/
def popSkipT (l : List TEnt) : Option ((ℚ × ℕ × ℕ × String) × List TEnt) :=
  match h1 : listMinBy tentLe l with
  | none => none
  | some m =>
    match m.pay with
    | none => popSkipT (eraseFirst l m)
    | some vid => some ((m.pri, m.cu, m.cnt, vid), eraseFirst l m)
termination_by l.length
decreasing_by
  have hm := listMinBy_mem tentLe l m h1
  have := eraseFirst_length l m hm
  omega

/-- The trailing-invalid drain of `TollWayPriorityQueue.pop` (line 618). -/
def drainDeadT (l : List TEnt) : List TEnt :=
  match h1 : listMinBy tentLe l with
  | none => l
  | some m =>
    if m.pay = none then drainDeadT (eraseFirst l m) else l
termination_by l.length
decreasing_by
  have hm := listMinBy_mem tentLe l m h1
  have := eraseFirst_length l m hm
  omega

/-- `TollWayPriorityQueue` state (line 562). -/
structure TQ where
  data : List TEnt
  locator : String × ℕ → Option ℕ
  counter : ℕ

def TQ.emptyQ : TQ := ⟨[], fun _ => none, 0⟩

/-- `TollWayPriorityQueue.push` (line 593). -/
def TQ.pushQ (q : TQ) (pri : ℚ) (cu : ℕ) (vid : String) : TQ :=
  ⟨q.data ++ [⟨pri, cu, q.counter, some vid⟩],
   fun k => if k = (vid, cu) then some q.counter else q.locator k,
   q.counter + 1⟩

/-- `TollWayPriorityQueue.pop` (line 606).  Outcomes: `none` = `IndexError`
on an empty heap (uncaught); `some (none, q')` = `KeyError` at the locator
delete, after the record was already removed and before the drain runs
(caught by `tollways_algorithm`); `some (some (pri, coupons, id), q')` = a
successful pop. -/
def TQ.popQ (q : TQ) : Option (Option (ℚ × ℕ × String) × TQ) :=
  match popSkipT q.data with
  | none => none
  | some ((pri, cu, _, vid), rest) =>
    match q.locator (vid, cu) with
    | none => some (none, ⟨rest, q.locator, q.counter⟩)
    | some _ =>
      some (some (pri, cu, vid),
        ⟨drainDeadT rest, fun k => if k = (vid, cu) then none else q.locator k, q.counter⟩)

/-- The mutable locals of `Graph.tollways_algorithm` (line 429): the queue
and the `costs` dict keyed by `(vertex id, coupons used)`. -/
structure TState where
  pq : TQ
  costs : String × ℕ → Option ℚ

/-- Python `weight // 2` on a (non-negative) float: floor division. -/
def floorDiv2 (w : ℚ) : ℚ := (⌊w / 2⌋ : ℤ)

/-- The `for neighbor_id, weight in current_vertex.adj.items()` loop of
`tollways_algorithm` (line 454): a full-price transition staying at the same
coupon level, and (when coupons remain) a discounted transition to the next
level. -/
def tollRelax (b : ℕ) (curCost : ℚ) (cu : ℕ) :
    List (String × ℚ) → TState → TState
  | [], st => st
  | (nid, w) :: rest, st =>
    let nc := curCost + w
    let ncc := if cu < b then curCost + floorDiv2 w else curCost + w
    let st1 : TState :=
      if (match st.costs (nid, cu) with
          | none => true
          | some c => decide (nc < c)) then
        { pq := st.pq.pushQ nc cu nid,
          costs := fun k => if k = (nid, cu) then some nc else st.costs k }
      else st
    let st2 : TState :=
      if cu < b then
        if (match st1.costs (nid, cu + 1) with
            | none => true
            | some c => decide (ncc < c)) then
          { pq := st1.pq.pushQ ncc (cu + 1) nid,
            costs := fun k => if k = (nid, cu + 1) then some ncc else st1.costs k }
        else st1
      else st1
    tollRelax b curCost cu rest st2

/-- One iteration of the `while not pq.empty()` loop of `tollways_algorithm`
(line 445), including the `try ... except KeyError: continue` around `pop`. -/
def tollStep (g : Graph) (targetId : String) (b : ℕ) (st : TState) :
    Option (Sum (Option (ℚ × ℕ)) TState) :=
  if st.pq.data.isEmpty then some (Sum.inl none)
  else
    match st.pq.popQ with
    | none => none
    | some (none, pq2) => some (Sum.inr { st with pq := pq2 })
    | some (some (cost, cu, cur), pq2) =>
      if cur = targetId then some (Sum.inl (some (cost, cu)))
      else some (Sum.inr (tollRelax b cost cu (adjOf g cur) { st with pq := pq2 }))

def tollLoop (g : Graph) (targetId : String) (b : ℕ) :
    ℕ → TState → Option (Option (ℚ × ℕ))
  | 0, _ => none
  | fuel+1, st =>
    match tollStep g targetId b st with
    | none => none
    | some (Sum.inl r) => some r
    | some (Sum.inr st2) => tollLoop g targetId b fuel st2

/-- The number of product-graph states `(vertex, coupons used)` of the toll
search. -/
def capT (g : Graph) (b : ℕ) : ℕ :=
  g.vertices.length * (b + 1)

/-- Fuel sufficient for the toll-search main loop on a well-formed graph with
non-negative weights: every iteration removes a heap record, each settled
state pushes at most `2 * n` new records, and at most `capT` states ever
settle (shown by the termination lemmas below). -/
def tollFuel (g : Graph) (b : ℕ) : ℕ :=
  2 * g.vertices.length * capT g b + capT g b + 3

/-- `Graph.tollways_algorithm` (line 429).  `some none` is the
`(None, None)` result, `some (some (cost, coupons))` a found result, `none`
an uncaught exception or nontermination. -/
def Graph.tollways (g : Graph) (startId targetId : String) (b : ℕ) :
    Option (Option (ℚ × ℕ)) :=
  if (dlookup g.vertices startId).isNone || (dlookup g.vertices targetId).isNone then
    some none
  else
    tollLoop g targetId b (tollFuel g b)
      ⟨TQ.emptyQ.pushQ 0 0 startId, fun k => if k = (startId, 0) then some 0 else none⟩

/-- Spec scenario: single edge A→B(10). -/
def exG3 : Graph := Graph.emptyG.addToGraph "A" (some "B") 10

/-! ## Matrix export / import (`graph2matrix` line 271, `matrix2graph`
line 252) and graph equality (`__eq__` line 141)

Python matrix cells are dynamically typed (`None`, an id string, or a float
weight); `MCell` mirrors the three shapes. -/

inductive MCell where
  | nil : MCell
  | str : String → MCell
  | num : ℚ → MCell
deriving DecidableEq, Repr

/-- Reading a cell as an id string (`matrix[i][0]`); rows produced by
`graph2matrix` always hold a string there, other shapes are out-of-contract
dynamic accesses. -/
def MCell.asStr : MCell → String
  | MCell.str s => s
  | _ => ""

/-- `Graph.graph2matrix` (line 271): header row of ids, then one row per
vertex with `adj.get(v)` per column; `None` (here `none`) for an empty
graph. -/
def Graph.graph2matrix (g : Graph) : Option (List (List MCell)) :=
  let m :=
    (MCell.nil :: (gkeys g).map MCell.str) ::
      g.vertices.map (fun kv =>
        MCell.str kv.1 ::
          (gkeys g).map (fun c =>
            match dlookup kv.2.adj c with
            | some w => MCell.num w
            | none => MCell.nil))
  if g.size = 0 then none else some m

/-- First pass of `matrix2graph` (line 264): register every row id as a
vertex. -/
def addVertRows (rows : List (List MCell)) (g : Graph) : Graph :=
  match rows with
  | [] => g
  | row :: rest => addVertRows rest (g.addToGraph (row.headD MCell.nil).asStr none 1)

/-- Inner loop of the second pass of `matrix2graph` (line 266): add an edge
for every non-`None` cell of a row; the column ids are the leading cells of
the rows (`matrix[j][0]`), paired positionally as the Python index loop
does.  A string-shaped weight cell is a dynamically-typed out-of-contract
case (modelled as weight 0); `graph2matrix` output never contains one. -/
def addEdgeCells (rid : String) (cells : List (MCell × List MCell)) (g : Graph) : Graph :=
  match cells with
  | [] => g
  | (c, colRow) :: rest =>
    match c with
    | MCell.nil => addEdgeCells rid rest g
    | MCell.num w =>
        addEdgeCells rid rest (g.addToGraph rid (some (colRow.headD MCell.nil).asStr) w)
    | MCell.str _ =>
        addEdgeCells rid rest (g.addToGraph rid (some (colRow.headD MCell.nil).asStr) 0)

/-- Second pass of `matrix2graph`. -/
def addEdgeRows (allRows : List (List MCell)) (rows : List (List MCell)) (g : Graph) : Graph :=
  match rows with
  | [] => g
  | row :: rest =>
      addEdgeRows allRows rest
        (addEdgeCells (row.headD MCell.nil).asStr (List.zip (row.drop 1) allRows) g)

/-- `Graph.matrix2graph` (line 252), mutating `g` (the claims construct a new
graph, i.e. start from `Graph.emptyG`). -/
def Graph.matrix2graph (g : Graph) (m : List (List MCell)) : Graph :=
  addEdgeRows (m.drop 1) (m.drop 1) (addVertRows (m.drop 1) g)

/-- Python `set(adj1.items()) == set(adj2.items())`. -/
def pairSetEq (l1 l2 : List (String × ℚ)) : Bool :=
  l1.all (fun p => decide (p ∈ l2)) && l2.all (fun p => decide (p ∈ l1))

/-- `Graph.__eq__` (line 141): sizes and per-vertex adjacency sets (the
`visited` flags and coordinates are not compared by `Graph.__eq__`). -/
def Graph.graphEq (g1 g2 : Graph) : Bool :=
  if g1.size = g2.size ∧ g1.vertices.length = g2.vertices.length then
    g1.vertices.all (fun kv =>
      match dlookup g2.vertices kv.1 with
      | none => false
      | some ox => pairSetEq kv.2.adj ox.adj)
  else false

/-! ## Dictionary and `add_to_graph` lemmas for the matrix round trip -/

theorem dlookup_append {α : Type} (l1 l2 : List (String × α)) (k : String) :
    dlookup (l1 ++ l2) k =
      match dlookup l1 k with
      | some v => some v
      | none => dlookup l2 k := by
  induction l1 with
  | nil => simp [dlookup]
  | cons hd tl ih =>
    by_cases h : hd.1 = k
    · simp [dlookup, h]
    · simpa [dlookup, h] using ih

theorem updVertex_keys (l : List (String × Vertex)) (k : String) (f : Vertex → Vertex) :
    (updVertex l k f).map Prod.fst = l.map Prod.fst := by
  induction l with
  | nil => simp [updVertex]
  | cons hd tl ih =>
    by_cases h : hd.1 = k
    · simp [updVertex, h]
    · simp [updVertex, h, ih]

theorem updVertex_dlookup_self (l : List (String × Vertex)) (k : String) (f : Vertex → Vertex) :
    dlookup (updVertex l k f) k = (dlookup l k).map f := by
  induction l with
  | nil => simp [updVertex, dlookup]
  | cons hd tl ih =>
    by_cases h : hd.1 = k
    · simp [updVertex, dlookup, h]
    · simp [updVertex, dlookup, h, ih]

theorem updVertex_dlookup_other (l : List (String × Vertex)) (k k2 : String)
    (f : Vertex → Vertex) (hne : k2 ≠ k) :
    dlookup (updVertex l k f) k2 = dlookup l k2 := by
  induction l with
  | nil => simp [updVertex]
  | cons hd tl ih =>
    by_cases h : hd.1 = k
    · have h2 : hd.1 ≠ k2 := by rw [h]; exact fun hc => hne hc.symm
      have h4 : ¬ (k = k2) := fun hc => hne hc.symm
      simp [updVertex, dlookup, h, h2, h4]
    · by_cases h3 : hd.1 = k2
      · have h4 : ¬ (k2 = k) := hne
        simp [updVertex, dlookup, h, h3, h4]
      · simp [updVertex, dlookup, h, h3, ih]

theorem dset_fresh (l : List (String × ℚ)) (k : String) (w : ℚ)
    (hfree : dlookup l k = none) : dset l k w = l ++ [(k, w)] := by
  induction l with
  | nil => simp [dset]
  | cons hd tl ih =>
    by_cases h : hd.1 = k
    · simp [dlookup, h] at hfree
    · simp only [dlookup, h, if_false] at hfree
      simp [dset, h, ih hfree]

/-- `add_to_graph(k)` with no end vertex: no-op when present, fresh append
when absent. -/
theorem addToGraph_vertex (g : Graph) (k : String) (w : ℚ) :
    g.addToGraph k none w =
      if (dlookup g.vertices k).isNone then
        ⟨g.size + 1, g.vertices ++ [(k, ⟨k, [], false, 0, 0⟩)]⟩
      else g := by
  unfold Graph.addToGraph
  by_cases h : (dlookup g.vertices k).isNone <;> simp [h]

/-- `add_to_graph(b, e, w)` when both vertices are present: pure adjacency
update. -/
theorem addToGraph_edge (g : Graph) (b e : String) (w : ℚ)
    (hb : (dlookup g.vertices b).isSome) (he : (dlookup g.vertices e).isSome) :
    g.addToGraph b (some e) w =
      ⟨g.size, updVertex g.vertices b (fun v => { v with adj := dset v.adj e w })⟩ := by
  unfold Graph.addToGraph
  have hb2 : (dlookup g.vertices b).isNone = false := by
    rw [Option.isNone_eq_false_iff]
    exact hb
  have he2 : (dlookup g.vertices e).isNone = false := by
    rw [Option.isNone_eq_false_iff]
    exact he
  simp [hb2, he2]

/-- The two relaxations `tollways_algorithm` performs for one outgoing edge
(lines 454-469), read off on fresh states. -/
theorem tollRelax_single (b : ℕ) (cost : ℚ) (cu : ℕ) (nid : String) (w : ℚ) (st : TState)
    (h0 : st.costs (nid, cu) = none) (h1 : st.costs (nid, cu + 1) = none) (hcu : cu < b) :
    (tollRelax b cost cu [(nid, w)] st).costs (nid, cu) = some (cost + w) ∧
      (tollRelax b cost cu [(nid, w)] st).costs (nid, cu + 1) = some (cost + floorDiv2 w) := by
  have hne : ((nid, cu + 1) : String × ℕ) ≠ (nid, cu) := by
    intro h
    have := congrArg Prod.snd h
    simp at this
  simp only [tollRelax, h0, hcu, if_true, if_pos, hne, if_false, h1]
  constructor
  · simp [hne, if_neg hne]
  · simp

/-- C6: in the toll-coupon search, from a state `(v, k)` with `k` strictly
below the coupon budget, one outgoing edge of weight `w` yields a full-price
transition to `(neighbor, k)` at additional cost `w` and a discounted
transition to `(neighbor, k+1)` at additional cost `⌊w/2⌋` (integer floor
division by 2); concretely, on the single-edge graph A→B(10),
`tollways_algorithm(A, B, 1)` returns `(5, 1)` and `tollways_algorithm(A, B, 0)`
returns `(10, 0)`. -/
theorem claim_C6 :
    (∀ (b : ℕ) (cost : ℚ) (cu : ℕ) (nid : String) (w : ℚ) (st : TState),
      st.costs (nid, cu) = none → st.costs (nid, cu + 1) = none → cu < b →
        (tollRelax b cost cu [(nid, w)] st).costs (nid, cu) = some (cost + w) ∧
          (tollRelax b cost cu [(nid, w)] st).costs (nid, cu + 1) =
            some (cost + floorDiv2 w)) ∧
    exG3.tollways "A" "B" 1 = some (some (5, 1)) ∧
    exG3.tollways "A" "B" 0 = some (some (10, 0)) := by
  refine ⟨tollRelax_single, ?_, ?_⟩ <;> with_unfolding_all decide

/-- Witness for C6: the general transition statement applied on the concrete
single-edge data. -/
theorem claim_C6_witness :
    (tollRelax 1 0 0 [("B", (10 : ℚ))] ⟨TQ.emptyQ, fun _ => none⟩).costs ("B", 0) =
      some (0 + 10) ∧
    (tollRelax 1 0 0 [("B", (10 : ℚ))] ⟨TQ.emptyQ, fun _ => none⟩).costs ("B", 1) =
      some (0 + floorDiv2 10) :=
  claim_C6.1 1 0 0 "B" 10 ⟨TQ.emptyQ, fun _ => none⟩ rfl rfl (by decide)

/-- First `matrix2graph` pass on rows shaped like `graph2matrix` output:
appends one fresh vertex per row id. -/
theorem addVertRows_spec (f : (String × Vertex) → List MCell) :
    ∀ (kvs : List (String × Vertex)) (acc : Graph),
      (∀ kv ∈ kvs, dlookup acc.vertices kv.1 = none) →
      (kvs.map Prod.fst).Nodup →
      (addVertRows (kvs.map (fun kv => MCell.str kv.1 :: f kv)) acc).vertices =
          acc.vertices ++ kvs.map (fun kv => (kv.1, (⟨kv.1, [], false, 0, 0⟩ : Vertex))) ∧
        (addVertRows (kvs.map (fun kv => MCell.str kv.1 :: f kv)) acc).size =
          acc.size + kvs.length := by
  intro kvs
  induction kvs with
  | nil => intro acc _ _; simp [addVertRows]
  | cons kv rest ih =>
    intro acc hfree hnd
    simp only [List.map_cons, List.nodup_cons] at hnd ⊢
    simp only [addVertRows, List.headD_cons, MCell.asStr]
    rw [addToGraph_vertex]
    have hkv : dlookup acc.vertices kv.1 = none := hfree kv (List.mem_cons_self _ _)
    rw [hkv]
    simp only [Option.isNone_none, if_true]
    have hfree2 : ∀ kv2 ∈ rest,
        dlookup (acc.vertices ++ [(kv.1, (⟨kv.1, [], false, 0, 0⟩ : Vertex))]) kv2.1 = none := by
      intro kv2 hkv2
      rw [dlookup_append, hfree kv2 (List.mem_cons_of_mem _ hkv2)]
      have hne : kv.1 ≠ kv2.1 := by
        intro hcon
        exact hnd.1 (hcon ▸ List.mem_map.mpr ⟨kv2, hkv2, rfl⟩)
      simp [dlookup, hne]
    obtain ⟨h1, h2⟩ := ih ⟨acc.size + 1,
      acc.vertices ++ [(kv.1, (⟨kv.1, [], false, 0, 0⟩ : Vertex))]⟩ hfree2 hnd.2
    refine ⟨?_, ?_⟩
    · rw [h1]
      simp
    · rw [h2]
      show acc.size + 1 + rest.length = acc.size + (kv :: rest).length
      simp only [List.length_cons]
      omega

/-- Second-pass inner loop on cells shaped like one `graph2matrix` row:
extends the row vertex's adjacency by exactly the recorded edges, touching
nothing else. -/
theorem addEdgeCells_spec (adj0 : List (String × ℚ)) (f : (String × Vertex) → List MCell)
    (rid : String) :
    ∀ (kvs : List (String × Vertex)) (G : Graph) (v0 : Vertex),
      dlookup G.vertices rid = some v0 →
      (∀ kv2 ∈ kvs, (dlookup G.vertices kv2.1).isSome) →
      (∀ kv2 ∈ kvs, dlookup v0.adj kv2.1 = none) →
      (kvs.map Prod.fst).Nodup →
      ∀ res, res = addEdgeCells rid
        (kvs.map (fun kv2 =>
          ((match dlookup adj0 kv2.1 with
            | some w => MCell.num w
            | none => MCell.nil), MCell.str kv2.1 :: f kv2))) G →
       res.vertices.map Prod.fst = G.vertices.map Prod.fst ∧
       res.size = G.size ∧
       dlookup res.vertices rid =
         some (Vertex.mk v0.id
           (v0.adj ++ kvs.filterMap
             (fun kv2 => (dlookup adj0 kv2.1).map (fun w => (kv2.1, w))))
           v0.visited v0.x v0.y) ∧
       ∀ k2, k2 ≠ rid → dlookup res.vertices k2 = dlookup G.vertices k2 := by
  intro kvs
  induction kvs with
  | nil =>
    intro G v0 hrid _ _ _ res hres
    subst hres
    refine ⟨rfl, rfl, ?_, fun _ _ => rfl⟩
    simp only [List.map_nil, addEdgeCells, List.filterMap_nil, List.append_nil]
    rw [hrid]
  | cons kv2 rest ih =>
    intro G v0 hrid hpres hfresh hnd res hres
    subst hres
    simp only [List.map_cons, List.nodup_cons] at hnd
    simp only [List.map_cons]
    cases hc : dlookup adj0 kv2.1 with
    | none =>
      simp only [hc, addEdgeCells, List.filterMap_cons, Option.map_none]
      exact ih G v0 hrid (fun x hx => hpres x (List.mem_cons_of_mem _ hx))
        (fun x hx => hfresh x (List.mem_cons_of_mem _ hx)) hnd.2 _ rfl
    | some w =>
      simp only [hc, addEdgeCells, List.headD_cons, MCell.asStr]
      have hG2 := addToGraph_edge G rid kv2.1 w (by rw [hrid]; simp)
        (hpres kv2 (List.mem_cons_self _ _))
      rw [hG2]
      set G2 : Graph :=
        ⟨G.size, updVertex G.vertices rid (fun v => { v with adj := dset v.adj kv2.1 w })⟩
        with hG2def
      have hkeys2 : G2.vertices.map Prod.fst = G.vertices.map Prod.fst := by
        rw [hG2def]
        exact updVertex_keys _ _ _
      have hrid2 : dlookup G2.vertices rid =
          some { v0 with adj := v0.adj ++ [(kv2.1, w)] } := by
        rw [hG2def]
        show dlookup (updVertex G.vertices rid _) rid = _
        rw [updVertex_dlookup_self, hrid]
        simp only [Option.map_some', Option.some.injEq]
        rw [dset_fresh _ _ _ (hfresh kv2 (List.mem_cons_self _ _))]
      have hpres2 : ∀ x ∈ rest, (dlookup G2.vertices x.1).isSome := by
        intro x hx
        rw [dlookup_isSome_iff, hkeys2, ← dlookup_isSome_iff]
        exact hpres x (List.mem_cons_of_mem _ hx)
      have hfresh2 : ∀ x ∈ rest,
          dlookup ({ v0 with adj := v0.adj ++ [(kv2.1, w)] } : Vertex).adj x.1 = none := by
        intro x hx
        simp only
        rw [dlookup_append, hfresh x (List.mem_cons_of_mem _ hx)]
        have hne : kv2.1 ≠ x.1 := by
          intro hcon
          exact hnd.1 (hcon ▸ List.mem_map.mpr ⟨x, hx, rfl⟩)
        simp [dlookup, hne]
      have hres2 := ih G2 _ hrid2 hpres2 hfresh2 hnd.2 _ rfl
      obtain ⟨r1, r2, r3, r4⟩ := hres2
      refine ⟨r1.trans hkeys2, r2, ?_, ?_⟩
      · refine r3.trans ?_
        simp [List.filterMap_cons, hc, List.append_assoc]
      · intro k2 hk2
        refine (r4 k2 hk2).trans ?_
        exact updVertex_dlookup_other _ _ _ _ hk2

/-- Second `matrix2graph` pass: each row extends exactly its own (fresh)
vertex with the recorded edges. -/
theorem addEdgeRows_spec (kvs : List (String × Vertex)) (hnd : (kvs.map Prod.fst).Nodup) :
    ∀ (kvs2 : List (String × Vertex)) (G : Graph),
      (kvs2.map Prod.fst).Nodup →
      (∀ kv3 ∈ kvs2, kv3 ∈ kvs) →
      G.vertices.map Prod.fst = kvs.map Prod.fst →
      (∀ kv3 ∈ kvs2, dlookup G.vertices kv3.1 =
        some (⟨kv3.1, [], false, 0, 0⟩ : Vertex)) →
      ∀ res, res = addEdgeRows
        (kvs.map (fun kv => MCell.str kv.1 ::
          (kvs.map Prod.fst).map (fun c =>
            match dlookup kv.2.adj c with
            | some w => MCell.num w
            | none => MCell.nil)))
        (kvs2.map (fun kv => MCell.str kv.1 ::
          (kvs.map Prod.fst).map (fun c =>
            match dlookup kv.2.adj c with
            | some w => MCell.num w
            | none => MCell.nil))) G →
      res.vertices.map Prod.fst = G.vertices.map Prod.fst ∧
      res.size = G.size ∧
      (∀ kv3 ∈ kvs2, dlookup res.vertices kv3.1 =
        some (Vertex.mk kv3.1
          (kvs.filterMap
            (fun kv2 => (dlookup kv3.2.adj kv2.1).map (fun w => (kv2.1, w))))
          false 0 0)) ∧
      (∀ k2, k2 ∉ kvs2.map Prod.fst → dlookup res.vertices k2 = dlookup G.vertices k2) := by
  intro kvs2
  induction kvs2 with
  | nil =>
    intro G _ _ _ _ res hres
    subst hres
    exact ⟨rfl, rfl, by simp, fun _ _ => rfl⟩
  | cons kv3 rest2 ih =>
    intro G hnd2 hsub hkeys hfresh res hres
    simp only [List.map_cons, List.nodup_cons] at hnd2
    simp only [List.map_cons, addEdgeRows, List.headD_cons, MCell.asStr] at hres
    -- identify the zipped cell list with the shape `addEdgeCells_spec` expects
    have hdrop : (List.drop 1 (MCell.str kv3.1 ::
        (kvs.map Prod.fst).map (fun c =>
          match dlookup kv3.2.adj c with
          | some w => MCell.num w
          | none => MCell.nil))) =
        kvs.map (fun kv2 =>
          match dlookup kv3.2.adj kv2.1 with
          | some w => MCell.num w
          | none => MCell.nil) := by
      simp only [List.drop_one, List.tail_cons, List.map_map]
      rfl
    rw [hdrop] at hres
    rw [List.zip_map'] at hres
    have hG1 := addEdgeCells_spec kv3.2.adj
      (fun kv => (kvs.map Prod.fst).map (fun c =>
        match dlookup kv.2.adj c with
        | some w => MCell.num w
        | none => MCell.nil))
      kv3.1 kvs G ⟨kv3.1, [], false, 0, 0⟩
      (hfresh kv3 (List.mem_cons_self _ _))
      (by
        intro kv2 hkv2
        rw [dlookup_isSome_iff, hkeys]
        exact List.mem_map.mpr ⟨kv2, hkv2, rfl⟩)
      (by intro kv2 _; rfl)
      hnd _ rfl
    obtain ⟨g1, g2, g3, g4⟩ := hG1
    have hfresh2 : ∀ kv4 ∈ rest2,
        dlookup (addEdgeCells kv3.1
          (kvs.map (fun kv2 =>
            ((match dlookup kv3.2.adj kv2.1 with
              | some w => MCell.num w
              | none => MCell.nil),
             MCell.str kv2.1 ::
              (kvs.map Prod.fst).map (fun c =>
                match dlookup kv2.2.adj c with
                | some w => MCell.num w
                | none => MCell.nil)))) G).vertices kv4.1 =
          some (⟨kv4.1, [], false, 0, 0⟩ : Vertex) := by
      intro kv4 hkv4
      have hne : kv4.1 ≠ kv3.1 := by
        intro hcon
        exact hnd2.1 (hcon ▸ List.mem_map.mpr ⟨kv4, hkv4, rfl⟩)
      exact (g4 kv4.1 hne).trans (hfresh kv4 (List.mem_cons_of_mem _ hkv4))
    have ihres := ih _ hnd2.2 (fun x hx => hsub x (List.mem_cons_of_mem _ hx))
      (g1.trans hkeys) hfresh2 _ rfl
    obtain ⟨i1, i2, i3, i4⟩ := ihres
    subst hres
    refine ⟨i1.trans g1, i2.trans g2, ?_, ?_⟩
    · intro kv4 hkv4
      rcases List.mem_cons.mp hkv4 with h | h
      · subst h
        have hnot : kv4.1 ∉ rest2.map Prod.fst := hnd2.1
        exact (i4 kv4.1 hnot).trans g3
      · exact i3 kv4 h
    · intro k2 hk2
      simp only [List.map_cons, List.mem_cons] at hk2
      push_neg at hk2
      exact (i4 k2 hk2.2).trans (g4 k2 hk2.1)

theorem pairSetEq_true_iff (l1 l2 : List (String × ℚ)) :
    pairSetEq l1 l2 = true ↔ (∀ p ∈ l1, p ∈ l2) ∧ (∀ p ∈ l2, p ∈ l1) := by
  simp [pairSetEq, List.all_eq_true]

/-- A graph whose vertices carry exactly the per-column recorded adjacency of
`g` is `__eq__`-equal to `g`. -/
theorem graphEq_of_char (g GG : Graph)
    (hndg : (g.vertices.map Prod.fst).Nodup)
    (hvx : ∀ kv ∈ g.vertices, kv.2.id = kv.1 ∧ (kv.2.adj.map Prod.fst).Nodup ∧
      ∀ p ∈ kv.2.adj, isVertex g p.1 = true)
    (hkeys2 : GG.vertices.map Prod.fst = g.vertices.map Prod.fst)
    (hsize : GG.size = g.size)
    (hlen : g.size = g.vertices.length)
    (hchar : ∀ kv3 ∈ g.vertices, dlookup GG.vertices kv3.1 =
      some (Vertex.mk kv3.1
        (g.vertices.filterMap
          (fun kv2 => (dlookup kv3.2.adj kv2.1).map (fun w => (kv2.1, w))))
        false 0 0)) :
    GG.graphEq g = true := by
  unfold Graph.graphEq
  split
  case isFalse hcond =>
    exfalso
    apply hcond
    refine ⟨hsize, ?_⟩
    have := congrArg List.length hkeys2
    simpa using this
  rw [List.all_eq_true]
  intro kv2 hkv2
  have hk2mem : kv2.1 ∈ g.vertices.map Prod.fst := by
    rw [← hkeys2]
    exact List.mem_map.mpr ⟨kv2, hkv2, rfl⟩
  obtain ⟨kv, hkv, hkveq⟩ := List.mem_map.mp hk2mem
  have hndG2 : (GG.vertices.map Prod.fst).Nodup := by
    rw [hkeys2]
    exact hndg
  have hlookup2 : dlookup GG.vertices kv2.1 = some kv2.2 := by
    refine mem_dlookup hndG2 ?_
    exact (show ((kv2.1, kv2.2) : String × Vertex) = kv2 from rfl) ▸ hkv2
  have hchar2 := hchar kv hkv
  rw [hkveq, hlookup2] at hchar2
  have hkv22 : kv2.2 = Vertex.mk kv2.1
      (g.vertices.filterMap
        (fun kv3 => (dlookup kv.2.adj kv3.1).map (fun w => (kv3.1, w))))
      false 0 0 := by
    injection hchar2
  have hlookupg : dlookup g.vertices kv2.1 = some kv.2 := by
    rw [← hkveq]
    exact mem_dlookup hndg hkv
  rw [hlookupg]
  obtain ⟨hid, hadjnd, hadjmem⟩ := hvx kv hkv
  rw [pairSetEq_true_iff]
  constructor
  · intro p hp
    rw [hkv22] at hp
    simp only [List.mem_filterMap] at hp
    obtain ⟨kv3, _, hf⟩ := hp
    cases hdl : dlookup kv.2.adj kv3.1 with
    | none => rw [hdl] at hf; simp at hf
    | some w =>
      rw [hdl] at hf
      simp only [Option.map_some', Option.some.injEq] at hf
      rw [← hf]
      exact dlookup_eq_some_mem hdl
  · intro p hp
    rw [hkv22]
    simp only [List.mem_filterMap]
    have hdl : dlookup kv.2.adj p.1 = some p.2 := mem_dlookup hadjnd hp
    have hpv : isVertex g p.1 = true := hadjmem p hp
    have hpmem : p.1 ∈ g.vertices.map Prod.fst := by
      rw [← dlookup_isSome_iff]
      exact hpv
    obtain ⟨kv3, hkv3mem, hkv3eq⟩ := List.mem_map.mp hpmem
    refine ⟨kv3, hkv3mem, ?_⟩
    rw [hkv3eq, hdl]
    simp

/-- C7: for every non-empty well-formed graph, exporting with `graph2matrix`
and rebuilding a fresh graph with `matrix2graph` yields a graph equal to the
original under `Graph.__eq__` (same sizes, same vertex keys, same adjacency
sets). -/
theorem claim_C7 (g : Graph) (hwf : WellFormed g) (hne : g.size ≠ 0) :
    ∃ m, g.graph2matrix = some m ∧
      (Graph.emptyG.matrix2graph m).graphEq g = true := by
  obtain ⟨hndk, hsz, hvx⟩ := hwf
  have hndg : (g.vertices.map Prod.fst).Nodup := by simpa [gkeys] using hndk
  refine ⟨_, by unfold Graph.graph2matrix; rw [if_neg hne], ?_⟩
  unfold Graph.matrix2graph
  simp only [List.drop_succ_cons, List.drop_zero, gkeys]
  have hA := addVertRows_spec
    (fun kv => (g.vertices.map Prod.fst).map (fun c =>
      match dlookup kv.2.adj c with
      | some w => MCell.num w
      | none => MCell.nil))
    g.vertices Graph.emptyG (by intro kv _; rfl) hndg
  obtain ⟨hA1, hA2⟩ := hA
  have hkeys1 : (addVertRows (g.vertices.map (fun kv => MCell.str kv.1 ::
      (g.vertices.map Prod.fst).map (fun c =>
        match dlookup kv.2.adj c with
        | some w => MCell.num w
        | none => MCell.nil))) Graph.emptyG).vertices.map Prod.fst =
      g.vertices.map Prod.fst := by
    rw [hA1]
    simp [Graph.emptyG, List.map_map]
  have hfresh1 : ∀ kv3 ∈ g.vertices,
      dlookup (addVertRows (g.vertices.map (fun kv => MCell.str kv.1 ::
        (g.vertices.map Prod.fst).map (fun c =>
          match dlookup kv.2.adj c with
          | some w => MCell.num w
          | none => MCell.nil))) Graph.emptyG).vertices kv3.1 =
        some (⟨kv3.1, [], false, 0, 0⟩ : Vertex) := by
    intro kv3 hkv3
    rw [hA1]
    simp only [Graph.emptyG, List.nil_append]
    refine mem_dlookup ?_ ?_
    · rw [List.map_map]
      have : (Prod.fst ∘ fun kv : String × Vertex =>
          (kv.1, (⟨kv.1, [], false, 0, 0⟩ : Vertex))) = Prod.fst := by
        funext kv
        rfl
      rw [this]
      exact hndg
    · exact List.mem_map.mpr ⟨kv3, hkv3, rfl⟩
  have hB := addEdgeRows_spec g.vertices hndg g.vertices _ hndg (fun x hx => hx)
    hkeys1 hfresh1 _ rfl
  obtain ⟨hB1, hB2, hB3, hB4⟩ := hB
  refine graphEq_of_char g _ hndg hvx (hB1.trans hkeys1) ?_ hsz hB3
  rw [hB2, hA2]
  show 0 + g.vertices.length = g.size
  omega

/-- Witness for C7 at the concrete graph `exG1`. -/
theorem claim_C7_witness :
    WellFormed exG1 ∧ exG1.size ≠ 0 ∧
    ∃ m, exG1.graph2matrix = some m ∧
      (Graph.emptyG.matrix2graph m).graphEq exG1 = true :=
  ⟨by unfold WellFormed; with_unfolding_all decide, by with_unfolding_all decide,
    claim_C7 exG1 (by unfold WellFormed; with_unfolding_all decide)
      (by with_unfolding_all decide)⟩

theorem tollLoop_mono (g : Graph) (t : String) (b : ℕ) :
    ∀ (n m : ℕ) (st : TState) (r : Option (ℚ × ℕ)),
      tollLoop g t b n st = some r → n ≤ m → tollLoop g t b m st = some r := by
  intro n
  induction n with
  | zero => intro m st r h; simp [tollLoop] at h
  | succ k ih =>
    intro m st r h hle
    match m with
    | 0 => omega
    | m1+1 =>
      simp only [tollLoop] at h ⊢
      cases hs : tollStep g t b st with
      | none => rw [hs] at h; exact absurd h (by simp)
      | some res =>
        rw [hs] at h
        cases res with
        | inl r2 => exact h
        | inr st2 => exact ih m1 st2 r h (by omega)

theorem bfsLoop_mono (g : Graph) (a t : String) :
    ∀ (n m : ℕ) (st : BState) (r : List String × ℚ),
      bfsLoop g a t n st = some r → n ≤ m → bfsLoop g a t m st = some r := by
  intro n
  induction n with
  | zero => intro m st r h; simp [bfsLoop] at h
  | succ k ih =>
    intro m st r h hle
    match m with
    | 0 => omega
    | m1+1 =>
      simp only [bfsLoop] at h ⊢
      cases hs : bfsStep g a t st with
      | none => rw [hs] at h; exact absurd h (by simp)
      | some res =>
        rw [hs] at h
        cases res with
        | inl r2 => exact h
        | inr st2 => exact ih m1 st2 r h (by omega)

theorem aStarLoop_mono (g : Graph) (a t : String) (metric : String → String → ℚ) :
    ∀ (n m : ℕ) (st : AState) (r : List String × ℚ),
      aStarLoop g a t metric n st = some r → n ≤ m → aStarLoop g a t metric m st = some r := by
  intro n
  induction n with
  | zero => intro m st r h; simp [aStarLoop] at h
  | succ k ih =>
    intro m st r h hle
    match m with
    | 0 => omega
    | m1+1 =>
      simp only [aStarLoop] at h ⊢
      cases hs : aStarStep g a t metric st with
      | none => rw [hs] at h; exact absurd h (by simp)
      | some res =>
        rw [hs] at h
        cases res with
        | inl r2 => exact h
        | inr st2 => exact ih m1 st2 r h (by omega)

/-! ## BFS correctness (claims C2 and C8)

`bfs` explores vertices in nondecreasing order of hop count.  The invariant
below records, for the queue, the true minimal hop distances of its entries
(nondecreasing, spanning at most two consecutive levels), and for every
visited vertex a back-edge chain realizing its minimal hop distance. -/

/-- `x` is reachable from `s` by a walk of exactly `k` edges. -/
def ReachK (g : Graph) (s x : String) (k : ℕ) : Prop :=
  ∃ p, ValidWalk g s x p ∧ hops p = k

/-- `x` is reachable from `s`. -/
def Reaches (g : Graph) (s x : String) : Prop :=
  ∃ p, ValidWalk g s x p

/-- `k` is the minimal number of edges of any walk from `s` to `x`. -/
def QLvl (g : Graph) (s x : String) (k : ℕ) : Prop :=
  ReachK g s x k ∧ ∀ j, ReachK g s x j → k ≤ j

/-- Partial addition on optional weights. -/
def oadd : Option ℚ → Option ℚ → Option ℚ
  | some a, some b => some (a + b)
  | _, _ => none

theorem walkCost_glue (g : Graph) :
    ∀ (xs : List String) (x : String) (ys : List String),
      walkCost g (xs ++ x :: ys) = oadd (walkCost g (xs ++ [x])) (walkCost g (x :: ys)) := by
  intro xs
  induction xs with
  | nil =>
    intro x ys
    show walkCost g (x :: ys) = oadd (some 0) (walkCost g (x :: ys))
    cases h : walkCost g (x :: ys) with
    | none => simp [oadd]
    | some c => simp [oadd]
  | cons a xs ih =>
    intro x ys
    cases xs with
    | nil =>
      show walkCost g (a :: x :: ys) = oadd (walkCost g [a, x]) (walkCost g (x :: ys))
      cases he : edgeWeight g a x with
      | none => simp [walkCost, he, oadd]
      | some w =>
        cases hc : walkCost g (x :: ys) with
        | none => simp [walkCost, he, hc, oadd]
        | some c =>
          simp only [walkCost, he, hc, oadd]
          norm_num
    | cons b xs2 =>
      have harr : ((a :: b :: xs2) ++ x :: ys : List String) =
          a :: ((b :: xs2) ++ x :: ys) := by simp
      rw [harr]
      have h1 : walkCost g (a :: ((b :: xs2) ++ x :: ys)) =
          match edgeWeight g a b, walkCost g ((b :: xs2) ++ x :: ys) with
          | some w, some c => some (w + c)
          | _, _ => none := rfl
      have h2 : walkCost g ((a :: b :: xs2) ++ [x]) =
          match edgeWeight g a b, walkCost g ((b :: xs2) ++ [x]) with
          | some w, some c => some (w + c)
          | _, _ => none := rfl
      rw [h1, h2, ih x ys]
      cases he : edgeWeight g a b with
      | none => simp [oadd]
      | some w =>
        cases hc1 : walkCost g ((b :: xs2) ++ [x]) with
        | none => simp [oadd]
        | some c1 =>
          cases hc2 : walkCost g (x :: ys) with
          | none => simp [oadd]
          | some c2 =>
            simp only [oadd]
            norm_num
            ring

theorem head_of_append_singleton {p q : List String} {y : String} {s : String}
    (hq : q ≠ []) (h : (q ++ [y] : List String) = p) (hh : p.head? = some s) :
    q.head? = some s := by
  subst h
  cases q with
  | nil => exact absurd rfl hq
  | cons a q2 => simpa using hh

/-- A walk of length 0 goes nowhere. -/
theorem hops_zero_eq {p : List String} {s y : String}
    (hh : p.head? = some s) (hl : p.getLast? = some y) (h0 : hops p = 0) : y = s := by
  cases p with
  | nil => simp at hh
  | cons a rest =>
    cases rest with
    | nil =>
      simp only [List.head?_cons, Option.some.injEq] at hh
      simp only [List.getLast?_singleton, Option.some.injEq] at hl
      rw [← hl, ← hh]
    | cons b rest2 => simp [hops] at h0

/-- Appending one more edge to a walk. -/
theorem validWalk_snoc (g : Graph) (s z y : String) (p : List String) (w : ℚ)
    (hv : ValidWalk g s z p) (he : edgeWeight g z y = some w) :
    ValidWalk g s y (p ++ [y]) ∧ hops (p ++ [y]) = hops p + 1 := by
  obtain ⟨hh, hl, hc⟩ := hv
  have hpne : p ≠ [] := by
    intro hcon
    rw [hcon] at hh
    simp at hh
  obtain ⟨q, a, hqa⟩ := (List.eq_nil_or_concat p).resolve_left hpne
  rw [List.concat_eq_append] at hqa
  have ha : a = z := by
    rw [hqa] at hl
    simpa [List.getLast?_concat] using hl
  rw [ha] at hqa
  have hglue : walkCost g (q ++ z :: [y]) = oadd (walkCost g (q ++ [z])) (walkCost g [z, y]) :=
    walkCost_glue g q z [y]
  have hzy : walkCost g [z, y] = some (w + 0) := by
    simp [walkCost, he]
  constructor
  · refine ⟨?_, ?_, ?_⟩
    · rw [hqa]
      have : (q ++ [z] ++ [y] : List String) = q ++ [z, y] := by simp
      rw [this]
      cases q with
      | nil =>
        rw [hqa] at hh
        simpa using hh
      | cons b q2 =>
        rw [hqa] at hh
        simpa using hh
    · simp [List.getLast?_concat]
    · rw [hqa]
      have : (q ++ [z] ++ [y] : List String) = q ++ z :: [y] := by simp
      rw [this, hglue, hzy]
      rw [hqa] at hc
      cases hwc : walkCost g (q ++ [z]) with
      | none => rw [hwc] at hc; simp at hc
      | some c => simp [oadd]
  · simp only [hops, List.length_append, List.length_singleton]
    have : p.length ≠ 0 := by
      intro hcon
      exact hpne (List.eq_nil_of_length_eq_zero hcon)
    omega

/-- Removing the last edge of a walk with at least one edge. -/
theorem validWalk_unsnoc (g : Graph) (s y : String) (p : List String)
    (hv : ValidWalk g s y p) (hh1 : 1 ≤ hops p) :
    ∃ q z w, p = q ++ [y] ∧ ValidWalk g s z q ∧ edgeWeight g z y = some w ∧
      hops q + 1 = hops p := by
  obtain ⟨hh, hl, hc⟩ := hv
  have hpne : p ≠ [] := by
    intro hcon
    rw [hcon] at hh
    simp at hh
  obtain ⟨q, a, hqa⟩ := (List.eq_nil_or_concat p).resolve_left hpne
  rw [List.concat_eq_append] at hqa
  have ha : a = y := by
    rw [hqa] at hl
    simpa [List.getLast?_concat] using hl
  rw [ha] at hqa
  have hqne : q ≠ [] := by
    intro hcon
    rw [hcon] at hqa
    rw [hqa] at hh1
    simp [hops] at hh1
  obtain ⟨q2, z, hq2z⟩ := (List.eq_nil_or_concat q).resolve_left hqne
  rw [List.concat_eq_append] at hq2z
  have hglue : walkCost g (q2 ++ z :: [y]) = oadd (walkCost g (q2 ++ [z])) (walkCost g [z, y]) :=
    walkCost_glue g q2 z [y]
  have harr : p = q2 ++ z :: [y] := by
    rw [hqa, hq2z]
    simp
  rw [harr] at hc
  rw [hglue] at hc
  cases hc1 : walkCost g (q2 ++ [z]) with
  | none => rw [hc1] at hc; simp [oadd] at hc
  | some c1 =>
    cases hc2 : walkCost g [z, y] with
    | none => rw [hc1, hc2] at hc; simp [oadd] at hc
    | some c2 =>
      have hw : ∃ w, edgeWeight g z y = some w := by
        cases hew : edgeWeight g z y with
        | none => simp [walkCost, hew] at hc2
        | some w => exact ⟨w, rfl⟩
      obtain ⟨w, hw⟩ := hw
      refine ⟨q, z, w, hqa, ⟨?_, ?_, ?_⟩, hw, ?_⟩
      · exact head_of_append_singleton hqne hqa.symm hh
      · rw [hq2z]
        simp [List.getLast?_concat]
      · rw [hq2z, hc1]
        simp
      · rw [hqa]
        simp only [hops, List.length_append, List.length_singleton]
        have : q.length ≠ 0 := by
          intro hcon
          exact hqne (List.eq_nil_of_length_eq_zero hcon)
        omega

theorem qlvl_unique {g : Graph} {s x : String} {k1 k2 : ℕ}
    (h1 : QLvl g s x k1) (h2 : QLvl g s x k2) : k1 = k2 :=
  le_antisymm (h1.2 k2 h2.1) (h2.2 k1 h1.1)

theorem qlvl_exists {g : Graph} {s x : String} (h : Reaches g s x) :
    ∃ k, QLvl g s x k := by
  classical
  obtain ⟨p, hp⟩ := h
  have hex : ∃ k, ReachK g s x k := ⟨hops p, p, hp, rfl⟩
  exact ⟨Nat.find hex, Nat.find_spec hex, fun j hj => Nat.find_le hj⟩

theorem qlvl_zero {g : Graph} {s y : String} (h : ReachK g s y 0) : y = s := by
  obtain ⟨p, ⟨hh, hl, _⟩, h0⟩ := h
  exact hops_zero_eq hh hl h0

/-- A vertex at minimal hop distance `j+1` has an in-neighbor at minimal hop
distance `j`. -/
theorem qlvl_succ_pred {g : Graph} {s y : String} {j : ℕ}
    (h : QLvl g s y (j+1)) : ∃ z w, QLvl g s z j ∧ edgeWeight g z y = some w := by
  obtain ⟨⟨p, hp, hhops⟩, hmin⟩ := h
  obtain ⟨q, z, w, hqa, hq, hw, hlen⟩ :=
    validWalk_unsnoc g s y p hp (by omega)
  refine ⟨z, w, ⟨⟨q, hq, ?_⟩, ?_⟩, hw⟩
  · omega
  · intro j2 hj2
    obtain ⟨q2, hq2, hq2h⟩ := hj2
    have hsn := validWalk_snoc g s z y q2 w hq2 hw
    have : j + 1 ≤ j2 + 1 := by
      have := hmin (j2 + 1) ⟨q2 ++ [y], hsn.1, by rw [hsn.2, hq2h]⟩
      omega
    omega

theorem chain_le_head {ks : List ℕ} (hch : List.Chain' (· ≤ ·) ks) :
    ∀ a ∈ ks.head?, ∀ b ∈ ks, a ≤ b := by
  induction ks with
  | nil => simp
  | cons k kt ih =>
    intro a ha b hb
    simp only [List.head?_cons, Option.mem_def, Option.some.injEq] at ha
    subst ha
    rcases List.mem_cons.mp hb with hb | hb
    · exact hb ▸ le_refl k
    · have hch2 := List.chain'_cons'.mp hch
      have hth : ∀ c ∈ kt.head?, k ≤ c := hch2.1
      cases kt with
      | nil => simp at hb
      | cons c kt2 =>
        have hac : k ≤ c := hth c rfl
        have := ih hch2.2 c rfl b hb
        omega

theorem edgeWeight_mem_adjOf {g : Graph} {u v : String} {w : ℚ}
    (h : edgeWeight g u v = some w) : (v, w) ∈ adjOf g u := by
  obtain ⟨vu, hlu, _, hla⟩ := edgeWeight_some.mp h
  unfold adjOf
  rw [hlu]
  exact dlookup_eq_some_mem hla

theorem edgeWeight_of_adj {g : Graph} (hwf : WellFormed g) {u y : String} {vu : Vertex}
    {w : ℚ} (hu : dlookup g.vertices u = some vu) (hmem : (y, w) ∈ vu.adj) :
    edgeWeight g u y = some w := by
  obtain ⟨hnd, _, hvx⟩ := hwf
  obtain ⟨_, hadjnd, hadjv⟩ := hvx (u, vu) (dlookup_eq_some_mem hu)
  have hyv : isVertex g y = true := hadjv (y, w) hmem
  rw [edgeWeight_some]
  exact ⟨vu, hu, hyv, mem_dlookup hadjnd hmem⟩

theorem walkCost_cons_isSome {g : Graph} {u v : String} {rest : List String}
    (h : (walkCost g (u :: v :: rest)).isSome = true) :
    (∃ w, edgeWeight g u v = some w) ∧ (walkCost g (v :: rest)).isSome = true := by
  cases hew : edgeWeight g u v with
  | none =>
    exfalso
    have : walkCost g (u :: v :: rest) = none := by
      show (match edgeWeight g u v, walkCost g (v :: rest) with
        | some w, some c => some (w + c)
        | _, _ => none) = none
      rw [hew]
    rw [this] at h
    simp at h
  | some w =>
    cases hwc : walkCost g (v :: rest) with
    | none =>
      exfalso
      have : walkCost g (u :: v :: rest) = none := by
        show (match edgeWeight g u v, walkCost g (v :: rest) with
          | some w, some c => some (w + c)
          | _, _ => none) = none
        rw [hew, hwc]
      rw [this] at h
      simp at h
    | some c => exact ⟨⟨w, rfl⟩, rfl⟩

/-- When the queue is empty and every visited vertex is fully expanded,
every vertex reachable from a visited one is visited. -/
theorem reach_mem_vis {g : Graph} {st : BState}
    (hfront : ∀ x ∈ st.vis, x ∉ st.q.map Prod.fst → ∀ yw ∈ adjOf g x, yw.1 ∈ st.vis)
    (hq : st.q = []) :
    ∀ (p : List String) (a x : String), a ∈ st.vis → ValidWalk g a x p → x ∈ st.vis := by
  intro p
  induction p with
  | nil =>
    intro a x _ hv
    exact absurd hv.1 (by simp)
  | cons b rest ih =>
    intro a x ha hv
    obtain ⟨hh, hl, hc⟩ := hv
    have hb : b = a := by simpa using hh
    subst hb
    cases rest with
    | nil =>
      have hbx : b = x := by simpa using hl
      exact hbx ▸ ha
    | cons c rest2 =>
      obtain ⟨⟨w, hw⟩, hc2⟩ := walkCost_cons_isSome hc
      have hcvis : c ∈ st.vis := by
        have := hfront b ha (by rw [hq]; simp) (c, w) (edgeWeight_mem_adjOf hw)
        exact this
      refine ih c x hcvis ⟨rfl, ?_, hc2⟩
      rw [← hl]
      simp [List.getLast?_cons_cons]

/-- A back chain only reads the predecessor map at its own vertices. -/
theorem backChainL_congr {g : Graph} {back back2 : String → Option String}
    {s x : String} {p : List String} {c : ℚ}
    (hch : BackChainL g back s x p c) (hagree : ∀ v ∈ p, back2 v = back v) :
    BackChainL g back2 s x p c := by
  induction hch with
  | base => exact BackChainL.base
  | step v u l c w hne hb he hch ih =>
    refine BackChainL.step v u l c w hne ?_ he (ih ?_)
    · rw [hagree v (by simp)]
      exact hb
    · intro v2 hv2
      exact hagree v2 (by simp [hv2])

/-- The invariant maintained inside one relaxation pass of `bfs`: `cur` (at
minimal hop distance `k`) has been popped, every queue entry is at level `k`
or `k+1`, every vertex at level ≤ k is visited, every visited vertex other
than `cur` that is off the queue is fully expanded, and every visited vertex
carries a back chain realizing its minimal hop distance. -/
def RInv (g : Graph) (s cur : String) (k : ℕ) (st : BState) : Prop :=
  st.vis.Nodup ∧
  (∀ x ∈ st.vis, isVertex g x = true) ∧
  s ∈ st.vis ∧
  cur ∈ st.vis ∧
  (∀ x ∈ st.q.map Prod.fst, x ∈ st.vis) ∧
  (st.q.map Prod.fst).Nodup ∧
  cur ∉ st.q.map Prod.fst ∧
  (∀ x ∈ st.vis, x ∉ st.q.map Prod.fst → x ≠ cur → ∀ yw ∈ adjOf g x, yw.1 ∈ st.vis) ∧
  (∀ x ∈ st.vis, ∃ p c, BackChainL g st.back s x p c ∧ (∀ z ∈ p, z ∈ st.vis) ∧
    p.length ≤ st.vis.length ∧ QLvl g s x (hops p)) ∧
  (∀ y j, QLvl g s y j → j ≤ k → y ∈ st.vis) ∧
  (∃ ks, List.Forall₂ (fun e k2 => QLvl g s e.1 k2) st.q ks ∧
    List.Chain' (· ≤ ·) ks ∧ ∀ b ∈ ks, k ≤ b ∧ b ≤ k + 1)

/-- The invariant of the `while` loop of `bfs`, between iterations. -/
def BFSInv (g : Graph) (s : String) (st : BState) : Prop :=
  st.vis.Nodup ∧
  (∀ x ∈ st.vis, isVertex g x = true) ∧
  s ∈ st.vis ∧
  (∀ x ∈ st.q.map Prod.fst, x ∈ st.vis) ∧
  (st.q.map Prod.fst).Nodup ∧
  (∀ x ∈ st.vis, x ∉ st.q.map Prod.fst → ∀ yw ∈ adjOf g x, yw.1 ∈ st.vis) ∧
  (∀ x ∈ st.vis, ∃ p c, BackChainL g st.back s x p c ∧ (∀ z ∈ p, z ∈ st.vis) ∧
    p.length ≤ st.vis.length ∧ QLvl g s x (hops p)) ∧
  (∃ ks, List.Forall₂ (fun e k2 => QLvl g s e.1 k2) st.q ks ∧
    List.Chain' (· ≤ ·) ks ∧
    ∀ a ∈ ks.head?, (∀ b ∈ ks, b ≤ a + 1) ∧
      (∀ y j, QLvl g s y j → j ≤ a → y ∈ st.vis))

/-- Discovering one fresh neighbor `nid` of `cur` preserves the relaxation
invariant, assigning `nid` level `k+1`. -/
theorem rinv_push (g : Graph) (s cur : String) (k : ℕ) (dist : ℚ) (nid : String) (w : ℚ)
    (hcurk : QLvl g s cur k) (st : BState) (hinv : RInv g s cur k st)
    (he : edgeWeight g cur nid = some w) (hnv : nid ∉ st.vis) :
    RInv g s cur k ⟨st.q ++ [(nid, dist + w)], st.vis ++ [nid],
      fun x => if x = nid then some cur else st.back x⟩ := by
  obtain ⟨h1, h2, h3, h4, h5, h6, h7, h8, h9, h10, h11⟩ := hinv
  obtain ⟨p, c, hchain, hsub, hlen, hlvlp⟩ := h9 cur h4
  have hwalk := (backChainL_walk g st.back s cur p c hchain).1
  have hsn := validWalk_snoc g s cur nid p w hwalk he
  have hkp : hops p = k := qlvl_unique hlvlp hcurk
  have hqnid : QLvl g s nid (k + 1) := by
    refine ⟨⟨p ++ [nid], hsn.1, by rw [hsn.2, hkp]⟩, ?_⟩
    intro j hj
    by_contra hlt
    push_neg at hlt
    obtain ⟨pj, hpj, hpjh⟩ := hj
    obtain ⟨j0, hj0⟩ := qlvl_exists ⟨pj, hpj⟩
    have hj0le : j0 ≤ j := hj0.2 j ⟨pj, hpj, hpjh⟩
    exact hnv (h10 nid j0 hj0 (by omega))
  have hagree : ∀ (p2 : List String), (∀ z ∈ p2, z ∈ st.vis) →
      ∀ v ∈ p2, (fun x => if x = nid then some cur else st.back x) v = st.back v := by
    intro p2 hp2 v hv
    have : v ≠ nid := fun hcon => hnv (hcon ▸ hp2 v hv)
    simp [this]
  refine ⟨?_, ?_, ?_, ?_, ?_, ?_, ?_, ?_, ?_, ?_, ?_⟩
  · rw [List.nodup_append]
    exact ⟨h1, List.nodup_singleton _, by
      intro a ha hb
      simp only [List.mem_singleton] at hb
      exact hnv (hb ▸ ha)⟩
  · intro x hx
    rcases List.mem_append.mp hx with hx | hx
    · exact h2 x hx
    · simp only [List.mem_singleton] at hx
      subst hx
      obtain ⟨_, _, hvz, _⟩ := edgeWeight_some.mp he
      exact hvz
  · exact List.mem_append_left _ h3
  · exact List.mem_append_left _ h4
  · intro x hx
    simp only [List.map_append, List.map_cons, List.map_nil, List.mem_append,
      List.mem_singleton] at hx
    rcases hx with hx | hx
    · exact List.mem_append_left _ (h5 x hx)
    · subst hx
      exact List.mem_append_right _ (by simp)
  · simp only [List.map_append, List.map_cons, List.map_nil]
    rw [List.nodup_append]
    refine ⟨h6, List.nodup_singleton _, ?_⟩
    intro a ha hb
    simp only [List.mem_singleton] at hb
    subst hb
    exact hnv (h5 a ha)
  · simp only [List.map_append, List.map_cons, List.map_nil, List.mem_append,
      List.mem_singleton]
    intro hcon
    rcases hcon with hcon | hcon
    · exact h7 hcon
    · exact hnv (hcon ▸ h4)
  · intro x hx hxq hxc
    simp only [List.map_append, List.map_cons, List.map_nil, List.mem_append,
      List.mem_singleton] at hxq
    push_neg at hxq
    have hxnid : x ≠ nid := hxq.2
    have hxv : x ∈ st.vis := by
      rcases List.mem_append.mp hx with hx | hx
      · exact hx
      · simp only [List.mem_singleton] at hx
        exact absurd hx hxnid
    intro yw hyw
    exact List.mem_append_left _ (h8 x hxv hxq.1 hxc yw hyw)
  · intro x hx
    rcases List.mem_append.mp hx with hx | hx
    · obtain ⟨p2, c2, hch2, hsub2, hlen2, hlvl2⟩ := h9 x hx
      refine ⟨p2, c2, backChainL_congr hch2 (hagree p2 hsub2), ?_, ?_, hlvl2⟩
      · intro z hz
        exact List.mem_append_left _ (hsub2 z hz)
      · simp only [List.length_append, List.length_singleton]
        omega
    · simp only [List.mem_singleton] at hx
      rw [hx]
      refine ⟨p ++ [nid], c + w, ?_, ?_, ?_, ?_⟩
      · refine BackChainL.step nid cur p c w ?_ (by simp) he
          (backChainL_congr hchain (hagree p hsub))
        intro hcon
        exact hnv (hcon ▸ h3)
      · intro z hz
        rcases List.mem_append.mp hz with hz | hz
        · exact List.mem_append_left _ (hsub z hz)
        · exact List.mem_append_right _ hz
      · simp only [List.length_append, List.length_singleton]
        omega
      · rw [hsn.2, hkp]
        exact hqnid
  · intro y j hy hj
    exact List.mem_append_left _ (h10 y j hy hj)
  · obtain ⟨ks, hf2, hch, hbd⟩ := h11
    refine ⟨ks ++ [k + 1], ?_, ?_, ?_⟩
    · exact List.rel_append hf2 (List.Forall₂.cons hqnid List.Forall₂.nil)
    · rw [List.chain'_append]
      refine ⟨hch, List.chain'_singleton _, ?_⟩
      intro a ha b hb
      simp only [List.head?_cons, Option.mem_def, Option.some.injEq] at hb
      subst hb
      have : a ∈ ks := List.mem_of_mem_getLast? ha
      exact (hbd a this).2
    · intro b hb
      rcases List.mem_append.mp hb with hb | hb
      · exact hbd b hb
      · simp only [List.mem_singleton] at hb
        omega

/-- One full relaxation pass of `bfs` preserves the relaxation invariant,
visits every neighbor in the processed adjacency list, only grows the
visited set and the queue, queues every newly visited vertex, and does not
increase the termination measure. -/
theorem bfsRelax_pres (g : Graph) (s cur : String) (k : ℕ) (dist : ℚ)
    (hcurk : QLvl g s cur k) (hkeysnd : (g.vertices.map Prod.fst).Nodup) :
    ∀ (A : List (String × ℚ)) (st : BState),
      RInv g s cur k st →
      (∀ yw ∈ A, edgeWeight g cur yw.1 = some yw.2) →
      RInv g s cur k (bfsRelax cur dist A st) ∧
      (∀ yw ∈ A, yw.1 ∈ (bfsRelax cur dist A st).vis) ∧
      (∀ x ∈ st.vis, x ∈ (bfsRelax cur dist A st).vis) ∧
      (∀ e ∈ st.q, e ∈ (bfsRelax cur dist A st).q) ∧
      (∀ x ∈ (bfsRelax cur dist A st).vis,
        x ∈ st.vis ∨ x ∈ (bfsRelax cur dist A st).q.map Prod.fst) ∧
      ((bfsRelax cur dist A st).q.length +
          2 * (g.vertices.length - (bfsRelax cur dist A st).vis.length) ≤
        st.q.length + 2 * (g.vertices.length - st.vis.length)) := by
  intro A
  induction A with
  | nil =>
    intro st hinv _
    exact ⟨hinv, by simp, fun x hx => hx, fun e he => he, fun x hx => Or.inl hx, le_refl _⟩
  | cons yw A ih =>
    intro st hinv hedges
    have hedgeA : ∀ yw2 ∈ A, edgeWeight g cur yw2.1 = some yw2.2 :=
      fun yw2 h2 => hedges yw2 (List.mem_cons_of_mem _ h2)
    have hyw : edgeWeight g cur yw.1 = some yw.2 := hedges yw (List.mem_cons_self _ _)
    by_cases hv : yw.1 ∈ st.vis
    · have hstep : bfsRelax cur dist (yw :: A) st = bfsRelax cur dist A st := by
        cases yw with
        | mk nid w => simp [bfsRelax, hv]
      rw [hstep]
      obtain ⟨c1, c2, c3, c4, c5, c6⟩ := ih st hinv hedgeA
      refine ⟨c1, ?_, c3, c4, c5, c6⟩
      intro yw2 h2
      rcases List.mem_cons.mp h2 with h2 | h2
      · exact h2 ▸ c3 yw.1 hv
      · exact c2 yw2 h2
    · have hstep : bfsRelax cur dist (yw :: A) st = bfsRelax cur dist A
          ⟨st.q ++ [(yw.1, dist + yw.2)], st.vis ++ [yw.1],
            fun x => if x = yw.1 then some cur else st.back x⟩ := by
        cases yw with
        | mk nid w => simp [bfsRelax, hv]
      rw [hstep]
      have hinv1 := rinv_push g s cur k dist yw.1 yw.2 hcurk st hinv hyw hv
      obtain ⟨c1, c2, c3, c4, c5, c6⟩ := ih _ hinv1 hedgeA
      have hviscnt : st.vis.length < g.vertices.length := by
        have hsub : (st.vis ++ [yw.1]) ⊆ g.vertices.map Prod.fst := by
          intro x hx
          have hvx : isVertex g x = true := hinv1.2.1 x hx
          rw [← dlookup_isSome_iff]
          exact hvx
        have hnd : (st.vis ++ [yw.1]).Nodup := hinv1.1
        have hle := (hnd.subperm hsub).length_le
        simp only [List.length_append, List.length_singleton, List.length_map] at hle
        omega
      refine ⟨c1, ?_, ?_, ?_, ?_, ?_⟩
      · intro yw2 h2
        rcases List.mem_cons.mp h2 with h2 | h2
        · exact h2 ▸ c3 yw.1 (List.mem_append_right _ (by simp))
        · exact c2 yw2 h2
      · intro x hx
        exact c3 x (List.mem_append_left _ hx)
      · intro e he
        exact c4 e (List.mem_append_left _ he)
      · intro x hx
        rcases c5 x hx with h | h
        · rcases List.mem_append.mp h with h | h
          · exact Or.inl h
          · simp only [List.mem_singleton] at h
            right
            have hmem : (yw.1, dist + yw.2) ∈ (bfsRelax cur dist A
                ⟨st.q ++ [(yw.1, dist + yw.2)], st.vis ++ [yw.1],
                  fun z => if z = yw.1 then some cur else st.back z⟩).q :=
              c4 _ (List.mem_append_right _ (by simp))
            rw [h]
            exact List.mem_map.mpr ⟨(yw.1, dist + yw.2), hmem, rfl⟩
        · exact Or.inr h
      · refine le_trans c6 ?_
        have hq1 : (⟨st.q ++ [(yw.1, dist + yw.2)], st.vis ++ [yw.1],
            fun x => if x = yw.1 then some cur else st.back x⟩ : BState).q.length =
            st.q.length + 1 := by simp
        have hv1 : (⟨st.q ++ [(yw.1, dist + yw.2)], st.vis ++ [yw.1],
            fun x => if x = yw.1 then some cur else st.back x⟩ : BState).vis.length =
            st.vis.length + 1 := by simp
        rw [hq1, hv1]
        omega

theorem forall2_mem_left {α β : Type} {R : α → β → Prop} :
    ∀ {l1 : List α} {l2 : List β}, List.Forall₂ R l1 l2 → ∀ {a}, a ∈ l1 → ∃ b ∈ l2, R a b := by
  intro l1 l2 h
  induction h with
  | nil => intro a ha; simp at ha
  | cons hab htl ih =>
    intro a ha
    rcases List.mem_cons.mp ha with ha | ha
    · exact ⟨_, by simp, ha ▸ hab⟩
    · obtain ⟨b, hb, hr⟩ := ih ha
      exact ⟨b, List.mem_cons_of_mem _ hb, hr⟩

/-- Processing one dequeued vertex (relaxing its whole adjacency list)
preserves the `bfs` loop invariant, keeps the remaining queue entries, only
grows the visited set, queues every newly visited vertex, and strictly
decreases the termination measure. -/
theorem bfsStep_inv (g : Graph) (hwf : WellFormed g) (s : String) (st : BState)
    (cur : String) (dist : ℚ) (rest : List (String × ℚ))
    (hq : st.q = (cur, dist) :: rest) (hinv : BFSInv g s st) (vx : Vertex)
    (hvx : dlookup g.vertices cur = some vx) :
    BFSInv g s (bfsRelax cur dist vx.adj { st with q := rest }) ∧
    (∀ e ∈ rest, e ∈ (bfsRelax cur dist vx.adj { st with q := rest }).q) ∧
    (∀ x ∈ st.vis, x ∈ (bfsRelax cur dist vx.adj { st with q := rest }).vis) ∧
    (∀ x ∈ (bfsRelax cur dist vx.adj { st with q := rest }).vis,
      x ∈ st.vis ∨ x ∈ (bfsRelax cur dist vx.adj { st with q := rest }).q.map Prod.fst) ∧
    ((bfsRelax cur dist vx.adj { st with q := rest }).q.length +
        2 * (g.vertices.length -
          (bfsRelax cur dist vx.adj { st with q := rest }).vis.length) <
      st.q.length + 2 * (g.vertices.length - st.vis.length)) := by
  obtain ⟨b1, b2, b3, b4, b5, b6, b7, b8⟩ := hinv
  obtain ⟨ks, hf2, hch, hhead⟩ := b8
  rw [hq] at hf2
  cases hf2 with
  | cons hk hf2t =>
    rename_i k kt
    have hheadk := hhead k rfl
    have hcur : cur ∈ st.vis := b4 cur (by rw [hq]; simp)
    have hkeysnd : (g.vertices.map Prod.fst).Nodup := by
      have := hwf.1
      simpa [gkeys] using this
    have hrinv : RInv g s cur k ({ st with q := rest }) := by
      refine ⟨b1, b2, b3, hcur, ?_, ?_, ?_, ?_, b7, ?_, ?_⟩
      · intro x hx
        exact b4 x (by rw [hq]; simp only [List.map_cons, List.mem_cons]; exact Or.inr hx)
      · have := b5
        rw [hq] at this
        simp only [List.map_cons, List.nodup_cons] at this
        exact this.2
      · have := b5
        rw [hq] at this
        simp only [List.map_cons, List.nodup_cons] at this
        exact this.1
      · intro x hx hxq hxc
        refine b6 x hx ?_
        rw [hq]
        simp only [List.map_cons, List.mem_cons]
        intro hcon
        rcases hcon with hcon | hcon
        · exact hxc hcon
        · exact hxq hcon
      · exact hheadk.2
      · refine ⟨kt, hf2t, ?_, ?_⟩
        · exact hch.tail
        · intro b hb
          constructor
          · exact chain_le_head hch k rfl b (List.mem_cons_of_mem _ hb)
          · exact hheadk.1 b (List.mem_cons_of_mem _ hb)
    have hedges : ∀ yw ∈ vx.adj, edgeWeight g cur yw.1 = some yw.2 := by
      intro yw hyw
      cases yw with
      | mk y w => exact edgeWeight_of_adj hwf hvx hyw
    obtain ⟨c1, c2, c3, c4, c5, c6⟩ :=
      bfsRelax_pres g s cur k dist hk hkeysnd vx.adj ({ st with q := rest }) hrinv hedges
    obtain ⟨r1, r2, r3, r4, r5, r6, r7, r8, r9, r10, r11⟩ := c1
    have hadjcur : adjOf g cur = vx.adj := by
      unfold adjOf
      rw [hvx]
    refine ⟨⟨r1, r2, r3, r5, r6, ?_, r9, ?_⟩, c4, c3, c5, ?_⟩
    · intro x hx hxq
      by_cases hxc : x = cur
      · subst hxc
        rw [hadjcur]
        intro yw hyw
        exact c2 yw hyw
      · exact r8 x hx hxq hxc
    · obtain ⟨ks2, hf22, hch2, hbd2⟩ := r11
      refine ⟨ks2, hf22, hch2, ?_⟩
      intro a ha
      have hamem : a ∈ ks2 := by
        cases ks2 with
        | nil => simp at ha
        | cons c cs =>
          simp only [List.head?_cons, Option.mem_def, Option.some.injEq] at ha
          rw [← ha]
          simp
      have hak : k ≤ a ∧ a ≤ k + 1 := hbd2 a hamem
      constructor
      · intro b hb
        have := hbd2 b hb
        omega
      · intro y j hy hj
        by_cases hjk : j ≤ k
        · exact r10 y j hy hjk
        · have hj1 : j = k + 1 := by omega
          subst hj1
          obtain ⟨z, w, hz, hzw⟩ := qlvl_succ_pred hy
          have hzvis : z ∈ (bfsRelax cur dist vx.adj { st with q := rest }).vis :=
            r10 z k hz (le_refl k)
          have hznq : z ∉ (bfsRelax cur dist vx.adj { st with q := rest }).q.map Prod.fst := by
            intro hcon
            obtain ⟨e, he, hez⟩ := List.mem_map.mp hcon
            obtain ⟨bz, hbz, hrz⟩ := forall2_mem_left hf22 he
            rw [hez] at hrz
            have : bz = k := qlvl_unique hrz hz
            have := chain_le_head hch2 a ha bz hbz
            omega
          by_cases hzc : z = cur
          · subst hzc
            obtain ⟨vu, hvu, _, hla⟩ := edgeWeight_some.mp hzw
            rw [hvx] at hvu
            injection hvu with hvu
            refine c2 (y, w) ?_
            rw [hvu]
            exact dlookup_eq_some_mem hla
          · exact r8 z hzvis hznq hzc (y, w) (edgeWeight_mem_adjOf hzw)
    · refine lt_of_le_of_lt c6 ?_
      rw [hq]
      simp only [List.length_cons]
      omega

/-- Main loop lemma for `bfs`: with the invariant and enough fuel, the loop
returns; if the target is reachable it returns a minimal-hop walk together
with its total edge weight, otherwise it returns `([], 0)`. -/
theorem bfsLoop_correct (g : Graph) (hwf : WellFormed g) (s t : String) :
    ∀ (fuel : ℕ) (st : BState),
      BFSInv g s st →
      (t ∈ st.vis → t ∈ st.q.map Prod.fst) →
      st.q.length + 2 * (g.vertices.length - st.vis.length) < fuel →
      ∃ r, bfsLoop g s t fuel st = some r ∧
        (Reaches g s t →
          ∃ p d, r = (p, d) ∧ ValidWalk g s t p ∧ walkCost g p = some d ∧
            ∀ p2, ValidWalk g s t p2 → hops p ≤ hops p2) ∧
        (¬ Reaches g s t → r = ([], 0)) := by
  intro fuel
  induction fuel with
  | zero => intro st _ _ hm; omega
  | succ fuel ih =>
    intro st hinv htd hm
    cases hq : st.q with
    | nil =>
      have hstep : bfsStep g s t st = some (Sum.inl ([], 0)) := by
        unfold bfsStep
        rw [hq]
      refine ⟨([], 0), ?_, ?_, fun _ => rfl⟩
      · show (match bfsStep g s t st with
          | none => none
          | some (Sum.inl r) => some r
          | some (Sum.inr st2) => bfsLoop g s t fuel st2) = some ([], 0)
        rw [hstep]
      · intro hr
        exfalso
        obtain ⟨p, hp⟩ := hr
        have ht : t ∈ st.vis :=
          reach_mem_vis hinv.2.2.2.2.2.1 hq p s t hinv.2.2.1 hp
        have := htd ht
        rw [hq] at this
        simp at this
    | cons e rest =>
      obtain ⟨cur, dist⟩ := e
      by_cases hct : cur = t
      · subst hct
        obtain ⟨b1, b2, b3, b4, b5, b6, b7, b8⟩ := hinv
        have hcvis : cur ∈ st.vis := b4 cur (by rw [hq]; simp)
        obtain ⟨p, c, hchain, hsub, hlen, hlvl⟩ := b7 cur hcvis
        have hvislen : st.vis.length ≤ g.vertices.length := by
          have hsubk : st.vis ⊆ g.vertices.map Prod.fst := by
            intro x hx
            rw [← dlookup_isSome_iff]
            exact b2 x hx
          have := (b1.subperm hsubk).length_le
          simpa using this
        have hbp : g.buildPath st.back s cur (g.vertices.length + 1) =
            some (BPOut.ok p c) := by
          unfold Graph.buildPath
          have := buildPathLoop_ok_of_chain g st.back s cur p c hchain [] 0
            (g.vertices.length + 1) (by omega)
          simpa using this
        have hstep : bfsStep g s cur st = some (Sum.inl (p, c)) := by
          unfold bfsStep
          rw [hq]
          simp only [hbp]
          simp
        have hwalk := backChainL_walk g st.back s cur p c hchain
        refine ⟨(p, c), ?_, ?_, ?_⟩
        · show (match bfsStep g s cur st with
            | none => none
            | some (Sum.inl r) => some r
            | some (Sum.inr st2) => bfsLoop g s cur fuel st2) = some (p, c)
          rw [hstep]
        · intro _
          refine ⟨p, c, rfl, hwalk.1, hwalk.2, ?_⟩
          intro p2 hp2
          exact hlvl.2 (hops p2) ⟨p2, hp2, rfl⟩
        · intro hnr
          exact absurd ⟨p, hwalk.1⟩ hnr
      · have hcvis : cur ∈ st.vis := hinv.2.2.2.1 cur (by rw [hq]; simp)
        have hcv : isVertex g cur = true := hinv.2.1 cur hcvis
        obtain ⟨vx, hvx⟩ := Option.isSome_iff_exists.mp hcv
        obtain ⟨i1, i2, i3, i4, i5⟩ := bfsStep_inv g hwf s st cur dist rest hq hinv vx hvx
        have hstep : bfsStep g s t st =
            some (Sum.inr (bfsRelax cur dist vx.adj { st with q := rest })) := by
          unfold bfsStep
          rw [hq]
          simp only [hct, if_false, hvx]
        have htd2 : t ∈ (bfsRelax cur dist vx.adj { st with q := rest }).vis →
            t ∈ (bfsRelax cur dist vx.adj { st with q := rest }).q.map Prod.fst := by
          intro ht
          rcases i4 t ht with h | h
          · have := htd h
            rw [hq] at this
            simp only [List.map_cons, List.mem_cons] at this
            rcases this with h2 | h2
            · exact absurd h2.symm hct
            · obtain ⟨e2, he2, he2t⟩ := List.mem_map.mp h2
              exact List.mem_map.mpr ⟨e2, i2 e2 he2, he2t⟩
          · exact h
        have hm2 : (bfsRelax cur dist vx.adj { st with q := rest }).q.length +
            2 * (g.vertices.length -
              (bfsRelax cur dist vx.adj { st with q := rest }).vis.length) < fuel := by
          omega
        obtain ⟨r, hr, hc1, hc2⟩ := ih _ i1 htd2 hm2
        refine ⟨r, ?_, hc1, hc2⟩
        show (match bfsStep g s t st with
          | none => none
          | some (Sum.inl r2) => some r2
          | some (Sum.inr st2) => bfsLoop g s t fuel st2) = some r
        rw [hstep]
        exact hr

/-- Full correctness of `Graph.bfs` when both endpoints are present: it
always returns; on a reachable target it returns a minimal-hop walk and the
sum of weights along it, otherwise `([], 0)`. -/
theorem bfs_correct (g : Graph) (hwf : WellFormed g) (s t : String)
    (hs : isVertex g s = true) (ht : isVertex g t = true) :
    ∃ r, g.bfs s t = some r ∧
      (Reaches g s t →
        ∃ p d, r = (p, d) ∧ ValidWalk g s t p ∧ walkCost g p = some d ∧
          ∀ p2, ValidWalk g s t p2 → hops p ≤ hops p2) ∧
      (¬ Reaches g s t → r = ([], 0)) := by
  obtain ⟨vs, hvs⟩ := Option.isSome_iff_exists.mp hs
  obtain ⟨vt, hvt⟩ := Option.isSome_iff_exists.mp ht
  have hn1 : 1 ≤ g.vertices.length :=
    List.length_pos.mpr (List.ne_nil_of_mem (dlookup_eq_some_mem hvs))
  have hbfs : g.bfs s t = bfsLoop g s t (bfsFuel g) ⟨[(s, 0)], [s], fun _ => none⟩ := by
    unfold Graph.bfs
    rw [hvs, hvt]
    simp
  have hqlvl0 : QLvl g s s 0 :=
    ⟨⟨[s], ⟨rfl, rfl, by simp [walkCost]⟩, rfl⟩, fun j _ => Nat.zero_le j⟩
  have hinv0 : BFSInv g s ⟨[(s, 0)], [s], fun _ => none⟩ := by
    refine ⟨?_, ?_, ?_, ?_, ?_, ?_, ?_, ?_⟩
    · simp
    · intro x hx
      simp only [List.mem_singleton] at hx
      rw [hx]
      exact hs
    · simp
    · intro x hx
      simpa using hx
    · simp
    · intro x hx hxq
      exfalso
      simp only [List.mem_singleton] at hx
      simp only [List.map_cons, List.map_nil, List.mem_singleton] at hxq
      exact hxq hx
    · intro x hx
      simp only [List.mem_singleton] at hx
      subst hx
      exact ⟨[x], 0, BackChainL.base, by simp, by simp, hqlvl0⟩
    · refine ⟨[0], List.Forall₂.cons hqlvl0 List.Forall₂.nil, List.chain'_singleton _, ?_⟩
      intro a ha
      simp only [List.head?_cons, Option.mem_def, Option.some.injEq] at ha
      subst ha
      refine ⟨by intro b hb; simp only [List.mem_singleton] at hb; omega, ?_⟩
      intro y j hy hj
      have hj0 : j = 0 := by omega
      rw [hj0] at hy
      have := qlvl_zero hy.1
      simp [this]
  have hmeas : ([(s, (0 : ℚ))] : List (String × ℚ)).length +
      2 * (g.vertices.length - ([s] : List String).length) < bfsFuel g := by
    unfold bfsFuel
    simp only [List.length_cons, List.length_nil, List.length_singleton]
    omega
  obtain ⟨r, hr, h1, h2⟩ := bfsLoop_correct g hwf s t (bfsFuel g)
    ⟨[(s, 0)], [s], fun _ => none⟩ hinv0 (by intro h; simpa using h) hmeas
  exact ⟨r, by rw [hbfs]; exact hr, h1, h2⟩

/-- C2 (amended): on every well-formed graph with both endpoints present and
the target reachable, `bfs` returns a path from `s` to `t` whose edge count
is minimal among all `s`→`t` walks, together with the sum of the edge
weights along that path; on the concrete spec graph with edges A→B(1),
B→C(1), A→C(5), `bfs(A, C)` therefore returns `(["A", "C"], 5)` — the
one-hop path — and not `(["A", "B", "C"], 2)`. -/
theorem claim_C2 (g : Graph) (hwf : WellFormed g) (s t : String)
    (hs : isVertex g s = true) (ht : isVertex g t = true)
    (hr : Reaches g s t) :
    (∃ p d, g.bfs s t = some (p, d) ∧ ValidWalk g s t p ∧ walkCost g p = some d ∧
      ∀ p2, ValidWalk g s t p2 → hops p ≤ hops p2) ∧
    exG1.bfs "A" "C" = some (["A", "C"], 5) := by
  constructor
  · obtain ⟨r, hrr, h1, _⟩ := bfs_correct g hwf s t hs ht
    obtain ⟨p, d, hpd, hv, hc, hmin⟩ := h1 hr
    exact ⟨p, d, hpd ▸ hrr, hv, hc, hmin⟩
  · with_unfolding_all decide

/-- The spec's concrete BFS scenario is wrong: on the graph with edges
A→B(1), B→C(1), A→C(5), `bfs(A, C)` returns the hop-minimal `(["A","C"], 5)`
rather than the claimed weight-minimal `(["A","B","C"], 2)`, even though
`["A","B","C"]` is a valid walk of weight 2. -/
theorem claim_C2_counterexample :
    exG1.bfs "A" "C" = some (["A", "C"], 5) ∧
    exG1.bfs "A" "C" ≠ some (["A", "B", "C"], 2) ∧
    ValidWalk exG1 "A" "C" ["A", "B", "C"] ∧
    walkCost exG1 ["A", "B", "C"] = some 2 := by
  refine ⟨by with_unfolding_all decide, by with_unfolding_all decide, ?_, ?_⟩
  · refine ⟨rfl, rfl, ?_⟩
    with_unfolding_all decide
  · with_unfolding_all decide

/-- Witness for C2 at the spec's concrete graph. -/
theorem claim_C2_witness :
    WellFormed exG1 ∧ isVertex exG1 "A" = true ∧ isVertex exG1 "C" = true ∧
    Reaches exG1 "A" "C" ∧
    ((∃ p d, exG1.bfs "A" "C" = some (p, d) ∧ ValidWalk exG1 "A" "C" p ∧
        walkCost exG1 p = some d ∧
        ∀ p2, ValidWalk exG1 "A" "C" p2 → hops p ≤ hops p2) ∧
      exG1.bfs "A" "C" = some (["A", "C"], 5)) :=
  ⟨by unfold WellFormed; with_unfolding_all decide,
   by with_unfolding_all decide,
   by with_unfolding_all decide,
   ⟨["A", "C"], rfl, rfl, by with_unfolding_all decide⟩,
   claim_C2 exG1 (by unfold WellFormed; with_unfolding_all decide) "A" "C"
     (by with_unfolding_all decide) (by with_unfolding_all decide)
     ⟨["A", "C"], rfl, rfl, by with_unfolding_all decide⟩⟩

/-- C8: `bfs` returns `([], 0.0)` — empty path, zero cost, no exception —
whenever either endpoint is absent from the graph, and also whenever both are
present but the target is unreachable from the source. -/
theorem claim_C8 (g : Graph) (hwf : WellFormed g) (s t : String)
    (h : isVertex g s = false ∨ isVertex g t = false ∨ ¬ Reaches g s t) :
    g.bfs s t = some ([], 0) := by
  by_cases hs : isVertex g s = true
  · by_cases ht : isVertex g t = true
    · have hnr : ¬ Reaches g s t := by
        rcases h with h | h | h
        · rw [hs] at h; exact absurd h (by simp)
        · rw [ht] at h; exact absurd h (by simp)
        · exact h
      obtain ⟨r, hr, _, h2⟩ := bfs_correct g hwf s t hs ht
      rw [h2 hnr] at hr
      exact hr
    · have htn : (dlookup g.vertices t).isNone = true := by
        unfold isVertex at ht
        cases hdl : dlookup g.vertices t with
        | none => rfl
        | some v => rw [hdl] at ht; simp at ht
      unfold Graph.bfs
      rw [htn]
      simp
  · have hsn : (dlookup g.vertices s).isNone = true := by
      unfold isVertex at hs
      cases hdl : dlookup g.vertices s with
      | none => rfl
      | some v => rw [hdl] at hs; simp at hs
    unfold Graph.bfs
    rw [hsn]
    simp

/-- Witness for C8: an absent endpoint on the concrete graph. -/
theorem claim_C8_witness :
    WellFormed exG1 ∧ isVertex exG1 "Z" = false ∧
    exG1.bfs "A" "Z" = some ([], 0) :=
  ⟨by unfold WellFormed; with_unfolding_all decide,
   by with_unfolding_all decide,
   claim_C8 exG1 (by unfold WellFormed; with_unfolding_all decide) "A" "Z"
     (Or.inr (Or.inl (by with_unfolding_all decide)))⟩

/-! ## Toll search correctness (claims C3, C4 and C10) -/

theorem tentLe_total (a b : TEnt) : tentLe a b = true ∨ tentLe b a = true := by
  unfold tentLe
  rcases lt_trichotomy a.pri b.pri with h | h | h
  · left; simp [h]
  · rcases lt_trichotomy a.cu b.cu with h2 | h2 | h2
    · left; simp [h, h2]
    · rcases Nat.le_total a.cnt b.cnt with h3 | h3
      · left; simp [h, h2, h3]
      · right; simp [h.symm, h2.symm, h3, le_of_lt]
    · right
      simp only [Bool.or_eq_true, Bool.and_eq_true, decide_eq_true_eq]
      exact Or.inr ⟨h.symm, Or.inl h2⟩
  · right; simp [h]

theorem tentLe_trans (a b c : TEnt) (h1 : tentLe a b = true) (h2 : tentLe b c = true) :
    tentLe a c = true := by
  unfold tentLe at h1 h2 ⊢
  simp only [Bool.or_eq_true, Bool.and_eq_true, decide_eq_true_eq] at h1 h2 ⊢
  rcases h1 with h1 | ⟨h1e, h1r⟩
  · rcases h2 with h2 | ⟨h2e, _⟩
    · exact Or.inl (h1.trans h2)
    · exact Or.inl (h2e ▸ h1)
  · rcases h2 with h2 | ⟨h2e, h2r⟩
    · exact Or.inl (h1e ▸ h2)
    · refine Or.inr ⟨h1e.trans h2e, ?_⟩
      rcases h1r with h1r | ⟨h1c, h1n⟩
      · rcases h2r with h2r | ⟨h2c, _⟩
        · exact Or.inl (h1r.trans h2r)
        · exact Or.inl (h2c ▸ h1r)
      · rcases h2r with h2r | ⟨h2c, h2n⟩
        · exact Or.inl (h1c ▸ h2r)
        · exact Or.inr ⟨h1c.trans h2c, h1n.trans h2n⟩

theorem tentLe_pri {a b : TEnt} (h : tentLe a b = true) : a.pri ≤ b.pri := by
  unfold tentLe at h
  simp only [Bool.or_eq_true, Bool.and_eq_true, decide_eq_true_eq] at h
  rcases h with h | ⟨h, _⟩
  · exact le_of_lt h
  · exact le_of_eq h

theorem popSkipT_eq_none {l : List TEnt} (h1 : listMinBy tentLe l = none) :
    popSkipT l = none := by
  rw [popSkipT.eq_def, h1]

theorem popSkipT_eq_live {l : List TEnt} {m : TEnt} {vid : String}
    (h1 : listMinBy tentLe l = some m) (h2 : m.pay = some vid) :
    popSkipT l = some ((m.pri, m.cu, m.cnt, vid), eraseFirst l m) := by
  rw [popSkipT.eq_def, h1]
  simp only [h2]

theorem drainDeadT_eq_live {l : List TEnt} {m : TEnt}
    (h1 : listMinBy tentLe l = some m) (h2 : m.pay ≠ none) :
    drainDeadT l = l := by
  rw [drainDeadT.eq_def, h1]
  simp only [h2, if_false]

theorem drainDeadT_eq_none {l : List TEnt} (h1 : listMinBy tentLe l = none) :
    drainDeadT l = l := by
  rw [drainDeadT.eq_def, h1]

/-- On a heap with no invalidated records (the toll search never calls
`update`), the drain is the identity. -/
theorem drainDeadT_all_live {l : List TEnt} (h : ∀ e ∈ l, e.pay ≠ none) :
    drainDeadT l = l := by
  cases h1 : listMinBy tentLe l with
  | none => exact drainDeadT_eq_none h1
  | some m => exact drainDeadT_eq_live h1 (h m (listMinBy_mem tentLe l m h1))

/-- What `TollWayPriorityQueue.pop`'s inner heappop does on a heap with no
invalidated records and at least one entry: it removes exactly the least
record and returns its fields. -/
theorem popQ_spec_live (q : TQ) (hlive : ∀ e ∈ q.data, e.pay ≠ none)
    (hne : q.data ≠ []) :
    ∃ m vid, listMinBy tentLe q.data = some m ∧ m.pay = some vid ∧
      (∀ e ∈ q.data, tentLe m e = true) ∧
      q.popQ = (match q.locator (vid, m.cu) with
        | none => some (none, ⟨eraseFirst q.data m, q.locator, q.counter⟩)
        | some _ =>
          some (some (m.pri, m.cu, vid),
            ⟨eraseFirst q.data m,
             fun k => if k = (vid, m.cu) then none else q.locator k, q.counter⟩)) := by
  cases h1 : listMinBy tentLe q.data with
  | none => exact absurd ((listMinBy_none tentLe q.data).mp h1) hne
  | some m =>
    have hmm := listMinBy_mem tentLe q.data m h1
    cases h2 : m.pay with
    | none => exact absurd h2 (hlive m hmm)
    | some vid =>
      refine ⟨m, vid, rfl, h2, listMinBy_le tentLe tentLe_total tentLe_trans q.data m h1, ?_⟩
      unfold TQ.popQ
      rw [popSkipT_eq_live h1 h2]
      cases h3 : q.locator (vid, m.cu) with
      | none => simp [h3]
      | some cnt =>
        have hdr : drainDeadT (eraseFirst q.data m) = eraseFirst q.data m :=
          drainDeadT_all_live (fun e he => hlive e (eraseFirst_subset q.data m e he))
        simp [h3, hdr]

/-- The discounted-walk reachability relation of the toll search, relative to
an intermediate search state `(u0, k0, c0)`: vertex, coupons used so far, and
accumulated (possibly discounted) cost.  It mirrors exactly the transitions of
`tollways_algorithm` (line 454). -/
inductive TReachA (g : Graph) (b : ℕ) (u0 : String) (k0 : ℕ) (c0 : ℚ) :
    String → ℕ → ℚ → Prop where
  | base : TReachA g b u0 k0 c0 u0 k0 c0
  | full : ∀ u k c v w, TReachA g b u0 k0 c0 u k c → edgeWeight g u v = some w →
      TReachA g b u0 k0 c0 v k (c + w)
  | disc : ∀ u k c v w, TReachA g b u0 k0 c0 u k c → k < b →
      edgeWeight g u v = some w → TReachA g b u0 k0 c0 v (k + 1) (c + floorDiv2 w)

/-- Reachability of `(v, k)` at discounted cost `c` from the start state. -/
def TReach (g : Graph) (b : ℕ) (s : String) (v : String) (k : ℕ) (c : ℚ) : Prop :=
  TReachA g b s 0 0 v k c

theorem floorDiv2_nonneg {w : ℚ} (h : 0 ≤ w) : 0 ≤ floorDiv2 w := by
  unfold floorDiv2
  have : (0 : ℤ) ≤ ⌊w / 2⌋ := Int.floor_nonneg.mpr (by linarith)
  exact_mod_cast this

theorem floorDiv2_le {w : ℚ} (h : 0 ≤ w) : floorDiv2 w ≤ w := by
  unfold floorDiv2
  have h1 : (⌊w / 2⌋ : ℚ) ≤ w / 2 := Int.floor_le _
  linarith

theorem edgeWeight_nonneg {g : Graph} (hnn : NonnegWeights g) {u v : String} {w : ℚ}
    (h : edgeWeight g u v = some w) : 0 ≤ w := by
  obtain ⟨vu, hlu, _, hla⟩ := edgeWeight_some.mp h
  exact hnn (u, vu) (dlookup_eq_some_mem hlu) (v, w) (dlookup_eq_some_mem hla)

/-- Along a discounted derivation with non-negative weights the cost never
decreases. -/
theorem treacha_mono {g : Graph} (hnn : NonnegWeights g) {b : ℕ} {u0 : String}
    {k0 : ℕ} {c0 : ℚ} {v : String} {k : ℕ} {c : ℚ}
    (h : TReachA g b u0 k0 c0 v k c) : c0 ≤ c ∧ k0 ≤ k := by
  induction h with
  | base => exact ⟨le_refl _, le_refl _⟩
  | full u k c v w hd he ih =>
    have := edgeWeight_nonneg hnn he
    exact ⟨by linarith [ih.1], ih.2⟩
  | disc u k c v w hd hk he ih =>
    have := floorDiv2_nonneg (edgeWeight_nonneg hnn he)
    exact ⟨by linarith [ih.1], by omega⟩

/-- Derivations compose. -/
theorem treacha_trans {g : Graph} {b : ℕ} {u0 : String} {k0 : ℕ} {c0 : ℚ}
    {u1 : String} {k1 : ℕ} {c1 : ℚ} {v : String} {k : ℕ} {c : ℚ}
    (h1 : TReachA g b u0 k0 c0 u1 k1 c1) (h2 : TReachA g b u1 k1 c1 v k c) :
    TReachA g b u0 k0 c0 v k c := by
  induction h2 with
  | base => exact h1
  | full u k c v w hd he ih => exact TReachA.full u k c v w ih he
  | disc u k c v w hd hk he ih => exact TReachA.disc u k c v w ih hk he

/-- Coupon counts along a derivation from the start never exceed the budget
once they start within it. -/
theorem treacha_cu_le {g : Graph} {b : ℕ} {u0 : String} {k0 : ℕ} {c0 : ℚ}
    {v : String} {k : ℕ} {c : ℚ}
    (h : TReachA g b u0 k0 c0 v k c) (h0 : k0 ≤ b) : k ≤ b := by
  induction h with
  | base => exact h0
  | full u k c v w hd he ih => exact ih
  | disc u k c v w hd hk he ih => omega

/-- The candidate `(vertex id, coupons used)` keys of the toll search. -/
def allKeysT (g : Graph) (b : ℕ) : List (String × ℕ) :=
  (gkeys g).product (List.range (b + 1))

/-- A key is settled once successfully popped: recorded cost, no locator
entry. -/
def settledB (st : TState) (K : String × ℕ) : Bool :=
  (st.pq.locator K).isNone && (st.costs K).isSome

def unsettledCount (g : Graph) (b : ℕ) (st : TState) : ℕ :=
  (allKeysT g b).countP (fun K => ! settledB st K)

/-- Termination measure of the toll-search loop. -/
def tollMeasure (g : Graph) (b : ℕ) (st : TState) : ℕ :=
  st.pq.data.length + 2 * g.vertices.length * unsettledCount g b st

/-- The invariant of the `while not pq.empty()` loop of `tollways_algorithm`:
heap counters are unique and below the running counter; every heap record is
live, names a graph vertex within budget, and is no better than the recorded
cost of its key, with the locator-pointed record exactly at the recorded
cost; every locator entry points at a live heap record at the recorded cost;
recorded costs are achievable; settled keys are fully relaxed; every
discounted derivation is already beaten by a recorded cost or passes through
an open key at its recorded cost; and settled costs never exceed open
costs. -/
def TInv (g : Graph) (b : ℕ) (s : String) (st : TState) : Prop :=
  (st.pq.data.map TEnt.cnt).Nodup ∧
  (∀ e ∈ st.pq.data, e.cnt < st.pq.counter) ∧
  (∀ e ∈ st.pq.data, ∃ vid, e.pay = some vid ∧ isVertex g vid = true ∧ e.cu ≤ b ∧
    ∃ cK, st.costs (vid, e.cu) = some cK ∧ cK ≤ e.pri ∧
      (st.pq.locator (vid, e.cu) = some e.cnt → e.pri = cK)) ∧
  (∀ vid cu cnt, st.pq.locator (vid, cu) = some cnt →
    ∃ e ∈ st.pq.data, e.pay = some vid ∧ e.cu = cu ∧ e.cnt = cnt ∧
      ∃ cK, st.costs (vid, cu) = some cK ∧ e.pri = cK) ∧
  (∀ vid cu c, st.costs (vid, cu) = some c → TReach g b s vid cu c) ∧
  (∀ v0 k0 c0, st.pq.locator (v0, k0) = none → st.costs (v0, k0) = some c0 →
    ∀ v w, edgeWeight g v0 v = some w →
      (∃ c2, st.costs (v, k0) = some c2 ∧ c2 ≤ c0 + w) ∧
      (k0 < b → ∃ c2, st.costs (v, k0 + 1) = some c2 ∧ c2 ≤ c0 + floorDiv2 w)) ∧
  (∀ v k c, TReach g b s v k c →
    (∃ c2, st.costs (v, k) = some c2 ∧ c2 ≤ c) ∨
    (∃ v2 k2 c2 cq, st.pq.locator (v2, k2) ≠ none ∧ st.costs (v2, k2) = some cq ∧
      cq ≤ c2 ∧ TReachA g b v2 k2 c2 v k c)) ∧
  (∀ v0 k0 c0 v2 k2 c2, st.pq.locator (v0, k0) = none → st.costs (v0, k0) = some c0 →
    st.pq.locator (v2, k2) ≠ none → st.costs (v2, k2) = some c2 → c0 ≤ c2)

/-- The invariant holding during one relaxation pass, after the key
`(v0, k0)` was successfully popped at cost `c0`: the structural clauses of
`TInv`, settled costs at most `c0`, open costs at least `c0`, `(v0, k0)`
itself settled at `c0`, and all other settled keys fully relaxed. -/
def TRInv (g : Graph) (b : ℕ) (s v0 : String) (k0 : ℕ) (c0 : ℚ) (st : TState) : Prop :=
  (st.pq.data.map TEnt.cnt).Nodup ∧
  (∀ e ∈ st.pq.data, e.cnt < st.pq.counter) ∧
  (∀ e ∈ st.pq.data, ∃ vid, e.pay = some vid ∧ isVertex g vid = true ∧ e.cu ≤ b ∧
    ∃ cK, st.costs (vid, e.cu) = some cK ∧ cK ≤ e.pri ∧
      (st.pq.locator (vid, e.cu) = some e.cnt → e.pri = cK)) ∧
  (∀ vid cu cnt, st.pq.locator (vid, cu) = some cnt →
    ∃ e ∈ st.pq.data, e.pay = some vid ∧ e.cu = cu ∧ e.cnt = cnt ∧
      ∃ cK, st.costs (vid, cu) = some cK ∧ e.pri = cK) ∧
  (∀ vid cu c, st.costs (vid, cu) = some c → TReach g b s vid cu c) ∧
  (∀ K cK, st.pq.locator K = none → st.costs K = some cK → cK ≤ c0) ∧
  (∀ K cK, st.pq.locator K ≠ none → st.costs K = some cK → c0 ≤ cK) ∧
  (st.pq.locator (v0, k0) = none ∧ st.costs (v0, k0) = some c0) ∧
  (∀ v1 k1 c1, st.pq.locator (v1, k1) = none → st.costs (v1, k1) = some c1 →
    (v1, k1) ≠ (v0, k0) →
    ∀ v w, edgeWeight g v1 v = some w →
      (∃ c2, st.costs (v, k1) = some c2 ∧ c2 ≤ c1 + w) ∧
      (k1 < b → ∃ c2, st.costs (v, k1 + 1) = some c2 ∧ c2 ≤ c1 + floorDiv2 w))

theorem countP_pred_flip {α : Type} (P P2 : α → Bool) :
    ∀ (L : List α), L.Nodup → ∀ K0 ∈ L, P K0 = false → P2 K0 = true →
      (∀ K ∈ L, K ≠ K0 → P2 K = P K) →
      (L.countP (fun K => ! P2 K)) + 1 = L.countP (fun K => ! P K) := by
  intro L
  induction L with
  | nil => intro _ K0 h; simp at h
  | cons x xs ih =>
    intro hnd K0 hK0 hP hP2 hagree
    simp only [List.nodup_cons] at hnd
    rcases List.mem_cons.mp hK0 with hx | hx
    · subst hx
      have hxs : xs.countP (fun K => ! P2 K) = xs.countP (fun K => ! P K) := by
        apply List.countP_congr
        intro K hK
        have hne : K ≠ K0 := fun hcon => hnd.1 (hcon ▸ hK)
        rw [hagree K (List.mem_cons_of_mem _ hK) hne]
      rw [List.countP_cons, List.countP_cons, hxs]
      simp [hP, hP2]
    · have hxK0 : x ≠ K0 := fun hcon => hnd.1 (hcon ▸ hx)
      have := ih hnd.2 K0 hx hP hP2
        (fun K hK hne => hagree K (List.mem_cons_of_mem _ hK) hne)
      rw [List.countP_cons, List.countP_cons, ← this]
      rw [hagree x (List.mem_cons_self _ _) hxK0]
      omega

theorem mem_allKeysT {g : Graph} {b : ℕ} {v : String} {k : ℕ}
    (hv : isVertex g v = true) (hk : k ≤ b) : (v, k) ∈ allKeysT g b := by
  unfold allKeysT
  rw [List.pair_mem_product]
  constructor
  · unfold gkeys
    rw [← dlookup_isSome_iff]
    exact hv
  · rw [List.mem_range]
    omega

theorem allKeysT_nodup {g : Graph} (hwf : WellFormed g) (b : ℕ) :
    (allKeysT g b).Nodup := by
  unfold allKeysT
  exact List.Nodup.product hwf.1 (List.nodup_range _)

theorem allKeysT_length (g : Graph) (b : ℕ) :
    (allKeysT g b).length = capT g b := by
  unfold allKeysT capT
  show ((gkeys g) ×ˢ (List.range (b + 1))).length = g.vertices.length * (b + 1)
  rw [List.length_product, List.length_range]
  unfold gkeys
  rw [List.length_map]

/-- The state change of one guarded `pq.push` + `costs[...] = next_cost`
update of `tollways_algorithm`. -/
def tpushState (st : TState) (nc : ℚ) (cu2 : ℕ) (nid : String) : TState :=
  ⟨st.pq.pushQ nc cu2 nid, fun k => if k = (nid, cu2) then some nc else st.costs k⟩

/-- A guarded push during the relaxation pass preserves the pass invariant:
it can only target an unsettled key strictly improving its recorded cost. -/
theorem tpush_pres (g : Graph) (b : ℕ) (s v0 : String) (k0 : ℕ) (c0 : ℚ)
    (st : TState) (hinv : TRInv g b s v0 k0 c0 st)
    (nid : String) (cu2 : ℕ) (nc : ℚ)
    (hvx : isVertex g nid = true) (hcu : cu2 ≤ b) (hnc0 : c0 ≤ nc)
    (hach : TReach g b s nid cu2 nc)
    (hcond : (match st.costs (nid, cu2) with
      | none => true
      | some c => decide (nc < c)) = true) :
    TRInv g b s v0 k0 c0 (tpushState st nc cu2 nid) ∧
    (∀ K c, st.costs K = some c →
      ∃ c2, (tpushState st nc cu2 nid).costs K = some c2 ∧ c2 ≤ c) ∧
    (∀ K, st.pq.locator K ≠ none → (tpushState st nc cu2 nid).pq.locator K ≠ none) ∧
    (∀ K, settledB (tpushState st nc cu2 nid) K = settledB st K) ∧
    (tpushState st nc cu2 nid).costs (nid, cu2) = some nc ∧
    (tpushState st nc cu2 nid).pq.data.length = st.pq.data.length + 1 ∧
    (∀ K, st.costs K = none → (tpushState st nc cu2 nid).pq.locator K = none →
      (tpushState st nc cu2 nid).costs K = none) := by
  obtain ⟨t1, t2, t3, t4, t5, m6, m7, m8, m9⟩ := hinv
  have hlt : ∀ c, st.costs (nid, cu2) = some c → nc < c := by
    intro c hc
    rw [hc] at hcond
    simpa using hcond
  have hKne : (nid, cu2) ≠ (v0, k0) := by
    intro hcon
    have := hlt c0 (by rw [hcon]; exact m8.2)
    linarith
  have hcostsnew : ∀ K, (tpushState st nc cu2 nid).costs K =
      if K = (nid, cu2) then some nc else st.costs K := fun K => rfl
  have hlocnew : ∀ K, (tpushState st nc cu2 nid).pq.locator K =
      if K = (nid, cu2) then some st.pq.counter else st.pq.locator K := fun K => rfl
  have hdatanew : (tpushState st nc cu2 nid).pq.data =
      st.pq.data ++ [⟨nc, cu2, st.pq.counter, some nid⟩] := rfl
  have hcntnew : (tpushState st nc cu2 nid).pq.counter = st.pq.counter + 1 := rfl
  refine ⟨⟨?_, ?_, ?_, ?_, ?_, ?_, ?_, ?_, ?_⟩, ?_, ?_, ?_, ?_, ?_, ?_⟩
  · rw [hdatanew, List.map_append]
    simp only [List.map_cons, List.map_nil]
    rw [List.nodup_append]
    refine ⟨t1, List.nodup_singleton _, ?_⟩
    intro a ha hb
    simp only [List.mem_singleton] at hb
    subst hb
    obtain ⟨e, he, hecnt⟩ := List.mem_map.mp ha
    have := t2 e he
    omega
  · intro e he
    rw [hdatanew] at he
    rw [hcntnew]
    rcases List.mem_append.mp he with he | he
    · have := t2 e he
      omega
    · simp only [List.mem_singleton] at he
      subst he
      show st.pq.counter < st.pq.counter + 1
      omega
  · intro e he
    rw [hdatanew] at he
    rcases List.mem_append.mp he with he | he
    · obtain ⟨vid, hpay, hvtx, hcub, cK, hcK, hle, hptr⟩ := t3 e he
      refine ⟨vid, hpay, hvtx, hcub, ?_⟩
      rw [hcostsnew, hlocnew]
      by_cases hkey : ((vid, e.cu) : String × ℕ) = (nid, cu2)
      · refine ⟨nc, by rw [if_pos hkey], ?_, ?_⟩
        · have := hlt cK (by rw [← hkey]; exact hcK)
          linarith
        · rw [if_pos hkey]
          intro hcon
          have hcnteq : st.pq.counter = e.cnt := by
            injection hcon
          have := t2 e he
          omega
      · rw [if_neg hkey, if_neg hkey]
        exact ⟨cK, hcK, hle, hptr⟩
    · simp only [List.mem_singleton] at he
      subst he
      refine ⟨nid, rfl, hvx, hcu, ?_⟩
      rw [hcostsnew, hlocnew]
      simp only [if_pos rfl]
      exact ⟨nc, rfl, le_refl _, fun _ => rfl⟩
  · intro vid cu cnt hloc
    rw [hlocnew] at hloc
    rw [hdatanew]
    by_cases hkey : ((vid, cu) : String × ℕ) = (nid, cu2)
    · rw [if_pos hkey] at hloc
      injection hloc with hloc
      have hv : vid = nid := congrArg Prod.fst hkey
      have hc : cu = cu2 := congrArg Prod.snd hkey
      refine ⟨⟨nc, cu2, st.pq.counter, some nid⟩, List.mem_append_right _ (by simp),
        by rw [hv], by rw [hc], by rw [hloc], nc, ?_, rfl⟩
      rw [hcostsnew, if_pos hkey]
    · rw [if_neg hkey] at hloc
      obtain ⟨e, he, hpay, hcu2, hcnt, cK, hcK, hpri⟩ := t4 vid cu cnt hloc
      refine ⟨e, List.mem_append_left _ he, hpay, hcu2, hcnt, cK, ?_, hpri⟩
      rw [hcostsnew, if_neg hkey]
      exact hcK
  · intro vid cu c hc
    rw [hcostsnew] at hc
    by_cases hkey : ((vid, cu) : String × ℕ) = (nid, cu2)
    · rw [if_pos hkey] at hc
      injection hc with hc
      have hv : vid = nid := congrArg Prod.fst hkey
      have hcu3 : cu = cu2 := congrArg Prod.snd hkey
      rw [hv, hcu3, ← hc]
      exact hach
    · rw [if_neg hkey] at hc
      exact t5 vid cu c hc
  · intro K cK hloc hc
    rw [hlocnew] at hloc
    rw [hcostsnew] at hc
    by_cases hkey : K = (nid, cu2)
    · rw [if_pos hkey] at hloc
      exact absurd hloc (by simp)
    · rw [if_neg hkey] at hloc hc
      exact m6 K cK hloc hc
  · intro K cK hloc hc
    rw [hlocnew] at hloc
    rw [hcostsnew] at hc
    by_cases hkey : K = (nid, cu2)
    · rw [if_pos hkey] at hc
      injection hc with hc
      rw [← hc]
      exact hnc0
    · rw [if_neg hkey] at hloc hc
      exact m7 K cK hloc hc
  · constructor
    · rw [hlocnew, if_neg (fun hcon => hKne hcon.symm)]
      exact m8.1
    · rw [hcostsnew, if_neg (fun hcon => hKne hcon.symm)]
      exact m8.2
  · intro v1 k1 c1 hloc hc hne v w he
    rw [hlocnew] at hloc
    rw [hcostsnew] at hc
    by_cases hkey : ((v1, k1) : String × ℕ) = (nid, cu2)
    · rw [if_pos hkey] at hloc
      exact absurd hloc (by simp)
    · rw [if_neg hkey] at hloc hc
      obtain ⟨hful, hdsc⟩ := m9 v1 k1 c1 hloc hc hne v w he
      constructor
      · obtain ⟨c2, hc2, hc2le⟩ := hful
        rw [hcostsnew]
        by_cases hkey2 : ((v, k1) : String × ℕ) = (nid, cu2)
        · refine ⟨nc, by rw [if_pos hkey2], ?_⟩
          have := hlt c2 (by rw [← hkey2]; exact hc2)
          linarith
        · exact ⟨c2, by rw [if_neg hkey2]; exact hc2, hc2le⟩
      · intro hk1b
        obtain ⟨c2, hc2, hc2le⟩ := hdsc hk1b
        rw [hcostsnew]
        by_cases hkey2 : ((v, k1 + 1) : String × ℕ) = (nid, cu2)
        · refine ⟨nc, by rw [if_pos hkey2], ?_⟩
          have := hlt c2 (by rw [← hkey2]; exact hc2)
          linarith
        · exact ⟨c2, by rw [if_neg hkey2]; exact hc2, hc2le⟩
  · intro K c hc
    rw [hcostsnew]
    by_cases hkey : K = (nid, cu2)
    · refine ⟨nc, by rw [if_pos hkey], ?_⟩
      have := hlt c (by rw [← hkey]; exact hc)
      linarith
    · exact ⟨c, by rw [if_neg hkey]; exact hc, le_refl _⟩
  · intro K hloc
    rw [hlocnew]
    by_cases hkey : K = (nid, cu2)
    · rw [if_pos hkey]
      simp
    · rw [if_neg hkey]
      exact hloc
  · intro K
    unfold settledB
    rw [hlocnew, hcostsnew]
    by_cases hkey : K = (nid, cu2)
    · rw [if_pos hkey, if_pos hkey]
      simp only [Option.isNone_some, Bool.false_and]
      cases hloc : st.pq.locator K with
      | some cnt => simp
      | none =>
        cases hcst : st.costs K with
        | none => simp
        | some cK =>
          exfalso
          have := m6 K cK hloc hcst
          have := hlt cK (hkey ▸ hcst)
          linarith
    · rw [if_neg hkey, if_neg hkey]
  · rw [hcostsnew, if_pos rfl]
  · rw [hdatanew]
    simp
  · intro K hc hloc
    rw [hlocnew] at hloc
    rw [hcostsnew]
    by_cases hkey : K = (nid, cu2)
    · rw [if_pos hkey] at hloc
      exact absurd hloc (by simp)
    · rw [if_neg hkey] at hloc
      rw [if_neg hkey]
      exact hc


/-- One step of the toll relaxation extends the state: the pass invariant
holds, recorded costs only improve, open keys stay open, settledness is
unchanged, the heap grows by at most `n` records, and keys without a
recorded cost that stay unqueued stay unrecorded. -/
def TExt (g : Graph) (b : ℕ) (s v0 : String) (k0 : ℕ) (c0 : ℚ) (n : ℕ)
    (st st2 : TState) : Prop :=
  TRInv g b s v0 k0 c0 st2 ∧
  (∀ K c, st.costs K = some c → ∃ c2, st2.costs K = some c2 ∧ c2 ≤ c) ∧
  (∀ K, st.pq.locator K ≠ none → st2.pq.locator K ≠ none) ∧
  (∀ K, settledB st2 K = settledB st K) ∧
  st2.pq.data.length ≤ st.pq.data.length + n ∧
  (∀ K, st.costs K = none → st2.pq.locator K = none → st2.costs K = none)

theorem text_refl (g : Graph) (b : ℕ) (s v0 : String) (k0 : ℕ) (c0 : ℚ) (n : ℕ)
    (st : TState) (hinv : TRInv g b s v0 k0 c0 st) : TExt g b s v0 k0 c0 n st st :=
  ⟨hinv, fun K c hc => ⟨c, hc, le_refl _⟩, fun K h => h, fun K => rfl, by omega,
   fun K hc _ => hc⟩

theorem text_trans {g : Graph} {b : ℕ} {s v0 : String} {k0 : ℕ} {c0 : ℚ}
    {n m : ℕ} {st st1 st2 : TState}
    (h1 : TExt g b s v0 k0 c0 n st st1) (h2 : TExt g b s v0 k0 c0 m st1 st2) :
    TExt g b s v0 k0 c0 (n + m) st st2 := by
  obtain ⟨i1, c1, l1, s1, d1, z1⟩ := h1
  obtain ⟨i2, c2, l2, s2, d2, z2⟩ := h2
  refine ⟨i2, ?_, ?_, ?_, by omega, ?_⟩
  · intro K c hc
    obtain ⟨cm, hcm, hle⟩ := c1 K c hc
    obtain ⟨cf, hcf, hle2⟩ := c2 K cm hcm
    exact ⟨cf, hcf, le_trans hle2 hle⟩
  · intro K h
    exact l2 K (l1 K h)
  · intro K
    rw [s2 K, s1 K]
  · intro K hc hloc
    have hl1 : st1.pq.locator K = none := by
      cases hl : st1.pq.locator K with
      | none => rfl
      | some cnt => exact absurd hloc (l2 K (by rw [hl]; simp))
    exact z2 K (z1 K hc hl1) hloc

/-- The discounted transition cost of the relaxation (`next_cost_coup`). -/
def nccT (b : ℕ) (c0 : ℚ) (k0 : ℕ) (w : ℚ) : ℚ :=
  if k0 < b then c0 + floorDiv2 w else c0 + w

/-- The first guarded push of the relaxation body (full price, same coupon
level). -/
def tollPush1 (c0 : ℚ) (k0 : ℕ) (nid : String) (w : ℚ) (st : TState) : TState :=
  if (match st.costs (nid, k0) with
      | none => true
      | some c => decide (c0 + w < c)) then tpushState st (c0 + w) k0 nid else st

/-- The second guarded push of the relaxation body (discounted, next coupon
level, only when coupons remain). -/
def tollPush2 (b : ℕ) (c0 : ℚ) (k0 : ℕ) (nid : String) (w : ℚ) (st1 : TState) : TState :=
  if k0 < b then
    (if (match st1.costs (nid, k0 + 1) with
        | none => true
        | some c => decide (nccT b c0 k0 w < c)) then
      tpushState st1 (nccT b c0 k0 w) (k0 + 1) nid
    else st1)
  else st1

theorem tollRelax_cons (b : ℕ) (c0 : ℚ) (k0 : ℕ) (nid : String) (w : ℚ)
    (rest : List (String × ℚ)) (st : TState) :
    tollRelax b c0 k0 ((nid, w) :: rest) st =
      tollRelax b c0 k0 rest (tollPush2 b c0 k0 nid w (tollPush1 c0 k0 nid w st)) := rfl

theorem tollPush1_ext (g : Graph) (hnn : NonnegWeights g) (b : ℕ) (s v0 : String)
    (k0 : ℕ) (c0 : ℚ) (hr0 : TReach g b s v0 k0 c0) (hk0 : k0 ≤ b)
    (nid : String) (w : ℚ) (he : edgeWeight g v0 nid = some w)
    (st : TState) (hinv : TRInv g b s v0 k0 c0 st) :
    TExt g b s v0 k0 c0 1 st (tollPush1 c0 k0 nid w st) ∧
    (∃ c2, (tollPush1 c0 k0 nid w st).costs (nid, k0) = some c2 ∧ c2 ≤ c0 + w) := by
  have hw : 0 ≤ w := edgeWeight_nonneg hnn he
  have hvx : isVertex g nid = true := by
    obtain ⟨vu, hlu, hvv, hla⟩ := edgeWeight_some.mp he
    exact hvv
  have hfull : TReach g b s nid k0 (c0 + w) := TReachA.full v0 k0 c0 nid w hr0 he
  unfold tollPush1
  by_cases hc1 : (match st.costs (nid, k0) with
      | none => true
      | some c => decide (c0 + w < c)) = true
  · rw [if_pos hc1]
    obtain ⟨p1, p2, p3, p4, p5, p6, p7⟩ :=
      tpush_pres g b s v0 k0 c0 st hinv nid k0 (c0 + w) hvx hk0 (by linarith) hfull hc1
    exact ⟨⟨p1, p2, p3, p4, by omega, p7⟩, (c0 + w), p5, le_refl _⟩
  · rw [if_neg hc1]
    refine ⟨text_refl g b s v0 k0 c0 1 st hinv, ?_⟩
    cases hcst : st.costs (nid, k0) with
    | none =>
      exfalso
      rw [hcst] at hc1
      exact hc1 rfl
    | some c =>
      refine ⟨c, rfl, ?_⟩
      rw [hcst] at hc1
      simp only [decide_eq_true_eq] at hc1
      linarith

theorem tollPush2_ext (g : Graph) (hnn : NonnegWeights g) (b : ℕ) (s v0 : String)
    (k0 : ℕ) (c0 : ℚ) (hr0 : TReach g b s v0 k0 c0) (hk0 : k0 ≤ b)
    (nid : String) (w : ℚ) (he : edgeWeight g v0 nid = some w)
    (st1 : TState) (hinv : TRInv g b s v0 k0 c0 st1) :
    TExt g b s v0 k0 c0 1 st1 (tollPush2 b c0 k0 nid w st1) ∧
    (k0 < b → ∃ c2, (tollPush2 b c0 k0 nid w st1).costs (nid, k0 + 1) = some c2 ∧
      c2 ≤ c0 + floorDiv2 w) := by
  have hw : 0 ≤ w := edgeWeight_nonneg hnn he
  have hvx : isVertex g nid = true := by
    obtain ⟨vu, hlu, hvv, hla⟩ := edgeWeight_some.mp he
    exact hvv
  unfold tollPush2
  by_cases hkb : k0 < b
  · rw [if_pos hkb]
    have hncc : nccT b c0 k0 w = c0 + floorDiv2 w := by
      unfold nccT
      rw [if_pos hkb]
    have hdisc : TReach g b s nid (k0 + 1) (nccT b c0 k0 w) := by
      rw [hncc]
      exact TReachA.disc v0 k0 c0 nid w hr0 hkb he
    have hfd2 : 0 ≤ floorDiv2 w := floorDiv2_nonneg hw
    by_cases hc2 : (match st1.costs (nid, k0 + 1) with
        | none => true
        | some c => decide (nccT b c0 k0 w < c)) = true
    · rw [if_pos hc2]
      obtain ⟨p1, p2, p3, p4, p5, p6, p7⟩ :=
        tpush_pres g b s v0 k0 c0 st1 hinv nid (k0 + 1) (nccT b c0 k0 w) hvx
          (by omega) (by rw [hncc]; linarith) hdisc hc2
      refine ⟨⟨p1, p2, p3, p4, by omega, p7⟩, fun _ => ⟨nccT b c0 k0 w, p5, ?_⟩⟩
      rw [hncc]
    · rw [if_neg hc2]
      refine ⟨text_refl g b s v0 k0 c0 1 st1 hinv, fun _ => ?_⟩
      cases hcst : st1.costs (nid, k0 + 1) with
      | none =>
        exfalso
        rw [hcst] at hc2
        exact hc2 rfl
      | some c =>
        refine ⟨c, rfl, ?_⟩
        rw [hcst] at hc2
        simp only [decide_eq_true_eq] at hc2
        rw [hncc] at hc2
        linarith
  · rw [if_neg hkb]
    exact ⟨text_refl g b s v0 k0 c0 1 st1 hinv, fun hcon => absurd hcon hkb⟩

theorem text_weaken {g : Graph} {b : ℕ} {s v0 : String} {k0 : ℕ} {c0 : ℚ}
    {n m : ℕ} {st st2 : TState} (h : TExt g b s v0 k0 c0 n st st2) (hnm : n ≤ m) :
    TExt g b s v0 k0 c0 m st st2 := by
  obtain ⟨i1, c1, l1, s1, d1, z1⟩ := h
  exact ⟨i1, c1, l1, s1, by omega, z1⟩

/-- The full relaxation pass of one popped state `(v0, k0)` at cost `c0`:
the pass invariant is preserved and every neighbor ends up with recorded
costs bounded by the full-price and discounted transition costs. -/
theorem tollRelax_pres (g : Graph) (hnn : NonnegWeights g) (b : ℕ) (s v0 : String)
    (k0 : ℕ) (c0 : ℚ) (hr0 : TReach g b s v0 k0 c0) (hk0 : k0 ≤ b) :
    ∀ (A : List (String × ℚ)) (st : TState),
      TRInv g b s v0 k0 c0 st →
      (∀ yw ∈ A, edgeWeight g v0 yw.1 = some yw.2) →
      TExt g b s v0 k0 c0 (2 * A.length) st (tollRelax b c0 k0 A st) ∧
      (∀ yw ∈ A,
        (∃ c2, (tollRelax b c0 k0 A st).costs (yw.1, k0) = some c2 ∧ c2 ≤ c0 + yw.2) ∧
        (k0 < b → ∃ c2, (tollRelax b c0 k0 A st).costs (yw.1, k0 + 1) = some c2 ∧
          c2 ≤ c0 + floorDiv2 yw.2)) := by
  intro A
  induction A with
  | nil =>
    intro st hinv _
    exact ⟨text_refl g b s v0 k0 c0 _ st hinv, by simp⟩
  | cons yw A ih =>
    intro st hinv hedges
    obtain ⟨nid, w⟩ := yw
    have he : edgeWeight g v0 nid = some w := hedges (nid, w) (List.mem_cons_self _ _)
    rw [tollRelax_cons]
    obtain ⟨e1, hb1⟩ := tollPush1_ext g hnn b s v0 k0 c0 hr0 hk0 nid w he st hinv
    obtain ⟨e2, hb2⟩ := tollPush2_ext g hnn b s v0 k0 c0 hr0 hk0 nid w he _ e1.1
    obtain ⟨e3, hb3⟩ := ih (tollPush2 b c0 k0 nid w (tollPush1 c0 k0 nid w st)) e2.1
      (fun yw2 h2 => hedges yw2 (List.mem_cons_of_mem _ h2))
    constructor
    · refine text_weaken (text_trans (text_trans e1 e2) e3) ?_
      simp only [List.length_cons]
      omega
    · intro yw2 h2
      rcases List.mem_cons.mp h2 with h2 | h2
      · subst h2
        constructor
        · obtain ⟨c2, hc2, hle2⟩ := hb1
          obtain ⟨c3, hc3, hle3⟩ := e2.2.1 (nid, k0) c2 hc2
          obtain ⟨c4, hc4, hle4⟩ := e3.2.1 (nid, k0) c3 hc3
          exact ⟨c4, hc4, by linarith⟩
        · intro hkb
          obtain ⟨c2, hc2, hle2⟩ := hb2 hkb
          obtain ⟨c3, hc3, hle3⟩ := e3.2.1 (nid, k0 + 1) c2 hc2
          exact ⟨c3, hc3, by linarith⟩
      · exact hb3 yw2 h2

/-- After settling `(v0, k0)` at cost `c0` and fully relaxing it, the
frontier clause of the invariant is restored: every discounted derivation is
beaten by a recorded cost or passes through an open key. -/
theorem t7_restore (g : Graph) (b : ℕ) (s : String) (old2 new2 : TState)
    (v0 : String) (k0 : ℕ) (c0 : ℚ)
    (hold7 : ∀ v k c, TReach g b s v k c →
      (∃ c2, old2.costs (v, k) = some c2 ∧ c2 ≤ c) ∨
      (∃ v2 k2 c2 cq, old2.pq.locator (v2, k2) ≠ none ∧ old2.costs (v2, k2) = some cq ∧
        cq ≤ c2 ∧ TReachA g b v2 k2 c2 v k c))
    (hmono : ∀ K c, old2.costs K = some c → ∃ c2, new2.costs K = some c2 ∧ c2 ≤ c)
    (hopen : ∀ K, K ≠ (v0, k0) → old2.pq.locator K ≠ none → new2.pq.locator K ≠ none)
    (hc00 : old2.costs (v0, k0) = some c0)
    (hnew0 : new2.costs (v0, k0) = some c0)
    (ht6 : ∀ v1 k1 c1, new2.pq.locator (v1, k1) = none → new2.costs (v1, k1) = some c1 →
      ∀ v w, edgeWeight g v1 v = some w →
        (∃ c2, new2.costs (v, k1) = some c2 ∧ c2 ≤ c1 + w) ∧
        (k1 < b → ∃ c2, new2.costs (v, k1 + 1) = some c2 ∧ c2 ≤ c1 + floorDiv2 w)) :
    ∀ v k c, TReach g b s v k c →
      (∃ c2, new2.costs (v, k) = some c2 ∧ c2 ≤ c) ∨
      (∃ v2 k2 c2 cq, new2.pq.locator (v2, k2) ≠ none ∧ new2.costs (v2, k2) = some cq ∧
        cq ≤ c2 ∧ TReachA g b v2 k2 c2 v k c) := by
  have key : ∀ (c2 : ℚ), c0 ≤ c2 → ∀ (v : String) (k : ℕ) (c : ℚ),
      TReachA g b v0 k0 c2 v k c →
      (∃ c3, new2.costs (v, k) = some c3 ∧ c3 ≤ c) ∨
      (∃ v3 k3 c3 cq3, new2.pq.locator (v3, k3) ≠ none ∧ new2.costs (v3, k3) = some cq3 ∧
        cq3 ≤ c3 ∧ TReachA g b v3 k3 c3 v k c) := by
    intro c2 hc02 v k c hder
    induction hder with
    | base => exact Or.inl ⟨c0, hnew0, hc02⟩
    | full u j cu v w hd he ih =>
      rcases ih with ⟨cu2, hcu2, hcu2le⟩ | ⟨v3, k3, c3, cq3, hl, hc, hle, hder2⟩
      · by_cases hloc : new2.pq.locator (u, j) = none
        · obtain ⟨c3, hc3, hc3le⟩ := (ht6 u j cu2 hloc hcu2 v w he).1
          exact Or.inl ⟨c3, hc3, by linarith⟩
        · exact Or.inr ⟨u, j, cu, cu2, hloc, hcu2, hcu2le,
            TReachA.full u j cu v w TReachA.base he⟩
      · exact Or.inr ⟨v3, k3, c3, cq3, hl, hc, hle, TReachA.full u j cu v w hder2 he⟩
    | disc u j cu v w hd hjb he ih =>
      rcases ih with ⟨cu2, hcu2, hcu2le⟩ | ⟨v3, k3, c3, cq3, hl, hc, hle, hder2⟩
      · by_cases hloc : new2.pq.locator (u, j) = none
        · obtain ⟨c3, hc3, hc3le⟩ := (ht6 u j cu2 hloc hcu2 v w he).2 hjb
          exact Or.inl ⟨c3, hc3, by linarith⟩
        · exact Or.inr ⟨u, j, cu, cu2, hloc, hcu2, hcu2le,
            TReachA.disc u j cu v w TReachA.base hjb he⟩
      · exact Or.inr ⟨v3, k3, c3, cq3, hl, hc, hle, TReachA.disc u j cu v w hder2 hjb he⟩
  intro v k c hd
  rcases hold7 v k c hd with ⟨c2, hc2, hc2le⟩ | ⟨v2, k2, c2, cq, hl, hc, hle, hder⟩
  · obtain ⟨c3, hc3, hc3le⟩ := hmono (v, k) c2 hc2
    exact Or.inl ⟨c3, hc3, by linarith⟩
  · by_cases hK : ((v2, k2) : String × ℕ) = (v0, k0)
    · have hv2 : v2 = v0 := congrArg Prod.fst hK
      have hk2 : k2 = k0 := congrArg Prod.snd hK
      rw [hv2, hk2] at hc hder
      rw [hc00] at hc
      injection hc with hc
      refine key c2 (by rw [hc]; exact hle) v k c hder
    · obtain ⟨cq2, hcq2, hcq2le⟩ := hmono (v2, k2) cq hc
      exact Or.inr ⟨v2, k2, c2, cq2, hopen (v2, k2) hK hl, hcq2, by linarith, hder⟩

/-- A `KeyError` pop (locator key already consumed) removes one heap record
and changes nothing else: the loop invariant survives untouched. -/
theorem tpop_keyError (g : Graph) (b : ℕ) (s : String) (st : TState)
    (hinv : TInv g b s st) (m : TEnt) (vid : String)
    (hmin : listMinBy tentLe st.pq.data = some m) (hpay : m.pay = some vid)
    (hloc : st.pq.locator (vid, m.cu) = none) :
    TInv g b s ⟨⟨eraseFirst st.pq.data m, st.pq.locator, st.pq.counter⟩, st.costs⟩ ∧
    (∀ K, settledB ⟨⟨eraseFirst st.pq.data m, st.pq.locator, st.pq.counter⟩, st.costs⟩ K =
      settledB st K) := by
  obtain ⟨t1, t2, t3, t4, t5, t6, t7, t8⟩ := hinv
  have hsub : ∀ e ∈ eraseFirst st.pq.data m, e ∈ st.pq.data :=
    fun e he => eraseFirst_subset st.pq.data m e he
  refine ⟨⟨?_, ?_, ?_, ?_, t5, t6, t7, t8⟩, fun K => rfl⟩
  · exact List.Nodup.sublist (List.Sublist.map _ (eraseFirst_sublist st.pq.data m)) t1
  · intro e he
    exact t2 e (hsub e he)
  · intro e he
    exact t3 e (hsub e he)
  · intro vid2 cu2 cnt2 hloc2
    obtain ⟨f, hf, hfpay, hfcu, hfcnt, cK, hcK, hfpri⟩ := t4 vid2 cu2 cnt2 hloc2
    have hfm : f ≠ m := by
      intro hcon
      have hfpay2 : m.pay = some vid2 := hcon ▸ hfpay
      have hfcu2 : m.cu = cu2 := hcon ▸ hfcu
      rw [hfpay2] at hpay
      injection hpay with hvv
      rw [hvv, ← hfcu2] at hloc2
      rw [hloc] at hloc2
      exact Option.noConfusion hloc2
    exact ⟨f, eraseFirst_mem_of_ne st.pq.data m f hf hfm, hfpay, hfcu, hfcnt,
      cK, hcK, hfpri⟩

/-- A successful pop: the popped record is exactly at the recorded cost of
its key, which becomes settled; the relaxation-pass invariant holds on the
post-pop state. -/
theorem tpop_mid (g : Graph) (b : ℕ) (s : String) (st : TState)
    (hinv : TInv g b s st) (m : TEnt) (vid : String)
    (hmin : listMinBy tentLe st.pq.data = some m) (hpay : m.pay = some vid)
    (hminle : ∀ e ∈ st.pq.data, tentLe m e = true)
    (hloc : st.pq.locator (vid, m.cu) ≠ none) :
    st.costs (vid, m.cu) = some m.pri ∧
    isVertex g vid = true ∧ m.cu ≤ b ∧
    TRInv g b s vid m.cu m.pri
      ⟨⟨eraseFirst st.pq.data m,
        fun k => if k = (vid, m.cu) then none else st.pq.locator k, st.pq.counter⟩,
       st.costs⟩ ∧
    (∀ K cK, st.pq.locator K ≠ none → st.costs K = some cK → m.pri ≤ cK) ∧
    settledB st (vid, m.cu) = false := by
  obtain ⟨t1, t2, t3, t4, t5, t6, t7, t8⟩ := hinv
  have hmem : m ∈ st.pq.data := listMinBy_mem tentLe st.pq.data m hmin
  obtain ⟨vid2, hpay2, hvtx, hcub, cK, hcK, hcKle, hptr⟩ := t3 m hmem
  have hvid : vid = vid2 := by
    rw [hpay2] at hpay
    injection hpay with h
    exact h.symm
  subst hvid
  have hopenle : ∀ K cK2, st.pq.locator K ≠ none → st.costs K = some cK2 → m.pri ≤ cK2 := by
    intro K cK2 hlocK hcK2
    cases hlc : st.pq.locator K with
    | none => exact absurd hlc hlocK
    | some cnt2 =>
      obtain ⟨K1, K2⟩ := K
      obtain ⟨f, hf, hfpay, hfcu, hfcnt, cK3, hcK3, hfpri⟩ := t4 K1 K2 cnt2 hlc
      rw [hcK2] at hcK3
      injection hcK3 with hcK3
      have := tentLe_pri (hminle f hf)
      rw [hfpri, ← hcK3] at this
      exact this
  have hpri : m.pri = cK := by
    have h1 := hopenle (vid, m.cu) cK hloc hcK
    linarith
  subst hpri
  have hcosts0 : st.costs (vid, m.cu) = some m.pri := hcK
  refine ⟨hcosts0, hvtx, hcub, ⟨?_, ?_, ?_, ?_, t5, ?_, ?_, ?_, ?_⟩, hopenle, ?_⟩
  · exact List.Nodup.sublist (List.Sublist.map _ (eraseFirst_sublist st.pq.data m)) t1
  · intro e he
    exact t2 e (eraseFirst_subset st.pq.data m e he)
  · intro e he
    obtain ⟨vid3, hpay3, hvtx3, hcub3, cK3, hcK3, hle3, hptr3⟩ :=
      t3 e (eraseFirst_subset st.pq.data m e he)
    refine ⟨vid3, hpay3, hvtx3, hcub3, cK3, hcK3, hle3, ?_⟩
    intro hcon
    have hcon2 : (if ((vid3, e.cu) : String × ℕ) = (vid, m.cu) then none
        else st.pq.locator (vid3, e.cu)) = some e.cnt := hcon
    by_cases hkey : ((vid3, e.cu) : String × ℕ) = (vid, m.cu)
    · rw [if_pos hkey] at hcon2
      exact Option.noConfusion hcon2
    · rw [if_neg hkey] at hcon2
      exact hptr3 hcon2
  · intro vid3 cu3 cnt3 hloc3
    have hloc4 : (if ((vid3, cu3) : String × ℕ) = (vid, m.cu) then none
        else st.pq.locator (vid3, cu3)) = some cnt3 := hloc3
    by_cases hkey : ((vid3, cu3) : String × ℕ) = (vid, m.cu)
    · rw [if_pos hkey] at hloc4
      exact Option.noConfusion hloc4
    · rw [if_neg hkey] at hloc4
      obtain ⟨f, hf, hfpay, hfcu, hfcnt, cK3, hcK3, hfpri⟩ := t4 vid3 cu3 cnt3 hloc4
      have hfm : f ≠ m := by
        intro hcon
        have hfpay2 : m.pay = some vid3 := hcon ▸ hfpay
        have hfcu2 : m.cu = cu3 := hcon ▸ hfcu
        rw [hfpay2] at hpay
        injection hpay with hvv
        apply hkey
        rw [← hvv, ← hfcu2]
      exact ⟨f, eraseFirst_mem_of_ne st.pq.data m f hf hfm, hfpay, hfcu, hfcnt,
        cK3, hcK3, hfpri⟩
  · intro K cK2 hlocK hcK2
    by_cases hkey : K = (vid, m.cu)
    · rw [hkey] at hcK2
      rw [hcosts0] at hcK2
      injection hcK2 with h2
      rw [h2]
    · have hlocK2 : (if K = (vid, m.cu) then none else st.pq.locator K) = none := hlocK
      rw [if_neg hkey] at hlocK2
      obtain ⟨K1, K2⟩ := K
      exact t8 K1 K2 cK2 vid m.cu m.pri hlocK2 hcK2 hloc hcosts0
  · intro K cK2 hlocK hcK2
    by_cases hkey : K = (vid, m.cu)
    · exfalso
      apply hlocK
      show (if K = (vid, m.cu) then none else st.pq.locator K) = none
      rw [if_pos hkey]
    · have hlocK2 : ¬ (if K = (vid, m.cu) then none else st.pq.locator K) = none := hlocK
      rw [if_neg hkey] at hlocK2
      exact hopenle K cK2 hlocK2 hcK2
  · constructor
    · show (if ((vid, m.cu) : String × ℕ) = (vid, m.cu) then none
        else st.pq.locator (vid, m.cu)) = none
      rw [if_pos rfl]
    · exact hcosts0
  · intro v1 k1 c1 hloc1 hc1 hne v w he
    have hloc2 : (if ((v1, k1) : String × ℕ) = (vid, m.cu) then none
        else st.pq.locator (v1, k1)) = none := hloc1
    by_cases hkey : ((v1, k1) : String × ℕ) = (vid, m.cu)
    · exact absurd hkey hne
    · rw [if_neg hkey] at hloc2
      exact t6 v1 k1 c1 hloc2 hc1 v w he
  · unfold settledB
    cases hlc : st.pq.locator (vid, m.cu) with
    | none => exact absurd hlc hloc
    | some cnt2 => rfl

/-- A successful pop of a record for key `(vid, m.cu)` followed by the full
relaxation pass restores the loop invariant, shrinks the heap by one record
modulo at most `2 n` new ones, and settles exactly one more key. -/
theorem tollStep_settle (g : Graph) (hwf : WellFormed g) (hnn : NonnegWeights g)
    (b : ℕ) (s : String) (st : TState) (hinv : TInv g b s st)
    (m : TEnt) (vid : String)
    (hmin : listMinBy tentLe st.pq.data = some m) (hpay : m.pay = some vid)
    (hminle : ∀ e ∈ st.pq.data, tentLe m e = true)
    (hloc : st.pq.locator (vid, m.cu) ≠ none) :
    ∀ st2, st2 = tollRelax b m.pri m.cu (adjOf g vid)
      ⟨⟨eraseFirst st.pq.data m,
        fun k => if k = (vid, m.cu) then none else st.pq.locator k, st.pq.counter⟩,
       st.costs⟩ →
    TInv g b s st2 ∧
    st2.pq.data.length + 1 ≤ st.pq.data.length + 2 * g.vertices.length ∧
    unsettledCount g b st2 + 1 = unsettledCount g b st ∧
    (∀ K, K ≠ (vid, m.cu) → st2.pq.locator K = none →
      st.pq.locator K = none ∧ (st.costs K = none → st2.costs K = none)) := by
  intro st2 hst2
  obtain ⟨hcosts0, hvtx, hcub, hmid, hopenle, hsetfalse⟩ :=
    tpop_mid g b s st hinv m vid hmin hpay hminle hloc
  obtain ⟨t1, t2, t3, t4, t5, t6, t7, t8⟩ := hinv
  have hach0 : TReach g b s vid m.cu m.pri := t5 vid m.cu m.pri hcosts0
  obtain ⟨vx, hvx⟩ := Option.isSome_iff_exists.mp hvtx
  have hadj : adjOf g vid = vx.adj := by
    unfold adjOf
    rw [hvx]
  have hedges : ∀ yw ∈ adjOf g vid, edgeWeight g vid yw.1 = some yw.2 := by
    intro yw hyw
    rw [hadj] at hyw
    cases yw with
    | mk y w => exact edgeWeight_of_adj hwf hvx hyw
  obtain ⟨hext, hbounds⟩ := tollRelax_pres g hnn b s vid m.cu m.pri hach0 hcub
    (adjOf g vid) _ hmid hedges
  rw [← hst2] at hext hbounds
  obtain ⟨r1, r2, r3, r4, r5, m6, m7, m8, m9⟩ := hext.1
  have hmono := hext.2.1
  have hlocmono := hext.2.2.1
  have hsettle := hext.2.2.2.1
  have hlen := hext.2.2.2.2.1
  have hznone := hext.2.2.2.2.2
  have hmidloc : ∀ K, (⟨⟨eraseFirst st.pq.data m,
      fun k => if k = (vid, m.cu) then none else st.pq.locator k, st.pq.counter⟩,
      st.costs⟩ : TState).pq.locator K =
      if K = (vid, m.cu) then none else st.pq.locator K := fun K => rfl
  have hadjlen : (adjOf g vid).length ≤ g.vertices.length := by
    rw [hadj]
    obtain ⟨hnd, _, hvxs⟩ := hwf
    obtain ⟨_, hadjnd, hadjv⟩ := hvxs (vid, vx) (dlookup_eq_some_mem hvx)
    have hsub : vx.adj.map Prod.fst ⊆ g.vertices.map Prod.fst := by
      intro x hx
      obtain ⟨p, hp, hpx⟩ := List.mem_map.mp hx
      rw [← dlookup_isSome_iff]
      rw [← hpx]
      exact hadjv p hp
    have := (hadjnd.subperm hsub).length_le
    simpa using this
  -- the assembled t6 for the new state
  have ht6new : ∀ v1 k1 c1, st2.pq.locator (v1, k1) = none →
      st2.costs (v1, k1) = some c1 →
      ∀ v w, edgeWeight g v1 v = some w →
        (∃ c2, st2.costs (v, k1) = some c2 ∧ c2 ≤ c1 + w) ∧
        (k1 < b → ∃ c2, st2.costs (v, k1 + 1) = some c2 ∧ c2 ≤ c1 + floorDiv2 w) := by
    intro v1 k1 c1 hloc1 hc1 v w he
    by_cases hkey : ((v1, k1) : String × ℕ) = (vid, m.cu)
    · have hv1 : v1 = vid := congrArg Prod.fst hkey
      have hk1 : k1 = m.cu := congrArg Prod.snd hkey
      subst hv1
      subst hk1
      have hc1eq : c1 = m.pri := by
        have h9 := m8.2
        rw [hc1] at h9
        exact Option.some.inj h9
      subst hc1eq
      have hmem : ((v, w) : String × ℚ) ∈ adjOf g v1 := edgeWeight_mem_adjOf he
      have := hbounds (v, w) hmem
      exact this
    · exact m9 v1 k1 c1 hloc1 hc1 hkey v w he
  refine ⟨⟨r1, r2, r3, r4, r5, ht6new, ?_, ?_⟩, ?_, ?_, ?_⟩
  · -- t7 via restoration
    refine t7_restore g b s st st2 vid m.cu m.pri t7 ?_ ?_ hcosts0 m8.2 ht6new
    · intro K c hc
      exact hmono K c hc
    · intro K hK hKopen
      refine hlocmono K ?_
      rw [hmidloc K, if_neg hK]
      exact hKopen
  · intro v0 k0 c0 v2 k2 c2 hl0 hc0 hl2 hc2
    have h1 := m6 (v0, k0) c0 hl0 hc0
    have h2 := m7 (v2, k2) c2 hl2 hc2
    linarith
  · have := eraseFirst_length st.pq.data m (listMinBy_mem tentLe st.pq.data m hmin)
    have hlen2 : st2.pq.data.length ≤ (eraseFirst st.pq.data m).length +
        2 * (adjOf g vid).length := hlen
    omega
  · have hflip := countP_pred_flip (settledB st) (settledB st2) (allKeysT g b)
      (allKeysT_nodup hwf b) (vid, m.cu) (mem_allKeysT hvtx hcub) hsetfalse ?_ ?_
    · unfold unsettledCount
      omega
    · rw [hsettle (vid, m.cu)]
      unfold settledB
      rw [hmidloc (vid, m.cu), if_pos rfl]
      have : (⟨⟨eraseFirst st.pq.data m,
          fun k => if k = (vid, m.cu) then none else st.pq.locator k, st.pq.counter⟩,
          st.costs⟩ : TState).costs (vid, m.cu) = some m.pri := hcosts0
      rw [this]
      rfl
    · intro K hK hne
      rw [hsettle K]
      unfold settledB
      rw [hmidloc K, if_neg hne]
  · intro K hKne hloc2
    have hmidnone : (if K = (vid, m.cu) then none else st.pq.locator K) = none := by
      cases hl : (if K = (vid, m.cu) then none else st.pq.locator K) with
      | none => rfl
      | some cnt =>
        exfalso
        apply hlocmono K
        · rw [hmidloc K]
          rw [hl]
          simp
        · exact hloc2
    rw [if_neg hKne] at hmidnone
    refine ⟨hmidnone, ?_⟩
    intro hcn
    exact hznone K hcn hloc2

/-- Main loop lemma of the toll search: with the invariant and enough fuel
the loop always returns (never an uncaught exception, `KeyError` pops
included); a returned pair is an achievable discounted cost that is minimal
over all discounted derivations to the target, and a reachable target always
produces a pair. -/
theorem tollLoop_correct (g : Graph) (hwf : WellFormed g) (hnn : NonnegWeights g)
    (b : ℕ) (s t : String) :
    ∀ (fuel : ℕ) (st : TState),
      TInv g b s st →
      (∀ k, st.pq.locator (t, k) = none → st.costs (t, k) = none) →
      tollMeasure g b st < fuel →
      ∃ r, tollLoop g t b fuel st = some r ∧
        (∀ c k, r = some (c, k) → TReach g b s t k c ∧ k ≤ b ∧
          ∀ k2 c2, TReach g b s t k2 c2 → c ≤ c2) ∧
        ((∃ k c, TReach g b s t k c) → ∃ c k, r = some (c, k)) := by
  intro fuel
  induction fuel with
  | zero => intro st _ _ hm; omega
  | succ fuel ih =>
    intro st hinv htinv hm
    by_cases hemp : st.pq.data.isEmpty
    · have hstep : tollStep g t b st = some (Sum.inl none) := by
        unfold tollStep
        rw [if_pos hemp]
      refine ⟨none, ?_, ?_, ?_⟩
      · show (match tollStep g t b st with
          | none => none
          | some (Sum.inl r) => some r
          | some (Sum.inr st2) => tollLoop g t b fuel st2) = some none
        rw [hstep]
      · intro c k hck
        exact absurd hck (by simp)
      · intro hreach
        exfalso
        obtain ⟨k, c, hr⟩ := hreach
        obtain ⟨t1, t2, t3, t4, t5, t6, t7, t8⟩ := hinv
        have hdataemp : st.pq.data = [] := by
          cases hd : st.pq.data with
          | nil => rfl
          | cons e rest => rw [hd] at hemp; simp [List.isEmpty] at hemp
        rcases t7 t k c hr with ⟨c2, hc2, _⟩ | ⟨v2, k2, c2, cq, hl, hc, _, _⟩
        · cases hlt : st.pq.locator (t, k) with
          | none =>
            have := htinv k hlt
            rw [this] at hc2
            exact Option.noConfusion hc2
          | some cnt =>
            obtain ⟨e, he, _⟩ := t4 t k cnt hlt
            rw [hdataemp] at he
            simp at he
        · cases hlv : st.pq.locator (v2, k2) with
          | none => exact hl hlv
          | some cnt =>
            obtain ⟨e, he, _⟩ := t4 v2 k2 cnt hlv
            rw [hdataemp] at he
            simp at he
    · have hne : st.pq.data ≠ [] := by
        cases hd : st.pq.data with
        | nil => rw [hd] at hemp; simp [List.isEmpty] at hemp
        | cons e rest => simp
      have hlive : ∀ e ∈ st.pq.data, e.pay ≠ none := by
        intro e he
        obtain ⟨vid, hpay, _⟩ := hinv.2.2.1 e he
        rw [hpay]
        simp
      obtain ⟨m, vid, hmin, hpay, hminle, hpopq⟩ := popQ_spec_live st.pq hlive hne
      cases hlocv : st.pq.locator (vid, m.cu) with
      | none =>
        rw [hlocv] at hpopq
        have hstep : tollStep g t b st = some (Sum.inr
            ⟨⟨eraseFirst st.pq.data m, st.pq.locator, st.pq.counter⟩, st.costs⟩) := by
          unfold tollStep
          rw [if_neg hemp, hpopq]
        obtain ⟨hinv2, hset2⟩ := tpop_keyError g b s st hinv m vid hmin hpay hlocv
        have hm2 : tollMeasure g b
            ⟨⟨eraseFirst st.pq.data m, st.pq.locator, st.pq.counter⟩, st.costs⟩ < fuel := by
          unfold tollMeasure unsettledCount at hm ⊢
          have hcnt : (allKeysT g b).countP
              (fun K => ! settledB ⟨⟨eraseFirst st.pq.data m, st.pq.locator,
                st.pq.counter⟩, st.costs⟩ K) =
              (allKeysT g b).countP (fun K => ! settledB st K) := by
            apply List.countP_congr
            intro K _
            rw [hset2 K]
          rw [hcnt]
          have := eraseFirst_length st.pq.data m (listMinBy_mem tentLe st.pq.data m hmin)
          simp only []
          omega
        obtain ⟨r, hr, hc1, hc2⟩ := ih _ hinv2 htinv hm2
        refine ⟨r, ?_, hc1, hc2⟩
        show (match tollStep g t b st with
          | none => none
          | some (Sum.inl r2) => some r2
          | some (Sum.inr st2) => tollLoop g t b fuel st2) = some r
        rw [hstep]
        exact hr
      | some cnt =>
        rw [hlocv] at hpopq
        have hlocne : st.pq.locator (vid, m.cu) ≠ none := by
          rw [hlocv]
          simp
        obtain ⟨hcosts0, hvtx, hcub, hmid, hopenle, hsetfalse⟩ :=
          tpop_mid g b s st hinv m vid hmin hpay hminle hlocne
        by_cases hvt : vid = t
        · have hvt2 : t = vid := hvt.symm
          subst hvt2
          have hstep : tollStep g t b st = some (Sum.inl (some (m.pri, m.cu))) := by
            unfold tollStep
            rw [if_neg hemp, hpopq]
            simp
          refine ⟨some (m.pri, m.cu), ?_, ?_, ?_⟩
          · show (match tollStep g t b st with
              | none => none
              | some (Sum.inl r2) => some r2
              | some (Sum.inr st2) => tollLoop g t b fuel st2) = some (some (m.pri, m.cu))
            rw [hstep]
          · intro c k hck
            injection hck with hck
            have hc : c = m.pri := (congrArg Prod.fst hck).symm
            have hk : k = m.cu := (congrArg Prod.snd hck).symm
            subst hc
            subst hk
            refine ⟨hinv.2.2.2.2.1 t m.cu m.pri hcosts0, hcub, ?_⟩
            intro k2 c2 hder
            rcases hinv.2.2.2.2.2.2.1 t k2 c2 hder with ⟨c3, hc3, hle3⟩ |
              ⟨v2, k2x, c3, cq, hl, hc, hle, hder2⟩
            · cases hlt : st.pq.locator (t, k2) with
              | none =>
                have := htinv k2 hlt
                rw [this] at hc3
                exact absurd hc3 (by simp)
              | some cnt2 =>
                have := hopenle (t, k2) c3 (by rw [hlt]; simp) hc3
                linarith
            · have h1 := hopenle (v2, k2x) cq hl hc
              have h2 := (treacha_mono hnn hder2).1
              linarith
          · intro _
            exact ⟨m.pri, m.cu, rfl⟩
        · have hstep : tollStep g t b st = some (Sum.inr
              (tollRelax b m.pri m.cu (adjOf g vid)
                ⟨⟨eraseFirst st.pq.data m,
                  fun k => if k = (vid, m.cu) then none else st.pq.locator k,
                  st.pq.counter⟩, st.costs⟩)) := by
            unfold tollStep
            rw [if_neg hemp, hpopq]
            simp [hvt]
          obtain ⟨hinv2, hlen2, hcnt2, hback2⟩ :=
            tollStep_settle g hwf hnn b s st hinv m vid hmin hpay hminle hlocne _ rfl
          have htinv2 : ∀ k, (tollRelax b m.pri m.cu (adjOf g vid)
              ⟨⟨eraseFirst st.pq.data m,
                fun k2 => if k2 = (vid, m.cu) then none else st.pq.locator k2,
                st.pq.counter⟩, st.costs⟩).pq.locator (t, k) = none →
              (tollRelax b m.pri m.cu (adjOf g vid)
                ⟨⟨eraseFirst st.pq.data m,
                  fun k2 => if k2 = (vid, m.cu) then none else st.pq.locator k2,
                  st.pq.counter⟩, st.costs⟩).costs (t, k) = none := by
            intro k hlk
            have hKne : ((t, k) : String × ℕ) ≠ (vid, m.cu) := by
              intro hcon
              exact hvt (congrArg Prod.fst hcon).symm
            obtain ⟨hstnone, himp⟩ := hback2 (t, k) hKne hlk
            exact himp (htinv k hstnone)
          have hm2 : tollMeasure g b (tollRelax b m.pri m.cu (adjOf g vid)
              ⟨⟨eraseFirst st.pq.data m,
                fun k2 => if k2 = (vid, m.cu) then none else st.pq.locator k2,
                st.pq.counter⟩, st.costs⟩) < fuel := by
            unfold tollMeasure at hm ⊢
            have hmul : 2 * g.vertices.length * unsettledCount g b st =
                2 * g.vertices.length * unsettledCount g b (tollRelax b m.pri m.cu
                  (adjOf g vid)
                  ⟨⟨eraseFirst st.pq.data m,
                    fun k2 => if k2 = (vid, m.cu) then none else st.pq.locator k2,
                    st.pq.counter⟩, st.costs⟩) + 2 * g.vertices.length := by
              rw [← hcnt2]
              ring
            rw [hmul] at hm
            omega
          obtain ⟨r, hr, hc1, hc2⟩ := ih _ hinv2 htinv2 hm2
          refine ⟨r, ?_, hc1, hc2⟩
          show (match tollStep g t b st with
            | none => none
            | some (Sum.inl r2) => some r2
            | some (Sum.inr st2) => tollLoop g t b fuel st2) = some r
          rw [hstep]
          exact hr

theorem walkCost_snoc {g : Graph} {p : List String} {z v : String} {c w : ℚ}
    (hlast : p.getLast? = some z) (hcost : walkCost g p = some c)
    (he : edgeWeight g z v = some w) :
    walkCost g (p ++ [v]) = some (c + w) := by
  have hpne : p ≠ [] := by
    intro hcon
    rw [hcon] at hlast
    simp at hlast
  obtain ⟨q, a, hqa⟩ := (List.eq_nil_or_concat p).resolve_left hpne
  rw [List.concat_eq_append] at hqa
  have ha : a = z := by
    rw [hqa] at hlast
    simpa [List.getLast?_concat] using hlast
  rw [ha] at hqa
  subst hqa
  have harr : ((q ++ [z]) ++ [v] : List String) = q ++ z :: [v] := by simp
  rw [harr, walkCost_glue, hcost]
  have hzv : walkCost g [z, v] = some (w + 0) := by simp [walkCost, he]
  rw [hzv]
  show some (c + (w + 0)) = some (c + w)
  norm_num

/-- Cost-aware decomposition of a walk at its last edge. -/
theorem walk_unsnoc_cost {g : Graph} {s y : String} {p : List String} {c : ℚ}
    (hv : ValidWalk g s y p) (hc : walkCost g p = some c) (hh : 1 ≤ hops p) :
    ∃ q z w c2, p = q ++ [y] ∧ ValidWalk g s z q ∧ edgeWeight g z y = some w ∧
      walkCost g q = some c2 ∧ c = c2 + w := by
  obtain ⟨hh1, hl1, _⟩ := hv
  have hpne : p ≠ [] := by
    intro hcon
    rw [hcon] at hh1
    simp at hh1
  obtain ⟨q, a, hqa⟩ := (List.eq_nil_or_concat p).resolve_left hpne
  rw [List.concat_eq_append] at hqa
  have ha : a = y := by
    rw [hqa] at hl1
    simpa [List.getLast?_concat] using hl1
  rw [ha] at hqa
  have hqne : q ≠ [] := by
    intro hcon
    rw [hcon] at hqa
    rw [hqa] at hh
    simp [hops] at hh
  obtain ⟨q2, z, hq2z⟩ := (List.eq_nil_or_concat q).resolve_left hqne
  rw [List.concat_eq_append] at hq2z
  have harr : p = q2 ++ z :: [y] := by
    rw [hqa, hq2z]
    simp
  rw [harr, walkCost_glue] at hc
  cases hc1 : walkCost g (q2 ++ [z]) with
  | none => rw [hc1] at hc; simp [oadd] at hc
  | some c1 =>
    cases hc2 : walkCost g [z, y] with
    | none => rw [hc1, hc2] at hc; simp [oadd] at hc
    | some c2 =>
      rw [hc1, hc2] at hc
      simp only [oadd, Option.some.injEq] at hc
      cases hew : edgeWeight g z y with
      | none => simp [walkCost, hew] at hc2
      | some w =>
        have hc2w : c2 = w := by
          simp [walkCost, hew] at hc2
          linarith
        refine ⟨q, z, w, c1, hqa, ⟨?_, ?_, ?_⟩, hew, by rw [hq2z]; exact hc1, ?_⟩
        · exact head_of_append_singleton hqne hqa.symm hh1
        · rw [hq2z]
          simp [List.getLast?_concat]
        · rw [hq2z, hc1]
          simp
        · rw [← hc, hc2w]

/-- Any graph walk gives a full-price (0-coupon) discounted derivation, at
any budget. -/
theorem walk_to_treach (g : Graph) (b : ℕ) (s : String) :
    ∀ (p : List String) (t : String) (c : ℚ),
      ValidWalk g s t p → walkCost g p = some c → TReach g b s t 0 c := by
  intro p
  induction p using List.reverseRecOn with
  | nil =>
    intro t c hv _
    exact absurd hv.1 (by simp)
  | append_singleton q x ih =>
    intro t c hv hc
    have hx : x = t := by
      have := hv.2.1
      simpa [List.getLast?_concat] using this
    subst hx
    by_cases hq : q = []
    · subst hq
      have hs : x = s := by
        have := hv.1
        simpa using this
      have hc0 : c = 0 := by
        simp only [List.nil_append] at hc
        simp [walkCost] at hc
        rw [hc]
      subst hs
      subst hc0
      exact TReachA.base
    · have hh : 1 ≤ hops (q ++ [x]) := by
        have : q.length ≠ 0 := fun hcon => hq (List.eq_nil_of_length_eq_zero hcon)
        simp only [hops, List.length_append, List.length_singleton]
        omega
      obtain ⟨q2, z, w, c2, hqeq, hvq, hew, hcq, hceq⟩ := walk_unsnoc_cost hv hc hh
      have hqq : q = q2 := by
        have h2 := congrArg (fun l => List.dropLast l) hqeq
        simpa using h2
      subst hqq
      have := ih z c2 hvq hcq
      rw [hceq]
      exact TReachA.full z 0 c2 x w this hew

/-- At budget 0 the discounted derivations are exactly the graph walks at
their plain cost. -/
theorem treach_zero_to_walk (g : Graph) (s : String) :
    ∀ (v : String) (k : ℕ) (c : ℚ), TReach g 0 s v k c →
      ∃ p, ValidWalk g s v p ∧ walkCost g p = some c := by
  intro v k c h
  induction h with
  | base => exact ⟨[s], ⟨rfl, rfl, by simp [walkCost]⟩, by simp [walkCost]⟩
  | full u k2 c2 v2 w hd he ih =>
    obtain ⟨p, hp, hc⟩ := ih
    exact ⟨p ++ [v2], (validWalk_snoc g s u v2 p w hp he).1, walkCost_snoc hp.2.1 hc he⟩
  | disc u k2 c2 v2 w hd hk he ih => omega

/-- Raising the coupon budget preserves discounted derivations. -/
theorem treach_budget_mono {g : Graph} {b1 b2 : ℕ} (hb : b1 ≤ b2) {s : String} :
    ∀ {v : String} {k : ℕ} {c : ℚ}, TReach g b1 s v k c → TReach g b2 s v k c := by
  intro v k c h
  induction h with
  | base => exact TReachA.base
  | full u k2 c2 v2 w hd he ih => exact TReachA.full u k2 c2 v2 w ih he
  | disc u k2 c2 v2 w hd hk he ih => exact TReachA.disc u k2 c2 v2 w ih (by omega) he

/-- Full correctness of `tollways_algorithm` with both endpoints present:
it always returns a tuple; a returned `(cost, coupons)` is achievable and
cost-minimal over all discounted derivations, and a reachable target always
yields a pair. -/
theorem tollways_correct (g : Graph) (hwf : WellFormed g) (hnn : NonnegWeights g)
    (s t : String) (b : ℕ) (hs : isVertex g s = true) (ht : isVertex g t = true) :
    ∃ r, g.tollways s t b = some r ∧
      (∀ c k, r = some (c, k) → TReach g b s t k c ∧ k ≤ b ∧
        ∀ k2 c2, TReach g b s t k2 c2 → c ≤ c2) ∧
      ((∃ k c, TReach g b s t k c) → ∃ c k, r = some (c, k)) := by
  obtain ⟨vs, hvs⟩ := Option.isSome_iff_exists.mp hs
  obtain ⟨vt, hvt⟩ := Option.isSome_iff_exists.mp ht
  have htoll : g.tollways s t b = tollLoop g t b (tollFuel g b)
      ⟨TQ.emptyQ.pushQ 0 0 s, fun k => if k = (s, 0) then some 0 else none⟩ := by
    unfold Graph.tollways
    rw [hvs, hvt]
    simp
  set st0 : TState :=
    ⟨TQ.emptyQ.pushQ 0 0 s, fun k => if k = (s, 0) then some 0 else none⟩ with hst0
  have hdata0 : st0.pq.data = [⟨0, 0, 0, some s⟩] := rfl
  have hloc0 : ∀ K, st0.pq.locator K = if K = (s, 0) then some 0 else none := fun K => rfl
  have hcosts0 : ∀ K, st0.costs K = if K = (s, 0) then some 0 else none := fun K => rfl
  have hcnt0 : st0.pq.counter = 1 := rfl
  have hinv0 : TInv g b s st0 := by
    refine ⟨?_, ?_, ?_, ?_, ?_, ?_, ?_, ?_⟩
    · rw [hdata0]
      simp
    · intro e he
      rw [hdata0] at he
      simp only [List.mem_singleton] at he
      subst he
      rw [hcnt0]
      show 0 < 1
      omega
    · intro e he
      rw [hdata0] at he
      simp only [List.mem_singleton] at he
      subst he
      refine ⟨s, rfl, hs, Nat.zero_le b, 0, ?_, le_refl _, fun _ => rfl⟩
      rw [hcosts0, if_pos rfl]
    · intro vid cu cnt hloc
      rw [hloc0] at hloc
      by_cases hkey : ((vid, cu) : String × ℕ) = (s, 0)
      · rw [if_pos hkey] at hloc
        injection hloc with hloc
        have hv : s = vid := (congrArg Prod.fst hkey).symm
        have hcu : (0 : ℕ) = cu := (congrArg Prod.snd hkey).symm
        subst hv
        subst hcu
        refine ⟨⟨0, 0, 0, some s⟩, by rw [hdata0]; simp, rfl, rfl, by rw [← hloc], 0, ?_, rfl⟩
        rw [hcosts0, if_pos rfl]
      · rw [if_neg hkey] at hloc
        exact Option.noConfusion hloc
    · intro vid cu c hc
      rw [hcosts0] at hc
      by_cases hkey : ((vid, cu) : String × ℕ) = (s, 0)
      · rw [if_pos hkey] at hc
        injection hc with hc
        have hv : s = vid := (congrArg Prod.fst hkey).symm
        have hcu : (0 : ℕ) = cu := (congrArg Prod.snd hkey).symm
        subst hv
        subst hcu
        rw [← hc]
        exact TReachA.base
      · rw [if_neg hkey] at hc
        exact Option.noConfusion hc
    · intro v0 k0 c0 hl hc
      rw [hloc0] at hl
      rw [hcosts0] at hc
      by_cases hkey : ((v0, k0) : String × ℕ) = (s, 0)
      · rw [if_pos hkey] at hl
        exact absurd hl (by simp)
      · rw [if_neg hkey] at hc
        exact absurd hc (by simp)
    · intro v k c hd
      refine Or.inr ⟨s, 0, 0, 0, ?_, ?_, le_refl _, hd⟩
      · rw [hloc0, if_pos rfl]
        simp
      · rw [hcosts0, if_pos rfl]
    · intro v0 k0 c0 v2 k2 c2 hl0 hc0 _ _
      rw [hloc0] at hl0
      rw [hcosts0] at hc0
      by_cases hkey : ((v0, k0) : String × ℕ) = (s, 0)
      · rw [if_pos hkey] at hl0
        exact absurd hl0 (by simp)
      · rw [if_neg hkey] at hc0
        exact absurd hc0 (by simp)
  have htinv0 : ∀ k, st0.pq.locator (t, k) = none → st0.costs (t, k) = none := by
    intro k hl
    rw [hloc0] at hl
    rw [hcosts0]
    by_cases hkey : ((t, k) : String × ℕ) = (s, 0)
    · rw [if_pos hkey] at hl
      exact Option.noConfusion hl
    · rw [if_neg hkey]
  have hm0 : tollMeasure g b st0 < tollFuel g b := by
    unfold tollMeasure tollFuel
    have h1 : unsettledCount g b st0 ≤ capT g b := by
      unfold unsettledCount
      calc (allKeysT g b).countP (fun K => ! settledB st0 K) ≤ (allKeysT g b).length :=
            List.countP_le_length _
        _ = capT g b := allKeysT_length g b
    have h2 : st0.pq.data.length = 1 := by rw [hdata0]; rfl
    rw [h2]
    have h3 : 2 * g.vertices.length * unsettledCount g b st0 ≤
        2 * g.vertices.length * capT g b := by
      exact Nat.mul_le_mul_left _ h1
    omega
  obtain ⟨r, hr, hc1, hc2⟩ := tollLoop_correct g hwf hnn b s t (tollFuel g b) st0
    hinv0 htinv0 hm0
  exact ⟨r, by rw [htoll]; exact hr, hc1, hc2⟩

/-- C3: with a coupon budget of 0 the toll search returns the plain
(undiscounted) shortest-path cost, with 0 coupons used. -/
theorem claim_C3 (g : Graph) (hwf : WellFormed g) (hnn : NonnegWeights g)
    (s t : String) (hs : isVertex g s = true) (ht : isVertex g t = true)
    (hr : ∃ p, ValidWalk g s t p) :
    ∃ c, g.tollways s t 0 = some (some (c, 0)) ∧
      (∃ p, ValidWalk g s t p ∧ walkCost g p = some c) ∧
      (∀ p c2, ValidWalk g s t p → walkCost g p = some c2 → c ≤ c2) := by
  obtain ⟨r, hrr, hc1, hc2⟩ := tollways_correct g hwf hnn s t 0 hs ht
  obtain ⟨p0, hp0⟩ := hr
  obtain ⟨c0, hc0⟩ := Option.isSome_iff_exists.mp hp0.2.2
  have hreach : ∃ k c, TReach g 0 s t k c := ⟨0, c0, walk_to_treach g 0 s p0 t c0 hp0 hc0⟩
  obtain ⟨c, k, hrk⟩ := hc2 hreach
  obtain ⟨hach, hkb, hopt⟩ := hc1 c k hrk
  have hk0 : k = 0 := by omega
  subst hk0
  rw [hrk] at hrr
  refine ⟨c, hrr, treach_zero_to_walk g s t 0 c hach, ?_⟩
  intro p c2 hp hc2w
  exact hopt 0 c2 (walk_to_treach g 0 s p t c2 hp hc2w)

/-- Witness for C3 at the concrete graph A→B(10). -/
theorem claim_C3_witness :
    WellFormed exG3 ∧ NonnegWeights exG3 ∧ isVertex exG3 "A" = true ∧
    isVertex exG3 "B" = true ∧ (∃ p, ValidWalk exG3 "A" "B" p) ∧
    (∃ c, exG3.tollways "A" "B" 0 = some (some (c, 0)) ∧
      (∃ p, ValidWalk exG3 "A" "B" p ∧ walkCost exG3 p = some c) ∧
      (∀ p c2, ValidWalk exG3 "A" "B" p → walkCost exG3 p = some c2 → c ≤ c2)) :=
  ⟨by unfold WellFormed; with_unfolding_all decide,
   by unfold NonnegWeights; with_unfolding_all decide,
   by with_unfolding_all decide, by with_unfolding_all decide,
   ⟨["A", "B"], rfl, rfl, by with_unfolding_all decide⟩,
   claim_C3 exG3 (by unfold WellFormed; with_unfolding_all decide)
     (by unfold NonnegWeights; with_unfolding_all decide) "A" "B"
     (by with_unfolding_all decide) (by with_unfolding_all decide)
     ⟨["A", "B"], rfl, rfl, by with_unfolding_all decide⟩⟩

/-- C4: for a fixed reachable pair, the cost returned by the toll search is
monotonically non-increasing in the coupon budget. -/
theorem claim_C4 (g : Graph) (hwf : WellFormed g) (hnn : NonnegWeights g)
    (s t : String) (b1 b2 : ℕ) (hb : b1 ≤ b2)
    (hs : isVertex g s = true) (ht : isVertex g t = true)
    (hr : ∃ p, ValidWalk g s t p) :
    ∃ c1 k1 c2 k2, g.tollways s t b1 = some (some (c1, k1)) ∧
      g.tollways s t b2 = some (some (c2, k2)) ∧ c2 ≤ c1 := by
  obtain ⟨p0, hp0⟩ := hr
  obtain ⟨c0, hc0⟩ := Option.isSome_iff_exists.mp hp0.2.2
  obtain ⟨r1, hr1, hc11, hc12⟩ := tollways_correct g hwf hnn s t b1 hs ht
  obtain ⟨r2, hr2, hc21, hc22⟩ := tollways_correct g hwf hnn s t b2 hs ht
  obtain ⟨c1, k1, hrk1⟩ := hc12 ⟨0, c0, walk_to_treach g b1 s p0 t c0 hp0 hc0⟩
  obtain ⟨c2, k2, hrk2⟩ := hc22 ⟨0, c0, walk_to_treach g b2 s p0 t c0 hp0 hc0⟩
  obtain ⟨hach1, _, _⟩ := hc11 c1 k1 hrk1
  obtain ⟨_, _, hopt2⟩ := hc21 c2 k2 hrk2
  rw [hrk1] at hr1
  rw [hrk2] at hr2
  exact ⟨c1, k1, c2, k2, hr1, hr2, hopt2 k1 c1 (treach_budget_mono hb hach1)⟩

/-- Witness for C4 on A→B(10) with budgets 0 ≤ 1. -/
theorem claim_C4_witness :
    WellFormed exG3 ∧ NonnegWeights exG3 ∧ (0 : ℕ) ≤ 1 ∧
    isVertex exG3 "A" = true ∧ isVertex exG3 "B" = true ∧
    (∃ p, ValidWalk exG3 "A" "B" p) ∧
    (∃ c1 k1 c2 k2, exG3.tollways "A" "B" 0 = some (some (c1, k1)) ∧
      exG3.tollways "A" "B" 1 = some (some (c2, k2)) ∧ c2 ≤ c1) :=
  ⟨by unfold WellFormed; with_unfolding_all decide,
   by unfold NonnegWeights; with_unfolding_all decide, by omega,
   by with_unfolding_all decide, by with_unfolding_all decide,
   ⟨["A", "B"], rfl, rfl, by with_unfolding_all decide⟩,
   claim_C4 exG3 (by unfold WellFormed; with_unfolding_all decide)
     (by unfold NonnegWeights; with_unfolding_all decide) "A" "B" 0 1 (by omega)
     (by with_unfolding_all decide) (by with_unfolding_all decide)
     ⟨["A", "B"], rfl, rfl, by with_unfolding_all decide⟩⟩

/-- C10: on every well-formed graph with non-negative weights
`tollways_algorithm` terminates normally and returns a tuple — every
`KeyError` raised by `TollWayPriorityQueue.pop` is caught by the loop — and
a `KeyError` pop can only happen for a superseded record: its key already
carries a recorded cost no worse than the record's priority. -/
theorem claim_C10 (g : Graph) (hwf : WellFormed g) (hnn : NonnegWeights g)
    (s t : String) (b : ℕ) :
    (∃ r, g.tollways s t b = some r) ∧
    (∀ st, TInv g b s st →
      ∀ m vid, listMinBy tentLe st.pq.data = some m → m.pay = some vid →
        st.pq.locator (vid, m.cu) = none →
        ∃ cK, st.costs (vid, m.cu) = some cK ∧ cK ≤ m.pri) := by
  constructor
  · by_cases hs : isVertex g s = true
    · by_cases ht : isVertex g t = true
      · obtain ⟨r, hr, _, _⟩ := tollways_correct g hwf hnn s t b hs ht
        exact ⟨r, hr⟩
      · refine ⟨none, ?_⟩
        unfold Graph.tollways
        have htn : (dlookup g.vertices t).isNone = true := by
          unfold isVertex at ht
          cases hdl : dlookup g.vertices t with
          | none => rfl
          | some v => rw [hdl] at ht; simp at ht
        rw [htn]
        simp
    · refine ⟨none, ?_⟩
      unfold Graph.tollways
      have hsn : (dlookup g.vertices s).isNone = true := by
        unfold isVertex at hs
        cases hdl : dlookup g.vertices s with
        | none => rfl
        | some v => rw [hdl] at hs; simp at hs
      rw [hsn]
      simp
  · intro st hinv m vid hmin hpay hloc
    obtain ⟨vid2, hpay2, _, _, cK, hcK, hle, _⟩ :=
      hinv.2.2.1 m (listMinBy_mem tentLe st.pq.data m hmin)
    have hv : vid2 = vid := by
      rw [hpay2] at hpay
      injection hpay
    subst hv
    exact ⟨cK, hcK, hle⟩

/-- Witness for C10 on the concrete graph A→B(10). -/
theorem claim_C10_witness :
    WellFormed exG3 ∧ NonnegWeights exG3 ∧
    (∃ r, exG3.tollways "A" "B" 1 = some r) :=
  ⟨by unfold WellFormed; with_unfolding_all decide,
   by unfold NonnegWeights; with_unfolding_all decide,
   (claim_C10 exG3 (by unfold WellFormed; with_unfolding_all decide)
     (by unfold NonnegWeights; with_unfolding_all decide) "A" "B" 1).1⟩

/-! ## A* correctness (claim C1) -/

/-- Ancestry in the predecessor map `old_vertices` of `a_star`. -/
inductive OReach (old : String → Option String) : String → String → Prop where
  | refl : ∀ a, OReach old a a
  | step : ∀ a b c, old a = some b → OReach old b c → OReach old a c

/-- Paths in the map updated at `nid` either avoid `nid` or reach it. -/
theorem oreach_split (old : String → Option String) (nid cur : String) :
    ∀ a b, OReach (fun x => if x = nid then some cur else old x) a b →
      OReach old a b ∨ (OReach old a nid ∧
        OReach (fun x => if x = nid then some cur else old x) cur b) := by
  intro a b hr
  induction hr with
  | refl a => exact Or.inl (OReach.refl a)
  | step a b2 c hab hbc ih =>
    by_cases ha : a = nid
    · subst ha
      rw [if_pos rfl] at hab
      injection hab with hab
      subst hab
      exact Or.inr ⟨OReach.refl a, hbc⟩
    · rw [if_neg ha] at hab
      rcases ih with hb | ⟨hb1, hb2⟩
      · exact Or.inl (OReach.step a b2 c hab hb)
      · exact Or.inr ⟨OReach.step a b2 nid hab hb1, hb2⟩

theorem oreach_trans {old : String → Option String} {a b c : String}
    (h1 : OReach old a b) (h2 : OReach old b c) : OReach old a c := by
  induction h1 with
  | refl a => exact h2
  | step a b2 c2 hab hbc ih => exact OReach.step a b2 c hab (ih h2)

/-- Telescoping the `old`-map invariant of `a_star`: recorded distances never
increase towards the root of the predecessor forest. -/
theorem oreach_shortest_le {g : Graph} (hnn : NonnegWeights g)
    {old : String → Option String} {shortest : String → Option ℚ}
    (hOLD : ∀ v u, old v = some u → ∃ w cu cv, edgeWeight g u v = some w ∧
      shortest u = some cu ∧ shortest v = some cv ∧ cu + w ≤ cv) :
    ∀ a b, OReach old a b → ∀ ca, shortest a = some ca →
      ∃ cb, shortest b = some cb ∧ cb ≤ ca := by
  intro a b hr
  induction hr with
  | refl a => exact fun ca hca => ⟨ca, hca, le_refl _⟩
  | step a b2 c hab hbc ih =>
    intro ca hca
    obtain ⟨w, cu, cv, hew, hcu, hcv, hle⟩ := hOLD a b2 hab
    rw [hca] at hcv
    injection hcv with hcv
    obtain ⟨cb, hcb, hcble⟩ := ih cu hcu
    have hw : 0 ≤ w := edgeWeight_nonneg hnn hew
    exact ⟨cb, hcb, by linarith [hcv ▸ hle]⟩

/-- Iterating the predecessor map. -/
def orbitN (old : String → Option String) : ℕ → String → Option String
  | 0, v => some v
  | k+1, v =>
    match old v with
    | none => none
    | some u => orbitN old k u

theorem orbitN_oreach (old : String → Option String) :
    ∀ (k : ℕ) (v a : String), orbitN old k v = some a → OReach old v a := by
  intro k
  induction k with
  | zero =>
    intro v a hv
    simp only [orbitN, Option.some.injEq] at hv
    exact hv ▸ OReach.refl v
  | succ k ih =>
    intro v a hv
    simp only [orbitN] at hv
    cases ho : old v with
    | none => rw [ho] at hv; exact absurd hv (by simp)
    | some u =>
      rw [ho] at hv
      exact OReach.step v u a ho (ih u a hv)

theorem orbitN_add (old : String → Option String) :
    ∀ (i k : ℕ) (v a : String), orbitN old i v = some a →
      orbitN old (i + k) v = orbitN old k a := by
  intro i
  induction i with
  | zero =>
    intro k v a hv
    simp only [orbitN, Option.some.injEq] at hv
    rw [hv]
    simp
  | succ i ih =>
    intro k v a hv
    simp only [orbitN] at hv
    cases ho : old v with
    | none => rw [ho] at hv; exact absurd hv (by simp)
    | some u =>
      rw [ho] at hv
      have : i + 1 + k = (i + k) + 1 := by omega
      rw [this]
      simp only [orbitN, ho]
      exact ih k u a hv

/-- In an acyclic predecessor forest the orbit never repeats a vertex. -/
theorem orbitN_inj {old : String → Option String}
    (hacyc : ∀ v u, old v = some u → ¬ OReach old u v) :
    ∀ (v : String) (i j : ℕ) (a : String), i < j →
      orbitN old i v = some a → orbitN old j v = some a → False := by
  intro v i j a hij hi hj
  have hj2 : orbitN old (i + (j - i)) v = orbitN old (j - i) a := orbitN_add old i _ v a hi
  have hij2 : i + (j - i) = j := by omega
  rw [hij2, hj] at hj2
  obtain ⟨d, hd⟩ : ∃ d, j - i = d + 1 := ⟨j - i - 1, by omega⟩
  rw [hd] at hj2
  have hj3 : orbitN old (d + 1) a = some a := hj2.symm
  simp only [orbitN] at hj3
  cases ho : old a with
  | none => rw [ho] at hj3; exact absurd hj3 (by simp)
  | some u =>
    rw [ho] at hj3
    exact hacyc a u ho (orbitN_oreach old d u a hj3)

theorem foldl_dvd {α : Type} (op : ℕ → α → ℕ) (hstep : ∀ a x, a ∣ op a x) :
    ∀ (l : List α) (a : ℕ), a ∣ l.foldl op a := by
  intro l
  induction l with
  | nil => intro a; simp
  | cons x xs ih =>
    intro a
    exact dvd_trans (hstep a x) (ih (op a x))

theorem foldl_dvd_at {α : Type} (op : ℕ → α → ℕ) (hstep : ∀ a x, a ∣ op a x)
    (x0 : α) (d : ℕ) (hx0 : ∀ a, d ∣ op a x0) :
    ∀ (l : List α) (a : ℕ), x0 ∈ l → d ∣ l.foldl op a := by
  intro l
  induction l with
  | nil => intro a hx; simp at hx
  | cons y ys ih =>
    intro a hx
    rcases List.mem_cons.mp hx with hx | hx
    · subst hx
      exact dvd_trans (hx0 a) (foldl_dvd op hstep ys (op a x0))
    · exact ih (op a y) hx

theorem foldl_le {α : Type} (op : ℚ → α → ℚ) (hstep : ∀ a x, a ≤ op a x) :
    ∀ (l : List α) (a : ℚ), a ≤ l.foldl op a := by
  intro l
  induction l with
  | nil => intro a; simp
  | cons x xs ih =>
    intro a
    exact le_trans (hstep a x) (ih (op a x))

theorem foldl_le_at {α : Type} (op : ℚ → α → ℚ) (hstep : ∀ a x, a ≤ op a x)
    (x0 : α) (d : ℚ) (hx0 : ∀ a, d ≤ op a x0) :
    ∀ (l : List α) (a : ℚ), x0 ∈ l → d ≤ l.foldl op a := by
  intro l
  induction l with
  | nil => intro a hx; simp at hx
  | cons y ys ih =>
    intro a hx
    rcases List.mem_cons.mp hx with hx | hx
    · subst hx
      exact le_trans (hx0 a) (foldl_le op hstep ys (op a x0))
    · exact ih (op a y) hx

theorem wDen_pos (g : Graph) : wDen g ≠ 0 := by
  unfold wDen
  have key : ∀ (l : List (String × Vertex)) (a : ℕ), a ≠ 0 →
      l.foldl (fun acc kv => kv.2.adj.foldl (fun a2 p => Nat.lcm a2 p.2.den) acc) a ≠ 0 := by
    intro l
    induction l with
    | nil => intro a ha; simpa
    | cons kv kvs ih =>
      intro a ha
      refine ih _ ?_
      have inner : ∀ (l2 : List (String × ℚ)) (a2 : ℕ), a2 ≠ 0 →
          l2.foldl (fun a3 p => Nat.lcm a3 p.2.den) a2 ≠ 0 := by
        intro l2
        induction l2 with
        | nil => intro a2 h2; simpa
        | cons p ps ih2 =>
          intro a2 h2
          refine ih2 _ ?_
          have hpd : p.2.den ≠ 0 := p.2.den_nz
          exact Nat.lcm_ne_zero h2 hpd
      exact inner kv.2.adj a ha
  exact key g.vertices 1 (by omega)

theorem wDen_dvd {g : Graph} {kv : String × Vertex} (hkv : kv ∈ g.vertices)
    {p : String × ℚ} (hp : p ∈ kv.2.adj) : p.2.den ∣ wDen g := by
  unfold wDen
  refine foldl_dvd_at _ ?_ kv p.2.den ?_ g.vertices 1 hkv
  · intro a x
    exact foldl_dvd _ (fun a2 p2 => Nat.dvd_lcm_left _ _) x.2.adj a
  · intro a
    refine foldl_dvd_at _ (fun a2 p2 => Nat.dvd_lcm_left _ _) p p.2.den ?_ kv.2.adj a hp
    intro a2
    exact Nat.dvd_lcm_right _ _

theorem wMax_nonneg (g : Graph) : 0 ≤ wMax g := by
  unfold wMax
  refine foldl_le _ ?_ g.vertices 0
  intro a x
  exact foldl_le _ (fun a2 p2 => le_max_left _ _) x.2.adj a

theorem wMax_le {g : Graph} {kv : String × Vertex} (hkv : kv ∈ g.vertices)
    {p : String × ℚ} (hp : p ∈ kv.2.adj) : p.2 ≤ wMax g := by
  unfold wMax
  refine foldl_le_at _ ?_ kv p.2 ?_ g.vertices 0 hkv
  · intro a x
    exact foldl_le _ (fun a2 p2 => le_max_left _ _) x.2.adj a
  · intro a
    refine foldl_le_at _ (fun a2 p2 => le_max_left _ _) p p.2 ?_ kv.2.adj a hp
    intro a2
    exact le_max_right _ _

theorem edgeWeight_le_wMax {g : Graph} {u v : String} {w : ℚ}
    (h : edgeWeight g u v = some w) : w ≤ wMax g := by
  obtain ⟨vu, hlu, hw, hla⟩ := edgeWeight_some.mp h
  exact wMax_le (dlookup_eq_some_mem hlu) (dlookup_eq_some_mem hla)

theorem edgeWeight_den_dvd {g : Graph} {u v : String} {w : ℚ}
    (h : edgeWeight g u v = some w) : w.den ∣ wDen g := by
  obtain ⟨vu, hlu, hw, hla⟩ := edgeWeight_some.mp h
  exact wDen_dvd (dlookup_eq_some_mem hlu) (dlookup_eq_some_mem hla)

/-- A rational whose denominator divides `n` becomes an integer when scaled
by `n`. -/
theorem rat_mul_den_int {q : ℚ} {n : ℕ} (hd : q.den ∣ n) :
    ∃ z : ℤ, q * (n : ℚ) = (z : ℚ) := by
  obtain ⟨k, hk⟩ := hd
  refine ⟨q.num * k, ?_⟩
  have hden : (q.den : ℚ) ≠ 0 := by
    have h0 := q.den_nz
    exact_mod_cast h0
  have h1 : q * (q.den : ℚ) = (q.num : ℚ) :=
    ((div_eq_iff hden).mp (Rat.num_div_den q)).symm
  rw [hk]
  push_cast
  rw [← mul_assoc, h1]

/-- A derivation with budget `0` from an arbitrary base cost is a plain walk
whose cost is the derived cost minus the base cost. -/
theorem treacha_zero_to_walk (g : Graph) (u0 : String) (c0 : ℚ) :
    ∀ (v : String) (k : ℕ) (c : ℚ), TReachA g 0 u0 0 c0 v k c →
      ∃ p, ValidWalk g u0 v p ∧ walkCost g p = some (c - c0) := by
  intro v k c h
  induction h with
  | base =>
    refine ⟨[u0], ⟨rfl, rfl, by simp [walkCost]⟩, by simp [walkCost]⟩
  | full u k2 c2 v2 w hd he ih =>
    obtain ⟨p, hp, hc⟩ := ih
    refine ⟨p ++ [v2], (validWalk_snoc g u0 u v2 p w hp he).1, ?_⟩
    rw [walkCost_snoc hp.2.1 hc he]
    congr 1
    ring
  | disc u k2 c2 v2 w hd hk he ih => omega

theorem adjOf_edgeWeight {g : Graph} (hwf : WellFormed g) {u : String}
    (hu : isVertex g u = true) {y : String} {w : ℚ} (hmem : (y, w) ∈ adjOf g u) :
    edgeWeight g u y = some w := by
  unfold isVertex at hu
  cases hlu : dlookup g.vertices u with
  | none => rw [hlu] at hu; simp at hu
  | some vu =>
    apply edgeWeight_of_adj hwf hlu
    unfold adjOf at hmem
    rw [hlu] at hmem
    exact hmem

theorem oLtP_none_left (o : Option ℚ) : oLtP none o = false := rfl

theorem oLtP_true_left {pp o : Option ℚ} (h : oLtP pp o = true) : ∃ a, pp = some a := by
  cases pp with
  | none => rw [oLtP_none_left] at h; exact absurd h (by simp)
  | some a => exact ⟨a, rfl⟩

theorem oLtP_some_some {a b : ℚ} : oLtP (some a) (some b) = true ↔ a < b := by
  simp [oLtP]

theorem oLtP_false_some {a : ℚ} {o : Option ℚ} (h : oLtP (some a) o = false) :
    ∃ b, o = some b ∧ b ≤ a := by
  cases o with
  | none => simp [oLtP] at h
  | some b =>
    refine ⟨b, rfl, ?_⟩
    simp only [oLtP, decide_eq_false_iff_not] at h
    linarith [not_lt.mp h]

theorem oAddW_some (a w : ℚ) : oAddW (some a) w = some (a + w) := rfl

/-- Comparison of two heap records with `some` priorities bounds the
priorities. -/
theorem aentLe_le {e1 e2 : AEnt} {a b : ℚ} (h : aentLe e1 e2 = true)
    (h1 : e1.pri = some a) (h2 : e2.pri = some b) : a ≤ b := by
  unfold aentLe at h
  rw [h1, h2] at h
  simp only [Bool.or_eq_true, Bool.and_eq_true, decide_eq_true_eq] at h
  rcases h with h | ⟨h, _⟩
  · exact le_of_lt (oLtP_some_some.mp h)
  · injection h with h
    exact le_of_eq h

/-- Number of vertex keys whose `shortest` entry is finite. -/
def assignedCountA (g : Graph) (sh : String → Option ℚ) : ℕ :=
  (gkeys g).countP (fun v => (sh v).isSome)

/-- Termination potential of one `shortest` entry. -/
def potA (g : Graph) : Option ℚ → ℕ
  | none => capA g
  | some c => (⌊c * (wDen g : ℚ)⌋).toNat + 1

/-- Total termination potential of the `shortest` dict. -/
def PhiA (g : Graph) (sh : String → Option ℚ) : ℕ :=
  ((gkeys g).map (fun v => potA g (sh v))).sum

/-- Termination measure of the `a_star` main loop. -/
def aMeasure (g : Graph) (st : AState) : ℕ :=
  st.pq.data.length + 2 * PhiA g st.shortest

theorem wDen_cast_pos (g : Graph) : 0 < ((wDen g : ℕ) : ℚ) := by
  have h := wDen_pos g
  have h2 : 0 < wDen g := Nat.pos_of_ne_zero h
  exact_mod_cast h2

theorem potA_some_le {g : Graph} {c : ℚ} (h0 : 0 ≤ c)
    (hb : c ≤ (g.vertices.length : ℚ) * wMax g) :
    potA g (some c) + 1 ≤ capA g := by
  show ((⌊c * ((wDen g : ℕ) : ℚ)⌋).toNat + 1) + 1 ≤
    (⌊(g.vertices.length : ℚ) * wMax g * ((wDen g : ℕ) : ℚ)⌋).toNat + 2
  have hd : (0 : ℚ) ≤ (wDen g : ℚ) := le_of_lt (wDen_cast_pos g)
  have h1 : c * (wDen g : ℚ) ≤ (g.vertices.length : ℚ) * wMax g * (wDen g : ℚ) :=
    mul_le_mul_of_nonneg_right hb hd
  have h2 : ⌊c * (wDen g : ℚ)⌋ ≤ ⌊(g.vertices.length : ℚ) * wMax g * (wDen g : ℚ)⌋ :=
    Int.floor_le_floor h1
  have h3 : (⌊c * (wDen g : ℚ)⌋).toNat ≤
      (⌊(g.vertices.length : ℚ) * wMax g * (wDen g : ℚ)⌋).toNat :=
    Int.toNat_le_toNat h2
  omega

theorem potA_decrease {g : Graph} {cnew cold : ℚ} (h0 : 0 ≤ cnew) (hlt : cnew < cold)
    (hznew : ∃ z : ℤ, cnew * (wDen g : ℚ) = (z : ℚ))
    (hzold : ∃ z : ℤ, cold * (wDen g : ℚ) = (z : ℚ)) :
    potA g (some cnew) + 1 ≤ potA g (some cold) := by
  obtain ⟨zn, hzn⟩ := hznew
  obtain ⟨zo, hzo⟩ := hzold
  show ((⌊cnew * ((wDen g : ℕ) : ℚ)⌋).toNat + 1) + 1 ≤
    (⌊cold * ((wDen g : ℕ) : ℚ)⌋).toNat + 1
  have hdpos : (0 : ℚ) < (wDen g : ℚ) := wDen_cast_pos g
  have hqlt : cnew * (wDen g : ℚ) < cold * (wDen g : ℚ) :=
    mul_lt_mul_of_pos_right hlt hdpos
  rw [hzn, hzo] at hqlt
  have hzlt : zn < zo := by exact_mod_cast hqlt
  have hn0 : (0 : ℚ) ≤ (zn : ℚ) := by
    rw [← hzn]
    exact mul_nonneg h0 (le_of_lt hdpos)
  have hzn0 : 0 ≤ zn := by exact_mod_cast hn0
  have hfn : ⌊cnew * (wDen g : ℚ)⌋ = zn := by rw [hzn]; exact Int.floor_intCast zn
  have hfo : ⌊cold * (wDen g : ℚ)⌋ = zo := by rw [hzo]; exact Int.floor_intCast zo
  rw [hfn, hfo]
  omega

theorem sum_map_update {α : Type} (f f2 : α → ℕ) :
    ∀ (L : List α), L.Nodup → ∀ K0 ∈ L, f2 K0 + 1 ≤ f K0 →
      (∀ K ∈ L, K ≠ K0 → f2 K = f K) →
      (L.map f2).sum + 1 ≤ (L.map f).sum := by
  intro L
  induction L with
  | nil => intro _ K0 h; simp at h
  | cons x xs ih =>
    intro hnd K0 hK0 hf hagree
    simp only [List.nodup_cons] at hnd
    rcases List.mem_cons.mp hK0 with hx | hx
    · subst hx
      have hxs : (xs.map f2).sum = (xs.map f).sum := by
        congr 1
        apply List.map_congr_left
        intro K hK
        exact hagree K (List.mem_cons_of_mem _ hK) (fun hcon => hnd.1 (hcon ▸ hK))
      simp only [List.map_cons, List.sum_cons, hxs]
      omega
    · have hxK0 : x ≠ K0 := fun hcon => hnd.1 (hcon ▸ hx)
      have hrec := ih hnd.2 K0 hx hf
        (fun K hK hne => hagree K (List.mem_cons_of_mem _ hK) hne)
      simp only [List.map_cons, List.sum_cons]
      rw [hagree x (List.mem_cons_self _ _) hxK0]
      omega

theorem sum_map_le {α : Type} (f : α → ℕ) (B : ℕ) :
    ∀ (L : List α), (∀ x ∈ L, f x ≤ B) → (L.map f).sum ≤ L.length * B := by
  intro L
  induction L with
  | nil => intro _; simp
  | cons x xs ih =>
    intro hb
    simp only [List.map_cons, List.sum_cons, List.length_cons]
    have h1 := hb x (List.mem_cons_self _ _)
    have h2 := ih (fun y hy => hb y (List.mem_cons_of_mem _ hy))
    have : (xs.length + 1) * B = xs.length * B + B := by ring
    omega

theorem countP_flip_up {α : Type} (P P2 : α → Bool) :
    ∀ (L : List α), L.Nodup → ∀ K0 ∈ L, P K0 = false → P2 K0 = true →
      (∀ K ∈ L, K ≠ K0 → P2 K = P K) →
      L.countP P2 = L.countP P + 1 := by
  intro L
  induction L with
  | nil => intro _ K0 h; simp at h
  | cons x xs ih =>
    intro hnd K0 hK0 hP hP2 hagree
    simp only [List.nodup_cons] at hnd
    rcases List.mem_cons.mp hK0 with hx | hx
    · subst hx
      have hxs : xs.countP P2 = xs.countP P := by
        apply List.countP_congr
        intro K hK
        rw [hagree K (List.mem_cons_of_mem _ hK) (fun hcon => hnd.1 (hcon ▸ hK))]
      rw [List.countP_cons, List.countP_cons, hxs]
      simp [hP, hP2]
    · have hxK0 : x ≠ K0 := fun hcon => hnd.1 (hcon ▸ hx)
      have hrec := ih hnd.2 K0 hx hP hP2
        (fun K hK hne => hagree K (List.mem_cons_of_mem _ hK) hne)
      rw [List.countP_cons, List.countP_cons, hrec,
        hagree x (List.mem_cons_self _ _) hxK0]
      omega

/-- The loop invariant of `a_star`: the queue is well-formed; the start keeps
distance `0` and no predecessor; every locator entry points at a live record
whose priority is the recorded distance plus the heuristic (the initial start
record carries priority `0` instead); recorded distances are at vertices,
non-negative, integral multiples of `1 / wDen` and bounded; the predecessor
map records relaxed edges, is acyclic and roots only at the start; a finite
target distance keeps the target in the queue; popped (settled) vertices are
fully relaxed; and every walk-derivation is beaten by a recorded distance or
passes through a queued vertex at its recorded distance. -/
def AInv (g : Graph) (beginId endId : String) (metric : String → String → ℚ)
    (st : AState) : Prop :=
  PQInv st.pq ∧
  (st.shortest beginId = some 0 ∧ st.old beginId = none) ∧
  (∀ v cnt, st.pq.locator v = some cnt →
    ∃ e ∈ st.pq.data, e.cnt = cnt ∧ e.pay = some v ∧
      ∃ cv, st.shortest v = some cv ∧
        (e.pri = some (cv + metric v endId) ∨ (v = beginId ∧ e.pri = some 0))) ∧
  (∀ v c, st.shortest v = some c → isVertex g v = true ∧ 0 ≤ c ∧
    (∃ z : ℤ, c * (wDen g : ℚ) = (z : ℚ)) ∧
    c ≤ (assignedCountA g st.shortest : ℚ) * wMax g) ∧
  (∀ v u, st.old v = some u → ∃ w cu cv, edgeWeight g u v = some w ∧
    st.shortest u = some cu ∧ st.shortest v = some cv ∧ cu + w ≤ cv) ∧
  (∀ v u, st.old v = some u → ¬ OReach st.old u v) ∧
  (∀ v, st.old v = none → st.shortest v ≠ none → v = beginId) ∧
  (st.shortest endId ≠ none → st.pq.locator endId ≠ none) ∧
  (∀ v0 c0, st.pq.locator v0 = none → st.shortest v0 = some c0 →
    ∀ v w, edgeWeight g v0 v = some w →
      ∃ c2, st.shortest v = some c2 ∧ c2 ≤ c0 + w) ∧
  (∀ v c, TReach g 0 beginId v 0 c →
    (∃ c2, st.shortest v = some c2 ∧ c2 ≤ c) ∨
    (∃ v2 c2 cq, st.pq.locator v2 ≠ none ∧ st.shortest v2 = some cq ∧ cq ≤ c2 ∧
      TReachA g 0 v2 0 c2 v 0 c))

/-- The invariant holding during one relaxation pass of `a_star`, after `cur`
was popped at recorded distance `c0`: the structural clauses of `AInv`, `cur`
settled at `c0`, and all other settled vertices fully relaxed. -/
def ARInv (g : Graph) (beginId endId : String) (metric : String → String → ℚ)
    (cur : String) (c0 : ℚ) (st : AState) : Prop :=
  PQInv st.pq ∧
  (st.shortest beginId = some 0 ∧ st.old beginId = none) ∧
  (∀ v cnt, st.pq.locator v = some cnt →
    ∃ e ∈ st.pq.data, e.cnt = cnt ∧ e.pay = some v ∧
      ∃ cv, st.shortest v = some cv ∧
        (e.pri = some (cv + metric v endId) ∨ (v = beginId ∧ e.pri = some 0))) ∧
  (∀ v c, st.shortest v = some c → isVertex g v = true ∧ 0 ≤ c ∧
    (∃ z : ℤ, c * (wDen g : ℚ) = (z : ℚ)) ∧
    c ≤ (assignedCountA g st.shortest : ℚ) * wMax g) ∧
  (∀ v u, st.old v = some u → ∃ w cu cv, edgeWeight g u v = some w ∧
    st.shortest u = some cu ∧ st.shortest v = some cv ∧ cu + w ≤ cv) ∧
  (∀ v u, st.old v = some u → ¬ OReach st.old u v) ∧
  (∀ v, st.old v = none → st.shortest v ≠ none → v = beginId) ∧
  (st.shortest endId ≠ none → st.pq.locator endId ≠ none) ∧
  (st.pq.locator cur = none ∧ st.shortest cur = some c0) ∧
  (∀ v1 c1, st.pq.locator v1 = none → st.shortest v1 = some c1 → v1 ≠ cur →
    ∀ v w, edgeWeight g v1 v = some w →
      ∃ c2, st.shortest v = some c2 ∧ c2 ≤ c1 + w)

/-- Extension relation between mid-relaxation states of `a_star`: recorded
distances only improve, queued vertices stay queued, and the termination
measure does not grow. -/
def AExt (g : Graph) (beginId endId : String) (metric : String → String → ℚ)
    (cur : String) (c0 : ℚ) (st st2 : AState) : Prop :=
  ARInv g beginId endId metric cur c0 st2 ∧
  (∀ v c, st.shortest v = some c → ∃ c2, st2.shortest v = some c2 ∧ c2 ≤ c) ∧
  (∀ v, st.pq.locator v ≠ none → st2.pq.locator v ≠ none) ∧
  st2.pq.data.length + 2 * PhiA g st2.shortest ≤
    st.pq.data.length + 2 * PhiA g st.shortest

theorem aext_refl (g : Graph) (beginId endId : String)
    (metric : String → String → ℚ) (cur : String) (c0 : ℚ) (st : AState)
    (hinv : ARInv g beginId endId metric cur c0 st) :
    AExt g beginId endId metric cur c0 st st :=
  ⟨hinv, fun v c hc => ⟨c, hc, le_refl _⟩, fun v h => h, le_refl _⟩

theorem aext_trans {g : Graph} {beginId endId : String}
    {metric : String → String → ℚ} {cur : String} {c0 : ℚ} {st st1 st2 : AState}
    (h1 : AExt g beginId endId metric cur c0 st st1)
    (h2 : AExt g beginId endId metric cur c0 st1 st2) :
    AExt g beginId endId metric cur c0 st st2 := by
  obtain ⟨i1, c1, l1, d1⟩ := h1
  obtain ⟨i2, c2, l2, d2⟩ := h2
  refine ⟨i2, ?_, ?_, by omega⟩
  · intro v c hc
    obtain ⟨cm, hcm, hle⟩ := c1 v c hc
    obtain ⟨cf, hcf, hle2⟩ := c2 v cm hcm
    exact ⟨cf, hcf, le_trans hle2 hle⟩
  · intro v h
    exact l2 v (l1 v h)

/-- The state written by one successful relaxation of the edge
`cur → nid` in `a_star` (line 417). -/
def aPush (endId : String) (metric : String → String → ℚ) (curId nid : String)
    (w : ℚ) (st : AState) : AState :=
  let pp := oAddW (st.shortest curId) w
  let cst := oAddW pp (metric nid endId)
  { pq :=
      if (st.pq.locator nid).isNone then st.pq.pushQ cst nid
      else st.pq.updateQ cst nid,
    old := fun x => if x = nid then some curId else st.old x,
    shortest := fun x => if x = nid then pp else st.shortest x,
    costs := fun x => if x = nid then cst else st.costs x }

theorem aStarRelax_cons (g : Graph) (endId : String)
    (metric : String → String → ℚ) (curId nid : String) (w : ℚ)
    (rest : List (String × ℚ)) (st : AState) :
    aStarRelax g endId metric curId ((nid, w) :: rest) st =
      if oLtP (oAddW (st.shortest curId) w) (st.shortest nid) then
        aStarRelax g endId metric curId rest (aPush endId metric curId nid w st)
      else aStarRelax g endId metric curId rest st := rfl

/-- One successful relaxation of the edge `cur → nid` preserves the pass
invariant, improves `nid`'s recorded distance to exactly `c0 + w`, and does
not grow the termination measure. -/
theorem aPush_ext (g : Graph) (hwf : WellFormed g) (hnn : NonnegWeights g)
    (beginId endId : String) (metric : String → String → ℚ) (cur : String)
    (c0 : ℚ) (nid : String) (w : ℚ) (he : edgeWeight g cur nid = some w)
    (st : AState) (hinv : ARInv g beginId endId metric cur c0 st)
    (hguard : oLtP (oAddW (st.shortest cur) w) (st.shortest nid) = true) :
    AExt g beginId endId metric cur c0 st (aPush endId metric cur nid w st) ∧
    (aPush endId metric cur nid w st).shortest nid = some (c0 + w) := by
  obtain ⟨hq, ⟨hs0, ho0⟩, hlocpri, hval, hOLD, hacyc, hroot, hendopen, ⟨hlc, hsc⟩,
    hrel⟩ := hinv
  have hguard2 : oLtP (some (c0 + w)) (st.shortest nid) = true := by
    rw [hsc] at hguard
    exact hguard
  have hw0 : 0 ≤ w := edgeWeight_nonneg hnn he
  obtain ⟨hcurvx, hc00, hcden, hcbnd⟩ := hval cur c0 hsc
  obtain ⟨vcur, hlvcur, hnidvx, hlanid⟩ := edgeWeight_some.mp he
  have hpp0 : 0 ≤ c0 + w := by linarith
  have hcurne : cur ≠ nid := by
    intro hcon
    rw [← hcon, hsc] at hguard2
    have := oLtP_some_some.mp hguard2
    linarith
  have hnidbe : nid ≠ beginId := by
    intro hcon
    rw [hcon, hs0] at hguard2
    have := oLtP_some_some.mp hguard2
    linarith
  have hsh : ∀ x, (aPush endId metric cur nid w st).shortest x =
      if x = nid then some (c0 + w) else st.shortest x := by
    intro x
    show (if x = nid then oAddW (st.shortest cur) w else st.shortest x) = _
    rw [hsc, oAddW_some]
  have hold2 : ∀ x, (aPush endId metric cur nid w st).old x =
      if x = nid then some cur else st.old x := fun _ => rfl
  have holdfun : (aPush endId metric cur nid w st).old =
      fun x => if x = nid then some cur else st.old x := rfl
  have hpq : (aPush endId metric cur nid w st).pq =
      (if (st.pq.locator nid).isNone
        then st.pq.pushQ (some (c0 + w + metric nid endId)) nid
        else st.pq.updateQ (some (c0 + w + metric nid endId)) nid) := by
    show (if (st.pq.locator nid).isNone
        then st.pq.pushQ (oAddW (oAddW (st.shortest cur) w) (metric nid endId)) nid
        else st.pq.updateQ (oAddW (oAddW (st.shortest cur) w) (metric nid endId)) nid)
      = _
    rw [hsc, oAddW_some, oAddW_some]
  have hqfacts : PQInv (aPush endId metric cur nid w st).pq ∧
      (∀ x, (aPush endId metric cur nid w st).pq.locator x =
        if x = nid then some st.pq.counter else st.pq.locator x) ∧
      (⟨some (c0 + w + metric nid endId), st.pq.counter, some nid⟩ : AEnt) ∈
        (aPush endId metric cur nid w st).pq.data ∧
      (∀ e ∈ st.pq.data, ∀ v, e.pay = some v → v ≠ nid →
        e ∈ (aPush endId metric cur nid w st).pq.data) ∧
      (aPush endId metric cur nid w st).pq.data.length = st.pq.data.length + 1 := by
    rw [hpq]
    cases hfree : st.pq.locator nid with
    | none =>
      simp only [Option.isNone_none, if_true]
      refine ⟨pushQ_inv hq _ nid hfree, ?_, ?_, ?_, ?_⟩
      · intro x
        rfl
      · rw [pushQ_mem]
        exact Or.inr rfl
      · intro e hee v hpay hvne
        rw [pushQ_mem]
        exact Or.inl hee
      · have hd : (st.pq.pushQ (some (c0 + w + metric nid endId)) nid).data =
            st.pq.data ++
              [⟨some (c0 + w + metric nid endId), st.pq.counter, some nid⟩] := rfl
        rw [hd]
        simp
    | some cup =>
      simp only [Option.isNone_some, Bool.false_eq_true, if_false]
      have hupd : st.pq.updateQ (some (c0 + w + metric nid endId)) nid =
          PQ.pushQ
            ⟨st.pq.data.map
              (fun e => if e.cnt = cup then { e with pay := none } else e),
             fun x => if x = nid then none else st.pq.locator x, st.pq.counter⟩
            (some (c0 + w + metric nid endId)) nid := by
        unfold PQ.updateQ
        rw [hfree]
      refine ⟨updateQ_inv hq _ nid, ?_, ?_, ?_, ?_⟩
      · intro x
        rw [hupd]
        show (if x = nid then some st.pq.counter
            else (if x = nid then none else st.pq.locator x)) = _
        by_cases hx : x = nid
        · rw [if_pos hx, if_pos hx]
        · rw [if_neg hx, if_neg hx, if_neg hx]
      · rw [updateQ_mem hq _ nid hfree
          ⟨some (c0 + w + metric nid endId), st.pq.counter, some nid⟩ (by simp)]
        exact Or.inr rfl
      · intro e hee v hpay hvne
        rw [updateQ_mem hq _ nid hfree e (by rw [hpay]; simp)]
        refine Or.inl ⟨hee, ?_⟩
        intro hcon
        obtain ⟨e2, he2, he2c, he2p⟩ := hq.loc1 nid cup hfree
        have hee2 : e = e2 :=
          map_nodup_inj hq.cntNodup e hee e2 he2 (by rw [hcon, he2c])
        rw [hee2, he2p] at hpay
        injection hpay with hpay
        exact hvne hpay.symm
      · rw [hupd]
        have hd : (PQ.pushQ
            ⟨st.pq.data.map
              (fun e => if e.cnt = cup then { e with pay := none } else e),
             fun x => if x = nid then none else st.pq.locator x, st.pq.counter⟩
            (some (c0 + w + metric nid endId)) nid).data =
            (st.pq.data.map
              (fun e => if e.cnt = cup then { e with pay := none } else e)) ++
              [⟨some (c0 + w + metric nid endId), st.pq.counter, some nid⟩] := rfl
        rw [hd]
        simp
  obtain ⟨hq2, hloc2, hmem2, hmemold, hlen2⟩ := hqfacts
  have hno_cur_nid : ¬ OReach st.old cur nid := by
    intro hr
    obtain ⟨cb, hcb, hcble⟩ := oreach_shortest_le hnn hOLD cur nid hr c0 hsc
    rw [hcb] at hguard2
    have := oLtP_some_some.mp hguard2
    linarith
  have hcount_mono : assignedCountA g st.shortest ≤
      assignedCountA g (aPush endId metric cur nid w st).shortest := by
    apply List.countP_mono_left
    intro v hv hsome
    rw [hsh v]
    by_cases hvn : v = nid
    · rw [if_pos hvn]
      rfl
    · rw [if_neg hvn]
      exact hsome
  have hwMax0 : 0 ≤ wMax g := wMax_nonneg g
  have hbnd_mono : ∀ (c : ℚ), c ≤ (assignedCountA g st.shortest : ℚ) * wMax g →
      c ≤ (assignedCountA g (aPush endId metric cur nid w st).shortest : ℚ) *
        wMax g := by
    intro c hc
    refine le_trans hc (mul_le_mul_of_nonneg_right ?_ hwMax0)
    exact_mod_cast hcount_mono
  have hnid_gkeys : nid ∈ gkeys g := by
    unfold gkeys
    rw [← dlookup_isSome_iff]
    exact hnidvx
  have hwle : w ≤ wMax g := edgeWeight_le_wMax he
  obtain ⟨zc, hzc⟩ := hcden
  obtain ⟨zw, hzw⟩ := rat_mul_den_int (edgeWeight_den_dvd he)
  have hppden : ∃ z : ℤ, (c0 + w) * (wDen g : ℚ) = (z : ℚ) :=
    ⟨zc + zw, by rw [add_mul, hzc, hzw]; push_cast; ring⟩
  have hnewbnd : (c0 + w) ≤
      (assignedCountA g (aPush endId metric cur nid w st).shortest : ℚ) * wMax g := by
    cases holdv : st.shortest nid with
    | some cold =>
      have hlt : c0 + w < cold := by
        rw [holdv] at hguard2
        exact oLtP_some_some.mp hguard2
      have := (hval nid cold holdv).2.2.2
      exact hbnd_mono _ (by linarith)
    | none =>
      have hflip : assignedCountA g (aPush endId metric cur nid w st).shortest =
          assignedCountA g st.shortest + 1 := by
        refine countP_flip_up _ _ (gkeys g) hwf.1 nid hnid_gkeys ?_ ?_ ?_
        · rw [holdv]
          rfl
        · rw [hsh nid, if_pos rfl]
          rfl
        · intro v hv hvne
          rw [hsh v, if_neg hvne]
      rw [hflip]
      push_cast
      have : ((assignedCountA g st.shortest : ℚ) + 1) * wMax g =
          (assignedCountA g st.shortest : ℚ) * wMax g + wMax g := by ring
      rw [this]
      exact add_le_add hcbnd hwle
  constructor
  · refine ⟨⟨hq2, ⟨?_, ?_⟩, ?_, ?_, ?_, ?_, ?_, ?_, ⟨?_, ?_⟩, ?_⟩, ?_, ?_, ?_⟩
    · rw [hsh beginId, if_neg (fun hcon => hnidbe hcon.symm)]
      exact hs0
    · rw [hold2 beginId, if_neg (fun hcon => hnidbe hcon.symm)]
      exact ho0
    · intro v cnt hlocv
      rw [hloc2 v] at hlocv
      by_cases hv : v = nid
      · rw [if_pos hv] at hlocv
        injection hlocv with hlocv
        refine ⟨⟨some (c0 + w + metric nid endId), st.pq.counter, some nid⟩, hmem2,
          hlocv, by rw [hv], c0 + w, ?_, ?_⟩
        · rw [hsh v, if_pos hv]
        · exact Or.inl (by rw [hv])
      · rw [if_neg hv] at hlocv
        obtain ⟨e, hee, hec, hep, cv, hcv, hpri⟩ := hlocpri v cnt hlocv
        exact ⟨e, hmemold e hee v hep hv, hec, hep, cv,
          by rw [hsh v, if_neg hv]; exact hcv, hpri⟩
    · intro v c hc
      rw [hsh v] at hc
      by_cases hv : v = nid
      · rw [if_pos hv] at hc
        injection hc with hc
        subst hv
        rw [← hc]
        exact ⟨hnidvx, hpp0, hppden, hnewbnd⟩
      · rw [if_neg hv] at hc
        obtain ⟨h1, h2, h3, h4⟩ := hval v c hc
        exact ⟨h1, h2, h3, hbnd_mono c h4⟩
    · intro v u hvu
      rw [hold2 v] at hvu
      by_cases hv : v = nid
      · rw [if_pos hv] at hvu
        injection hvu with hvu
        refine ⟨w, c0, c0 + w, by rw [← hvu, hv]; exact he, ?_, ?_, le_refl _⟩
        · rw [hsh u, ← hvu, if_neg hcurne]
          exact hsc
        · rw [hsh v, if_pos hv]
      · rw [if_neg hv] at hvu
        obtain ⟨w1, cu, cv, he1, hcu, hcv, hle⟩ := hOLD v u hvu
        by_cases hu : u = nid
        · have hcoldeq : st.shortest nid = some cu := by rw [← hu]; exact hcu
          have hlt : c0 + w < cu := by
            rw [hcoldeq] at hguard2
            exact oLtP_some_some.mp hguard2
          refine ⟨w1, c0 + w, cv, he1, ?_, ?_, by linarith⟩
          · rw [hsh u, if_pos hu]
          · rw [hsh v, if_neg hv]
            exact hcv
        · refine ⟨w1, cu, cv, he1, ?_, ?_, hle⟩
          · rw [hsh u, if_neg hu]
            exact hcu
          · rw [hsh v, if_neg hv]
            exact hcv
    · intro v u hvu hreach
      rw [holdfun] at hreach
      rw [hold2 v] at hvu
      by_cases hv : v = nid
      · rw [if_pos hv] at hvu
        injection hvu with hvu
        rw [← hvu, hv] at hreach
        rcases oreach_split st.old nid cur cur nid hreach with h1 | ⟨h1, _⟩
        · exact hno_cur_nid h1
        · exact hno_cur_nid h1
      · rw [if_neg hv] at hvu
        rcases oreach_split st.old nid cur u v hreach with h1 | ⟨h1, h2⟩
        · exact hacyc v u hvu h1
        · rcases oreach_split st.old nid cur cur v h2 with h3 | ⟨h3, _⟩
          · exact hno_cur_nid
              (oreach_trans h3 (OReach.step v u nid hvu h1))
          · exact hno_cur_nid h3
    · intro v hvnone hvsome
      rw [hold2 v] at hvnone
      by_cases hv : v = nid
      · rw [if_pos hv] at hvnone
        exact absurd hvnone (by simp)
      · rw [if_neg hv] at hvnone
        rw [hsh v, if_neg hv] at hvsome
        exact hroot v hvnone hvsome
    · intro hend
      rw [hloc2 endId]
      by_cases hv : endId = nid
      · rw [if_pos hv]
        simp
      · rw [if_neg hv]
        rw [hsh endId, if_neg hv] at hend
        exact hendopen hend
    · rw [hloc2 cur, if_neg hcurne]
      exact hlc
    · rw [hsh cur, if_neg hcurne]
      exact hsc
    · intro v1 c1 hl1 hsh1 hne1 v w1 he1
      rw [hloc2 v1] at hl1
      by_cases hv1 : v1 = nid
      · rw [if_pos hv1] at hl1
        exact absurd hl1 (by simp)
      · rw [if_neg hv1] at hl1
        rw [hsh v1, if_neg hv1] at hsh1
        obtain ⟨c2, hc2, hc2le⟩ := hrel v1 c1 hl1 hsh1 hne1 v w1 he1
        by_cases hv : v = nid
        · have hcoldeq : st.shortest nid = some c2 := by rw [← hv]; exact hc2
          have hlt : c0 + w < c2 := by
            rw [hcoldeq] at hguard2
            exact oLtP_some_some.mp hguard2
          refine ⟨c0 + w, ?_, by linarith⟩
          rw [hsh v, if_pos hv]
        · refine ⟨c2, ?_, hc2le⟩
          rw [hsh v, if_neg hv]
          exact hc2
    · intro v c hc
      by_cases hv : v = nid
      · have hcoldeq : st.shortest nid = some c := by rw [← hv]; exact hc
        have hlt : c0 + w < c := by
          rw [hcoldeq] at hguard2
          exact oLtP_some_some.mp hguard2
        refine ⟨c0 + w, ?_, le_of_lt hlt⟩
        rw [hsh v, if_pos hv]
      · refine ⟨c, ?_, le_refl _⟩
        rw [hsh v, if_neg hv]
        exact hc
    · intro v hv
      rw [hloc2 v]
      by_cases hvn : v = nid
      · rw [if_pos hvn]
        simp
      · rw [if_neg hvn]
        exact hv
    · have hPhi : PhiA g (aPush endId metric cur nid w st).shortest + 1 ≤
          PhiA g st.shortest := by
        show ((gkeys g).map
            (fun v => potA g ((aPush endId metric cur nid w st).shortest v))).sum + 1 ≤
          ((gkeys g).map (fun v => potA g (st.shortest v))).sum
        refine sum_map_update _ _ (gkeys g) hwf.1 nid hnid_gkeys ?_ ?_
        · rw [hsh nid, if_pos rfl]
          cases holdv : st.shortest nid with
          | some cold =>
            have hlt : c0 + w < cold := by
              rw [holdv] at hguard2
              exact oLtP_some_some.mp hguard2
            exact potA_decrease hpp0 hlt hppden ((hval nid cold holdv).2.2.1)
          | none =>
            show potA g (some (c0 + w)) + 1 ≤ capA g
            refine potA_some_le hpp0 ?_
            have hflip : assignedCountA g (aPush endId metric cur nid w st).shortest =
                assignedCountA g st.shortest + 1 := by
              refine countP_flip_up _ _ (gkeys g) hwf.1 nid hnid_gkeys ?_ ?_ ?_
              · rw [holdv]
                rfl
              · rw [hsh nid, if_pos rfl]
                rfl
              · intro v hv hvne
                rw [hsh v, if_neg hvne]
            have hcle : assignedCountA g (aPush endId metric cur nid w st).shortest ≤
                (gkeys g).length := List.countP_le_length _
            have hglen : (gkeys g).length = g.vertices.length := by
              unfold gkeys
              rw [List.length_map]
            rw [hflip, hglen] at hcle
            have hcleq : ((assignedCountA g st.shortest : ℚ) + 1) ≤
                (g.vertices.length : ℚ) := by exact_mod_cast hcle
            have hstep : c0 + w ≤ ((assignedCountA g st.shortest : ℚ) + 1) * wMax g := by
              have : ((assignedCountA g st.shortest : ℚ) + 1) * wMax g =
                  (assignedCountA g st.shortest : ℚ) * wMax g + wMax g := by ring
              rw [this]
              exact add_le_add hcbnd hwle
            exact le_trans hstep (mul_le_mul_of_nonneg_right hcleq hwMax0)
        · intro v hv hvne
          rw [hsh v, if_neg hvne]
      rw [hlen2]
      omega
  · rw [hsh nid, if_pos rfl]

theorem treacha_zero_k {g : Graph} {u0 : String} {c0 : ℚ} {v : String} {k : ℕ}
    {c : ℚ} (h : TReachA g 0 u0 0 c0 v k c) : k = 0 := by
  induction h with
  | base => rfl
  | full u k2 c2 v2 w hd he ih => exact ih
  | disc u k2 c2 v2 w hd hk he ih => omega

/-- Relaxing a list of edges of the settled vertex preserves the pass
invariant and leaves each relaxed neighbour's distance at most the settled
distance plus the edge weight. -/
theorem aStarRelax_pres (g : Graph) (hwf : WellFormed g) (hnn : NonnegWeights g)
    (beginId endId : String) (metric : String → String → ℚ) (cur : String)
    (c0 : ℚ) :
    ∀ (A : List (String × ℚ)) (st : AState),
      ARInv g beginId endId metric cur c0 st →
      (∀ yw ∈ A, edgeWeight g cur yw.1 = some yw.2) →
      AExt g beginId endId metric cur c0 st (aStarRelax g endId metric cur A st) ∧
      (∀ yw ∈ A, ∃ c2,
        (aStarRelax g endId metric cur A st).shortest yw.1 = some c2 ∧
          c2 ≤ c0 + yw.2) := by
  intro A
  induction A with
  | nil =>
    intro st hinv _
    exact ⟨aext_refl g beginId endId metric cur c0 st hinv, by simp⟩
  | cons yw A ih =>
    intro st hinv hedges
    obtain ⟨nid, w⟩ := yw
    have he : edgeWeight g cur nid = some w := hedges (nid, w) (List.mem_cons_self _ _)
    rw [aStarRelax_cons]
    by_cases hguard : oLtP (oAddW (st.shortest cur) w) (st.shortest nid) = true
    · rw [if_pos hguard]
      obtain ⟨e1, hni⟩ :=
        aPush_ext g hwf hnn beginId endId metric cur c0 nid w he st hinv hguard
      obtain ⟨e2, hb2⟩ := ih (aPush endId metric cur nid w st) e1.1
        (fun yw2 h2 => hedges yw2 (List.mem_cons_of_mem _ h2))
      refine ⟨aext_trans e1 e2, ?_⟩
      intro yw2 h2
      rcases List.mem_cons.mp h2 with h2 | h2
      · subst h2
        obtain ⟨c3, hc3, hle3⟩ := e2.2.1 nid (c0 + w) hni
        exact ⟨c3, hc3, hle3⟩
      · exact hb2 yw2 h2
    · rw [if_neg hguard]
      have hsc : st.shortest cur = some c0 := hinv.2.2.2.2.2.2.2.2.1.2
      have hgf : oLtP (oAddW (st.shortest cur) w) (st.shortest nid) = false := by
        cases hb : oLtP (oAddW (st.shortest cur) w) (st.shortest nid) with
        | false => rfl
        | true => exact absurd hb hguard
      have hgf2 : oLtP (some (c0 + w)) (st.shortest nid) = false := by
        rw [hsc] at hgf
        exact hgf
      obtain ⟨cold, holdv, hcle⟩ := oLtP_false_some hgf2
      obtain ⟨e2, hb2⟩ := ih st hinv
        (fun yw2 h2 => hedges yw2 (List.mem_cons_of_mem _ h2))
      refine ⟨e2, ?_⟩
      intro yw2 h2
      rcases List.mem_cons.mp h2 with h2 | h2
      · subst h2
        obtain ⟨c3, hc3, hle3⟩ := e2.2.1 nid cold holdv
        exact ⟨c3, hc3, by linarith⟩
      · exact hb2 yw2 h2

/-- After settling `cur` at distance `c0` and fully relaxing its edges, the
frontier clause of the `a_star` invariant is restored. -/
theorem a7_restore (g : Graph) (beginId : String) (old2 new2 : AState)
    (cur : String) (c0 : ℚ)
    (hold7 : ∀ v c, TReach g 0 beginId v 0 c →
      (∃ c2, old2.shortest v = some c2 ∧ c2 ≤ c) ∨
      (∃ v2 c2 cq, old2.pq.locator v2 ≠ none ∧ old2.shortest v2 = some cq ∧
        cq ≤ c2 ∧ TReachA g 0 v2 0 c2 v 0 c))
    (hmono : ∀ v c, old2.shortest v = some c →
      ∃ c2, new2.shortest v = some c2 ∧ c2 ≤ c)
    (hopen : ∀ v, v ≠ cur → old2.pq.locator v ≠ none → new2.pq.locator v ≠ none)
    (hc00 : old2.shortest cur = some c0)
    (hnew0 : new2.shortest cur = some c0)
    (hrel : ∀ v1 c1, new2.pq.locator v1 = none → new2.shortest v1 = some c1 →
      ∀ v w, edgeWeight g v1 v = some w →
        ∃ c2, new2.shortest v = some c2 ∧ c2 ≤ c1 + w) :
    ∀ v c, TReach g 0 beginId v 0 c →
      (∃ c2, new2.shortest v = some c2 ∧ c2 ≤ c) ∨
      (∃ v2 c2 cq, new2.pq.locator v2 ≠ none ∧ new2.shortest v2 = some cq ∧
        cq ≤ c2 ∧ TReachA g 0 v2 0 c2 v 0 c) := by
  have key : ∀ (c2 : ℚ), c0 ≤ c2 → ∀ (v : String) (k : ℕ) (c : ℚ),
      TReachA g 0 cur 0 c2 v k c →
      (∃ c3, new2.shortest v = some c3 ∧ c3 ≤ c) ∨
      (∃ v3 c3 cq3, new2.pq.locator v3 ≠ none ∧ new2.shortest v3 = some cq3 ∧
        cq3 ≤ c3 ∧ TReachA g 0 v3 0 c3 v k c) := by
    intro c2 hc02 v k c hder
    induction hder with
    | base => exact Or.inl ⟨c0, hnew0, hc02⟩
    | full u j cu v w hd he ih =>
      have hj : j = 0 := treacha_zero_k hd
      subst hj
      rcases ih with ⟨cu2, hcu2, hcu2le⟩ | ⟨v3, c3, cq3, hl, hc, hle, hder2⟩
      · by_cases hloc : new2.pq.locator u = none
        · obtain ⟨c3, hc3, hc3le⟩ := hrel u cu2 hloc hcu2 v w he
          exact Or.inl ⟨c3, hc3, by linarith⟩
        · exact Or.inr ⟨u, cu, cu2, hloc, hcu2, hcu2le,
            TReachA.full u 0 cu v w TReachA.base he⟩
      · exact Or.inr ⟨v3, c3, cq3, hl, hc, hle, TReachA.full u 0 cu v w hder2 he⟩
    | disc u j cu v w hd hjb he ih => omega
  intro v c hd
  rcases hold7 v c hd with ⟨c2, hc2, hc2le⟩ | ⟨v2, c2, cq, hl, hc, hle, hder⟩
  · obtain ⟨c3, hc3, hc3le⟩ := hmono v c2 hc2
    exact Or.inl ⟨c3, hc3, by linarith⟩
  · by_cases hK : v2 = cur
    · rw [hK] at hc hder
      rw [hc00] at hc
      injection hc with hc
      exact key c2 (by rw [hc]; exact hle) v 0 c hder
    · obtain ⟨cq2, hcq2, hcq2le⟩ := hmono v2 cq hc
      exact Or.inr ⟨v2, c2, cq2, hopen v2 hK hl, hcq2, by linarith, hder⟩

/-- Popping a non-target vertex and relaxing all its edges preserves the full
loop invariant and strictly decreases the termination measure. -/
theorem aStar_settle (g : Graph) (hwf : WellFormed g) (hnn : NonnegWeights g)
    (beginId endId : String) (metric : String → String → ℚ) (st : AState)
    (hinv : AInv g beginId endId metric st)
    (p : Option ℚ) (c : ℕ) (cur : String) (q2 : PQ)
    (hmem : (⟨p, c, some cur⟩ : AEnt) ∈ st.pq.data)
    (hloc2eq : q2.locator = fun x => if x = cur then none else st.pq.locator x)
    (hmemiff : ∀ e : AEnt, e.pay ≠ none →
      (e ∈ q2.data ↔ e ∈ st.pq.data ∧ e ≠ ⟨p, c, some cur⟩))
    (hq2inv : PQInv q2)
    (hlen : q2.data.length < st.pq.data.length)
    (hcur_ne_end : cur ≠ endId) :
    AInv g beginId endId metric
      (aStarRelax g endId metric cur (adjOf g cur) { st with pq := q2 }) ∧
    aMeasure g (aStarRelax g endId metric cur (adjOf g cur) { st with pq := q2 })
      < aMeasure g st := by
  obtain ⟨hq, ⟨hs0, ho0⟩, hlocpri, hval, hOLD, hacyc, hroot, hendopen, hrel,
    hH⟩ := hinv
  have hloccur : st.pq.locator cur = some c := hq.loc2 _ hmem cur rfl
  obtain ⟨e0, he0, he0c, he0p, c0, hscur, hpri0⟩ := hlocpri cur c hloccur
  have hcurvx : isVertex g cur = true := (hval cur c0 hscur).1
  have hedges : ∀ yw ∈ adjOf g cur, edgeWeight g cur yw.1 = some yw.2 := by
    intro yw hy
    obtain ⟨a, b⟩ := yw
    exact adjOf_edgeWeight hwf hcurvx hy
  have hloc2p : ∀ x, q2.locator x = if x = cur then none else st.pq.locator x := by
    intro x
    rw [hloc2eq]
  have hmidinv : ARInv g beginId endId metric cur c0 { st with pq := q2 } := by
    refine ⟨hq2inv, ⟨hs0, ho0⟩, ?_, hval, hOLD, hacyc, hroot, ?_, ⟨?_, hscur⟩, ?_⟩
    · intro v cnt hlocv
      have hlocv2 : q2.locator v = some cnt := hlocv
      rw [hloc2p v] at hlocv2
      by_cases hv : v = cur
      · rw [if_pos hv] at hlocv2
        exact absurd hlocv2 (by simp)
      · rw [if_neg hv] at hlocv2
        obtain ⟨e, hee, hec, hep, cv, hcv, hpri⟩ := hlocpri v cnt hlocv2
        refine ⟨e, ?_, hec, hep, cv, hcv, hpri⟩
        show e ∈ q2.data
        rw [hmemiff e (by rw [hep]; simp)]
        refine ⟨hee, ?_⟩
        intro hcon
        rw [hcon] at hep
        injection hep with hep
        exact hv hep.symm
    · intro hend
      have h1 := hendopen hend
      show q2.locator endId ≠ none
      rw [hloc2p endId, if_neg (fun hcon => hcur_ne_end hcon.symm)]
      exact h1
    · show q2.locator cur = none
      rw [hloc2p cur, if_pos rfl]
    · intro v1 c1 hl1 hsh1 hne1 v w he1
      have hl12 : q2.locator v1 = none := hl1
      rw [hloc2p v1, if_neg hne1] at hl12
      exact hrel v1 c1 hl12 hsh1 v w he1
  obtain ⟨hext, hprod⟩ := aStarRelax_pres g hwf hnn beginId endId metric cur c0
    (adjOf g cur) { st with pq := q2 } hmidinv hedges
  obtain ⟨hinv2, hmono2, hlocpres2, hmeas2⟩ := hext
  obtain ⟨hq2b, hs0b, hlpb, hvalb, hOLDb, hacycb, hrootb, hendb, ⟨hlcb, hscb⟩,
    hrelob⟩ := hinv2
  have hrelfull : ∀ v0 c1,
      (aStarRelax g endId metric cur (adjOf g cur)
        { st with pq := q2 }).pq.locator v0 = none →
      (aStarRelax g endId metric cur (adjOf g cur)
        { st with pq := q2 }).shortest v0 = some c1 →
      ∀ v w, edgeWeight g v0 v = some w →
        ∃ c2, (aStarRelax g endId metric cur (adjOf g cur)
          { st with pq := q2 }).shortest v = some c2 ∧ c2 ≤ c1 + w := by
    intro v0 c1 hl0 hsh0 v w he1
    by_cases hv0 : v0 = cur
    · rw [hv0] at hsh0
      rw [hscb] at hsh0
      injection hsh0 with hsh0
      obtain ⟨c2, hc2, hc2le⟩ := hprod (v, w) (by
        rw [hv0] at he1
        exact edgeWeight_mem_adjOf he1)
      exact ⟨c2, hc2, by rw [← hsh0]; exact hc2le⟩
    · exact hrelob v0 c1 hl0 hsh0 hv0 v w he1
  refine ⟨⟨hq2b, hs0b, hlpb, hvalb, hOLDb, hacycb, hrootb, hendb, hrelfull, ?_⟩, ?_⟩
  · refine a7_restore g beginId st _ cur c0 hH ?_ ?_ hscur hscb hrelfull
    · intro v c1 hc1
      exact hmono2 v c1 hc1
    · intro v hv hvne
      refine hlocpres2 v ?_
      show q2.locator v ≠ none
      rw [hloc2p v, if_neg hv]
      exact hvne
  · unfold aMeasure
    have hshq2 : ({ st with pq := q2 } : AState).shortest = st.shortest := rfl
    rw [hshq2] at hmeas2
    have hq2len : ({ st with pq := q2 } : AState).pq.data.length =
        q2.data.length := rfl
    rw [hq2len] at hmeas2
    omega

theorem orbit_assigned (old : String → Option String) (sh : String → Option ℚ)
    (hOLDsh : ∀ x u, old x = some u → ∃ cu, sh u = some cu) :
    ∀ (i : ℕ) (v : String), (∃ cv, sh v = some cv) →
      ∀ x, orbitN old i v = some x → ∃ cx, sh x = some cx := by
  intro i
  induction i with
  | zero =>
    intro v hv x hx
    simp only [orbitN, Option.some.injEq] at hx
    rw [← hx]
    exact hv
  | succ i ih =>
    intro v hv x hx
    simp only [orbitN] at hx
    cases hov : old v with
    | none => rw [hov] at hx; exact absurd hx (by simp)
    | some u =>
      rw [hov] at hx
      exact ih u (hOLDsh v u hov) x hx

/-- The predecessor orbit of an assigned vertex reaches a root in at most
`|V|` steps (otherwise `|V| + 1` distinct vertices would appear). -/
theorem orbit_hits_root (g : Graph) (hnd : (gkeys g).Nodup)
    (old : String → Option String) (sh : String → Option ℚ)
    (hacyc : ∀ v u, old v = some u → ¬ OReach old u v)
    (hOLDsh : ∀ x u, old x = some u → ∃ cu, sh u = some cu)
    (hvx : ∀ v c, sh v = some c → v ∈ gkeys g)
    (v : String) (cv : ℚ) (hv : sh v = some cv) :
    ∃ i x, i ≤ g.vertices.length ∧ orbitN old i v = some x ∧ old x = none := by
  by_contra hno
  have hno2 : ∀ i, i ≤ g.vertices.length → ∀ x, orbitN old i v = some x →
      old x ≠ none := by
    intro i hi x hx hold
    exact hno ⟨i, x, hi, hx, hold⟩
  have hdef : ∀ i, i ≤ g.vertices.length + 1 → ∃ x, orbitN old i v = some x := by
    intro i
    induction i with
    | zero => intro _; exact ⟨v, rfl⟩
    | succ i ih =>
      intro hi
      obtain ⟨x, hx⟩ := ih (by omega)
      cases hox : old x with
      | none => exact absurd hox (hno2 i (by omega) x hx)
      | some u =>
        refine ⟨u, ?_⟩
        have h1 : orbitN old (i + 1) v = orbitN old 1 x := orbitN_add old i 1 v x hx
        rw [h1]
        simp only [orbitN, hox]
  have hassg := orbit_assigned old sh hOLDsh
  have hnodup : (((List.range (g.vertices.length + 1)).map
      (fun i => (orbitN old i v).getD ""))).Nodup := by
    refine List.Nodup.map_on ?_ (List.nodup_range _)
    intro i hi j hj hf
    rw [List.mem_range] at hi hj
    obtain ⟨xi, hxi⟩ := hdef i (by omega)
    obtain ⟨xj, hxj⟩ := hdef j (by omega)
    rw [hxi, hxj] at hf
    simp only [Option.getD_some] at hf
    rcases Nat.lt_trichotomy i j with h | h | h
    · rw [← hf] at hxj
      exact absurd (orbitN_inj hacyc v i j xi h hxi hxj) (fun h2 => h2)
    · exact h
    · rw [hf] at hxi
      exact absurd (orbitN_inj hacyc v j i xj h hxj hxi) (fun h2 => h2)
  have hsub : ∀ y ∈ ((List.range (g.vertices.length + 1)).map
      (fun i => (orbitN old i v).getD "")), y ∈ gkeys g := by
    intro y hy
    obtain ⟨i, hi, hfy⟩ := List.mem_map.mp hy
    rw [List.mem_range] at hi
    obtain ⟨xi, hxi⟩ := hdef i (by omega)
    obtain ⟨cx, hcx⟩ := hassg i v ⟨cv, hv⟩ xi hxi
    have hyx : y = xi := by
      rw [← hfy, hxi]
      simp
    rw [hyx]
    exact hvx xi cx hcx
  have hlen := (List.subperm_of_subset hnodup hsub).length_le
  rw [List.length_map, List.length_range] at hlen
  have hgl : (gkeys g).length = g.vertices.length := by
    unfold gkeys
    rw [List.length_map]
  omega

/-- Reconstructing a back chain from an orbit that hits the start vertex:
the chain cost telescopes below the recorded distance. -/
theorem chain_of_orbit (g : Graph) (beginId : String)
    (old : String → Option String) (sh : String → Option ℚ)
    (hOLD : ∀ v u, old v = some u → ∃ w cu cv, edgeWeight g u v = some w ∧
      sh u = some cu ∧ sh v = some cv ∧ cu + w ≤ cv)
    (hs0 : sh beginId = some 0) (ho0 : old beginId = none) :
    ∀ (i : ℕ) (v : String) (cv : ℚ), orbitN old i v = some beginId →
      sh v = some cv →
      ∃ l c, BackChainL g old beginId v l c ∧ c ≤ cv ∧ l.length ≤ i + 1 := by
  intro i
  induction i with
  | zero =>
    intro v cv ho hv
    simp only [orbitN, Option.some.injEq] at ho
    subst ho
    rw [hs0] at hv
    injection hv with hv
    exact ⟨[v], 0, BackChainL.base, le_of_eq hv, by simp⟩
  | succ i ih =>
    intro v cv ho hv
    simp only [orbitN] at ho
    cases hov : old v with
    | none => rw [hov] at ho; exact absurd ho (by simp)
    | some u =>
      rw [hov] at ho
      obtain ⟨w, cu, cv2, he, hcu, hcv2, hle⟩ := hOLD v u hov
      rw [hv] at hcv2
      injection hcv2 with hcv2
      obtain ⟨l, c, hch, hcle, hlen⟩ := ih u cu ho hcu
      have hvne : v ≠ beginId := by
        intro hcon
        rw [hcon, ho0] at hov
        exact absurd hov (by simp)
      refine ⟨l ++ [v], c + w, BackChainL.step v u l c w hvne hov he hch,
        by linarith, ?_⟩
      rw [List.length_append, List.length_singleton]
      omega

/-- Every vertex with a finite recorded distance has a back chain to the
start of at most `|V|` edges whose cost is at most the recorded distance. -/
theorem chain_exists (g : Graph) (hwf : WellFormed g) (beginId : String)
    (old : String → Option String) (sh : String → Option ℚ)
    (hOLD : ∀ v u, old v = some u → ∃ w cu cv, edgeWeight g u v = some w ∧
      sh u = some cu ∧ sh v = some cv ∧ cu + w ≤ cv)
    (hacyc : ∀ v u, old v = some u → ¬ OReach old u v)
    (hroot : ∀ v, old v = none → sh v ≠ none → v = beginId)
    (hs0 : sh beginId = some 0) (ho0 : old beginId = none)
    (hvx : ∀ v c, sh v = some c → isVertex g v = true)
    (v : String) (cv : ℚ) (hv : sh v = some cv) :
    ∃ l c, BackChainL g old beginId v l c ∧ c ≤ cv ∧
      l.length ≤ g.vertices.length + 1 := by
  have hOLDsh : ∀ x u, old x = some u → ∃ cu, sh u = some cu := by
    intro x u hx
    obtain ⟨w, cu, cv2, _, hcu, _, _⟩ := hOLD x u hx
    exact ⟨cu, hcu⟩
  have hvx2 : ∀ v2 c2, sh v2 = some c2 → v2 ∈ gkeys g := by
    intro v2 c2 hc2
    have := hvx v2 c2 hc2
    unfold gkeys
    rw [← dlookup_isSome_iff]
    exact this
  obtain ⟨i, x, hi, horb, hox⟩ :=
    orbit_hits_root g hwf.1 old sh hacyc hOLDsh hvx2 v cv hv
  obtain ⟨cx, hcx⟩ := orbit_assigned old sh hOLDsh i v ⟨cv, hv⟩ x horb
  have hxb : x = beginId := hroot x hox (by rw [hcx]; simp)
  rw [hxb] at horb
  obtain ⟨l, c, hch, hcle, hlen⟩ := chain_of_orbit g beginId old sh hOLD hs0 ho0
    i v cv horb hv
  exact ⟨l, c, hch, hcle, by omega⟩

/-- When the target is popped, the reconstructed path is a walk from start to
target whose cost is at most every derivable walk cost. -/
theorem aStar_endpop (g : Graph) (hwf : WellFormed g) (hnn : NonnegWeights g)
    (beginId endId : String) (metric : String → String → ℚ)
    (hadm : ∀ v p c, ValidWalk g v endId p → walkCost g p = some c →
      metric v endId ≤ c)
    (hpos : ∀ v, 0 ≤ metric v endId)
    (st : AState) (hinv : AInv g beginId endId metric st)
    (p : Option ℚ) (c : ℕ)
    (hmem : (⟨p, c, some endId⟩ : AEnt) ∈ st.pq.data)
    (hminle : ∀ e ∈ st.pq.data, e.pay ≠ none →
      aentLe ⟨p, c, some endId⟩ e = true) :
    ∃ l d, g.buildPath st.old beginId endId (g.vertices.length + 1) =
        some (BPOut.ok l d) ∧
      ValidWalk g beginId endId l ∧ walkCost g l = some d ∧
      ∀ c2, TReach g 0 beginId endId 0 c2 → d ≤ c2 := by
  obtain ⟨hq, ⟨hs0, ho0⟩, hlocpri, hval, hOLD, hacyc, hroot, hendopen, hrel,
    hH⟩ := hinv
  have hlocend : st.pq.locator endId = some c := hq.loc2 _ hmem endId rfl
  obtain ⟨e0, he0, he0c, he0p, cend, hsend, hpri0⟩ := hlocpri endId c hlocend
  have he0eq : e0 = ⟨p, c, some endId⟩ :=
    map_nodup_inj hq.cntNodup e0 he0 _ hmem (by rw [he0c])
  rw [he0eq] at hpri0
  have hmet0 : metric endId endId = 0 := by
    have h1 := hadm endId [endId] 0 ⟨rfl, rfl, by simp [walkCost]⟩
      (by simp [walkCost])
    have h2 := hpos endId
    linarith
  have hminall : ∀ c2, TReach g 0 beginId endId 0 c2 → cend ≤ c2 := by
    intro c2 hd
    have hc20 : 0 ≤ c2 := (treacha_mono hnn hd).1
    rcases hpri0 with hp | ⟨hbe, hp⟩
    · have hp2 : p = some cend := by
        rw [hmet0, add_zero] at hp
        exact hp
      rcases hH endId c2 hd with ⟨c3, hc3, hc3le⟩ | ⟨v2, c3, cq, hl2, hc2q, hleq, hder⟩
      · rw [hsend] at hc3
        injection hc3 with hc3
        rw [hc3]
        exact hc3le
      · cases hlv2 : st.pq.locator v2 with
        | none => exact absurd hlv2 hl2
        | some cnt2 =>
          obtain ⟨e2, he2, he2c, he2p, cv2, hcv2, hpri2⟩ := hlocpri v2 cnt2 hlv2
          rw [hc2q] at hcv2
          injection hcv2 with hcv2
          have hle2 := hminle e2 he2 (by rw [he2p]; simp)
          obtain ⟨pw, hpw, hpwc⟩ := treacha_zero_to_walk g v2 c3 endId 0 c2 hder
          have hmle : metric v2 endId ≤ c2 - c3 := hadm v2 pw (c2 - c3) hpw hpwc
          rcases hpri2 with hp3 | ⟨hb2, hp3⟩
          · have hcmp := aentLe_le hle2 hp2 hp3
            linarith
          · have hcmp := aentLe_le hle2 hp2 hp3
            linarith
    · rw [hbe] at hsend
      rw [hs0] at hsend
      injection hsend with hsend
      rw [← hsend]
      exact hc20
  obtain ⟨l, cl, hch, hclle, hlenle⟩ := chain_exists g hwf beginId st.old
    st.shortest hOLD hacyc hroot hs0 ho0 (fun v c2 hc2 => (hval v c2 hc2).1)
    endId cend hsend
  have hbp := buildPathLoop_ok_of_chain g st.old beginId endId l cl hch []
    0 (g.vertices.length + 1) (by omega)
  obtain ⟨hw, hwc⟩ := backChainL_walk g st.old beginId endId l cl hch
  refine ⟨l, cl, ?_, hw, hwc, fun c2 hd => le_trans hclle (hminall c2 hd)⟩
  show buildPathLoop g st.old beginId (g.vertices.length + 1) [endId] 0 =
    some (BPOut.ok l cl)
  rw [hbp]
  rw [List.append_nil, zero_add]

/-- The `while not open_vertices.empty()` loop of `a_star` returns an optimal
path once the invariant holds, the fuel dominates the measure, and the target
is derivable. -/
theorem aStarLoop_correct (g : Graph) (hwf : WellFormed g) (hnn : NonnegWeights g)
    (beginId endId : String) (metric : String → String → ℚ)
    (hadm : ∀ v p c, ValidWalk g v endId p → walkCost g p = some c →
      metric v endId ≤ c)
    (hpos : ∀ v, 0 ≤ metric v endId) :
    ∀ (fuel : ℕ) (st : AState), AInv g beginId endId metric st →
      aMeasure g st < fuel →
      (∃ cw, TReach g 0 beginId endId 0 cw) →
      ∃ l d, aStarLoop g beginId endId metric fuel st = some (l, d) ∧
        ValidWalk g beginId endId l ∧ walkCost g l = some d ∧
        ∀ c2, TReach g 0 beginId endId 0 c2 → d ≤ c2 := by
  intro fuel
  induction fuel with
  | zero =>
    intro st _ hm _
    omega
  | succ fuel ih =>
    intro st hinv hm hreach
    have hne : st.pq.data ≠ [] := by
      intro hemp
      have hlocnone : ∀ v, st.pq.locator v = none := by
        intro v
        cases hl : st.pq.locator v with
        | none => rfl
        | some cnt =>
          obtain ⟨e, he, _⟩ := hinv.1.loc1 v cnt hl
          rw [hemp] at he
          exact absurd he (by simp)
      obtain ⟨cw, hcw⟩ := hreach
      rcases hinv.2.2.2.2.2.2.2.2.2 endId cw hcw with ⟨c2, hc2, _⟩ |
        ⟨v2, c2, cq, hl2, _, _, _⟩
      · exact (hinv.2.2.2.2.2.2.2.1 (by rw [hc2]; simp)) (hlocnone endId)
      · exact hl2 (hlocnone v2)
    have hempf : ¬ st.pq.data.isEmpty := by
      intro hcon
      cases hd : st.pq.data with
      | nil => exact hne hd
      | cons e r =>
        rw [hd] at hcon
        simp [List.isEmpty] at hcon
    obtain ⟨p, c, cur, q2, hpop, hmem, hminle, hloc2eq, hcnt2, hsub, hmemiff,
      hq2inv⟩ := popQ_spec hinv.1 hne
    by_cases hcur : cur = endId
    · obtain ⟨l, d, hbp, hw, hwc, hmin⟩ := aStar_endpop g hwf hnn beginId endId
        metric hadm hpos st hinv p c (hcur ▸ hmem) (hcur ▸ hminle)
      have hstep : aStarStep g beginId endId metric st = some (Sum.inl (l, d)) := by
        unfold aStarStep
        rw [if_neg hempf, hpop]
        simp [hcur, hbp]
      refine ⟨l, d, ?_, hw, hwc, hmin⟩
      show (match aStarStep g beginId endId metric st with
        | none => none
        | some (Sum.inl r) => some r
        | some (Sum.inr st2) => aStarLoop g beginId endId metric fuel st2) =
          some (l, d)
      rw [hstep]
    · have hnotin : (⟨p, c, some cur⟩ : AEnt) ∉ q2.data := by
        intro hin
        exact ((hmemiff _ (by simp)).mp hin).2 rfl
      have hlenlt : q2.data.length < st.pq.data.length := by
        rcases Nat.lt_or_ge q2.data.length st.pq.data.length with h | h
        · exact h
        · have heq := hsub.eq_of_length (le_antisymm hsub.length_le h)
          rw [heq] at hnotin
          exact absurd hmem hnotin
      obtain ⟨hinv2, hm2⟩ := aStar_settle g hwf hnn beginId endId metric st hinv
        p c cur q2 hmem hloc2eq hmemiff hq2inv hlenlt hcur
      obtain ⟨l, d, hrec, hw, hwc, hmin⟩ := ih _ hinv2 (by omega) hreach
      have hstep : aStarStep g beginId endId metric st = some (Sum.inr
          (aStarRelax g endId metric cur (adjOf g cur) { st with pq := q2 })) := by
        unfold aStarStep
        rw [if_neg hempf, hpop]
        simp [hcur]
      refine ⟨l, d, ?_, hw, hwc, hmin⟩
      show (match aStarStep g beginId endId metric st with
        | none => none
        | some (Sum.inl r) => some r
        | some (Sum.inr st2) => aStarLoop g beginId endId metric fuel st2) =
          some (l, d)
      rw [hstep]
      exact hrec

/-- `a_star` on a well-formed graph with non-negative weights, a
non-negative admissible heuristic and a reachable target returns a walk from
start to target of minimal derivable cost. -/
theorem aStar_correct (g : Graph) (hwf : WellFormed g) (hnn : NonnegWeights g)
    (beginId endId : String) (metric : String → String → ℚ)
    (hadm : ∀ v p c, ValidWalk g v endId p → walkCost g p = some c →
      metric v endId ≤ c)
    (hpos : ∀ v, 0 ≤ metric v endId)
    (hb : isVertex g beginId = true) (hend : isVertex g endId = true)
    (hreach : ∃ cw, TReach g 0 beginId endId 0 cw) :
    ∃ l d, g.aStar beginId endId metric = some (l, d) ∧
      ValidWalk g beginId endId l ∧ walkCost g l = some d ∧
      ∀ c2, TReach g 0 beginId endId 0 c2 → d ≤ c2 := by
  have hb2 : (dlookup g.vertices beginId).isNone = false := by
    unfold isVertex at hb
    cases h : dlookup g.vertices beginId with
    | none => rw [h] at hb; exact absurd hb (by simp)
    | some v => rfl
  have hend2 : (dlookup g.vertices endId).isNone = false := by
    unfold isVertex at hend
    cases h : dlookup g.vertices endId with
    | none => rw [h] at hend; exact absurd hend (by simp)
    | some v => rfl
  have hinv0 : AInv g beginId endId metric
      ⟨PQ.emptyQ.pushQ (some 0) beginId,
       fun _ => none,
       fun x => if x = beginId then some 0 else none,
       fun x => if x = beginId then some (metric beginId endId) else none⟩ := by
    refine ⟨pushQ_inv PQInv_emptyQ (some 0) beginId rfl,
      ⟨by show (if beginId = beginId then some 0 else none : Option ℚ) = some 0
          rw [if_pos rfl], rfl⟩,
      ?_, ?_, ?_, ?_, ?_, ?_, ?_, ?_⟩
    · intro v cnt hlocv
      have hlocv2 : (if v = beginId then some 0 else none : Option ℕ) = some cnt :=
        hlocv
      by_cases hv : v = beginId
      · rw [if_pos hv] at hlocv2
        injection hlocv2 with hlocv2
        refine ⟨⟨some 0, 0, some beginId⟩, List.mem_singleton.mpr rfl, hlocv2,
          by rw [hv], 0, ?_, Or.inr ⟨hv, rfl⟩⟩
        show (if v = beginId then some 0 else none : Option ℚ) = some 0
        rw [if_pos hv]
      · rw [if_neg hv] at hlocv2
        exact absurd hlocv2 (by simp)
    · intro v cv hc
      have hc2 : (if v = beginId then some 0 else none : Option ℚ) = some cv := hc
      by_cases hv : v = beginId
      · rw [if_pos hv] at hc2
        injection hc2 with hc2
        rw [hv, ← hc2]
        refine ⟨hb, le_refl 0, ⟨0, by push_cast; ring⟩, ?_⟩
        exact mul_nonneg (Nat.cast_nonneg _) (wMax_nonneg g)
      · rw [if_neg hv] at hc2
        exact absurd hc2 (by simp)
    · intro v u hvu
      exact absurd hvu (by simp)
    · intro v u hvu
      exact absurd hvu (by simp)
    · intro v _ hvsome
      have hvs2 : (if v = beginId then some 0 else none : Option ℚ) ≠ none := hvsome
      by_cases hv : v = beginId
      · exact hv
      · rw [if_neg hv] at hvs2
        exact absurd rfl hvs2
    · intro hendv
      have he2 : (if endId = beginId then some 0 else none : Option ℚ) ≠ none :=
        hendv
      by_cases hv : endId = beginId
      · show (if endId = beginId then some 0 else none : Option ℕ) ≠ none
        rw [if_pos hv]
        simp
      · rw [if_neg hv] at he2
        exact absurd rfl he2
    · intro v0 c0 hl0 hs0v
      by_cases hv : v0 = beginId
      · have hl02 : (if v0 = beginId then some 0 else none : Option ℕ) = none := hl0
        rw [if_pos hv] at hl02
        exact absurd hl02 (by simp)
      · have hs0v2 : (if v0 = beginId then some 0 else none : Option ℚ) = some c0 :=
          hs0v
        rw [if_neg hv] at hs0v2
        exact absurd hs0v2 (by simp)
    · intro v cv hd
      refine Or.inr ⟨beginId, 0, 0, ?_, ?_, le_refl 0, hd⟩
      · show (if beginId = beginId then some 0 else none : Option ℕ) ≠ none
        rw [if_pos rfl]
        simp
      · show (if beginId = beginId then some 0 else none : Option ℚ) = some 0
        rw [if_pos rfl]
  have hmeas0 : aMeasure g
      ⟨PQ.emptyQ.pushQ (some 0) beginId,
       fun _ => none,
       fun x => if x = beginId then some 0 else none,
       fun x => if x = beginId then some (metric beginId endId) else none⟩ <
      aStarFuel g := by
    have hPhi : PhiA g (fun x => if x = beginId then some 0 else none) ≤
        (gkeys g).length * capA g := by
      refine sum_map_le _ _ (gkeys g) ?_
      intro v _
      show potA g (if v = beginId then some 0 else none) ≤ capA g
      by_cases hv : v = beginId
      · rw [if_pos hv]
        have h1 : potA g (some 0) + 1 ≤ capA g := by
          refine potA_some_le (le_refl 0) ?_
          exact mul_nonneg (Nat.cast_nonneg _) (wMax_nonneg g)
        omega
      · rw [if_neg hv]
        exact le_refl _
    have hglen : (gkeys g).length = g.vertices.length := by
      unfold gkeys
      rw [List.length_map]
    rw [hglen] at hPhi
    have h1 : aMeasure g
        ⟨PQ.emptyQ.pushQ (some 0) beginId,
         fun _ => none,
         fun x => if x = beginId then some 0 else none,
         fun x => if x = beginId then some (metric beginId endId) else none⟩ =
        1 + 2 * PhiA g (fun x => if x = beginId then some 0 else none) := rfl
    rw [h1]
    unfold aStarFuel
    omega
  obtain ⟨l, d, hloop, hw, hwc, hmin⟩ := aStarLoop_correct g hwf hnn beginId endId
    metric hadm hpos (aStarFuel g) _ hinv0 hmeas0 hreach
  refine ⟨l, d, ?_, hw, hwc, hmin⟩
  unfold Graph.aStar
  rw [hb2, hend2]
  simp only [Bool.or_self, Bool.false_eq_true, if_false]
  exact hloop

/-- C1 (corrected): for every well-formed graph with non-negative edge
weights, every heuristic that is admissible (never overestimating the cost
of any walk to the target) and also non-negative, and every pair of present
vertices with the target reachable from the start, `a_star` returns a walk
from start to target whose total weight is minimal among all such walks — in
particular, with the zero heuristic it returns exactly the Dijkstra
shortest-path cost.  The original claim assumes admissibility alone;
`claim_C1_counterexample` shows that an admissible heuristic taking a
negative value at the target makes `a_star` return a non-optimal path, so
the non-negativity hypothesis below is the correction. -/
theorem claim_C1 (g : Graph) (hwf : WellFormed g) (hnn : NonnegWeights g)
    (beginId endId : String) (metric : String → String → ℚ)
    (hadm : ∀ v p c, ValidWalk g v endId p → walkCost g p = some c →
      metric v endId ≤ c)
    (hpos : ∀ v, 0 ≤ metric v endId)
    (hb : isVertex g beginId = true) (hend : isVertex g endId = true)
    (p0 : List String) (hp0 : ValidWalk g beginId endId p0) :
    ∃ l d, g.aStar beginId endId metric = some (l, d) ∧
      ValidWalk g beginId endId l ∧ walkCost g l = some d ∧
      ∀ p2 c2, ValidWalk g beginId endId p2 → walkCost g p2 = some c2 →
        d ≤ c2 := by
  have hreach : ∃ cw, TReach g 0 beginId endId 0 cw := by
    obtain ⟨h1, h2, h3⟩ := hp0
    cases hc : walkCost g p0 with
    | none => rw [hc] at h3; exact absurd h3 (by simp)
    | some cw =>
      exact ⟨cw, walk_to_treach g 0 beginId p0 endId cw ⟨h1, h2, h3⟩ hc⟩
  obtain ⟨l, d, ha, hw, hwc, hmin⟩ := aStar_correct g hwf hnn beginId endId
    metric hadm hpos hb hend hreach
  exact ⟨l, d, ha, hw, hwc, fun p2 c2 hv2 hc2 =>
    hmin c2 (walk_to_treach g 0 beginId p2 endId c2 hv2 hc2)⟩

/-- C1 counterexample: on the graph S→T(10), S→A(1), A→T(1) with non-negative
weights, the heuristic that is `-9` at `T` and `0` elsewhere never
overestimates the cost of any walk to `T` (it is admissible), yet
`a_star(S, T)` returns the direct edge of weight `10` although the walk
S→A→T costs `2` — refuting the claim that admissibility alone guarantees an
optimal result. -/
theorem claim_C1_counterexample :
    NonnegWeights exG2 ∧
    (∀ v p c, ValidWalk exG2 v "T" p → walkCost exG2 p = some c →
      negMetric v "T" ≤ c) ∧
    exG2.aStar "S" "T" negMetric = some (["S", "T"], 10) ∧
    ValidWalk exG2 "S" "T" ["S", "A", "T"] ∧
    walkCost exG2 ["S", "A", "T"] = some 2 ∧ ¬ (10 : ℚ) ≤ 2 := by
  have hnn : NonnegWeights exG2 := by
    unfold NonnegWeights
    with_unfolding_all decide
  refine ⟨hnn, ?_, by with_unfolding_all decide, ?_, ?_, by norm_num⟩
  · intro v p c hv hc
    have h0 := walkCost_nonneg exG2 hnn p c hc
    unfold negMetric
    by_cases hvt : v = "T"
    · rw [if_pos hvt]
      linarith
    · rw [if_neg hvt]
      exact h0
  · unfold ValidWalk
    with_unfolding_all decide
  · with_unfolding_all decide

/-- Witness for C1: the corrected theorem applied to the graph A→B(1),
B→C(1), A→C(5) with the zero heuristic, alongside the evaluated call, which
returns the Dijkstra shortest path (["A","B","C"], 2). -/
theorem claim_C1_witness :
    (∃ l d, exG1.aStar "A" "C" (fun _ _ => 0) = some (l, d) ∧
      ValidWalk exG1 "A" "C" l ∧ walkCost exG1 l = some d ∧
      ∀ p2 c2, ValidWalk exG1 "A" "C" p2 → walkCost exG1 p2 = some c2 →
        d ≤ c2) ∧
    exG1.aStar "A" "C" (fun _ _ => 0) = some (["A", "B", "C"], 2) :=
  ⟨claim_C1 exG1 (by unfold WellFormed; with_unfolding_all decide)
      (by unfold NonnegWeights; with_unfolding_all decide) "A" "C" (fun _ _ => 0)
      (fun v p c hv hc => walkCost_nonneg exG1
        (by unfold NonnegWeights; with_unfolding_all decide) p c hc)
      (fun v => le_refl 0) (by with_unfolding_all decide)
      (by with_unfolding_all decide)
      ["A", "B", "C"] (by unfold ValidWalk; with_unfolding_all decide),
   by with_unfolding_all decide⟩
